import Mathlib

set_option maxHeartbeats 4000000
set_option maxRecDepth 8192

/-!
A shallow embedding of the `wireless` dependency-injection container
(package `wireless`, files `providers.go` / the injector file) and proofs
about its behaviour.

Modelling conventions:
* `reflect.Type` is modelled by its stable string rendering (`Ty := String`);
  the reflective predicates the code consults (`Kind() == Interface`,
  `Implements`, `CanConvert`, `AssignableTo`) are abstracted into a
  `TypeEnv` record, since each is a pure function of the Go types involved.
* `reflect.Value` instances are modelled by `Nat` tokens; instance identity
  is token equality.  An invalid (zero) `reflect.Value` is `Option.none`.
* Go `error` values are modelled by `GoErr`; `errors.New` / `fmt.Errorf`
  results are `GoErr.mk` of the formatted string.
* The mutable `*providerFunc` nodes live in a store (`List ProviderFunc`)
  indexed by `id - 1`; pointer dereference is store lookup by id, pointer
  mutation is store update, which faithfully models Go's aliasing of nodes
  between `providersMap`, `providerFuncs` and `dependencies`.
* The two recursions of the source that terminate only because of runtime
  invariants (`checkCycles` by visited-marking, `getProviders` by
  acyclicity of a resolved container) take an explicit fuel argument; the
  callers pass `store.length + 1` and the development proves this fuel is
  never exhausted under the invariants the program maintains.
* Two ghost fields are added to the injector state: `callLog` records one
  entry per factory invocation (`p.value.Call`), `cleanLog` one entry per
  invoked cleanup callback.  They are write-only instrumentation used to
  state execution-count and teardown-order properties.
-/

namespace Wireless

/-- Type tokens: the stable string rendering of a Go `reflect.Type`. -/
abbrev Ty := String

/-- Model of Go `error` values produced and returned by the injector. -/
inductive GoErr where
  /-- `ErrAlreadyResolved` -/
  | alreadyResolved
  /-- `ErrNotResolved` -/
  | notResolved
  /-- `ErrAlreadyCleaned` -/
  | alreadyCleaned
  /-- the `multiError` aggregate -/
  | multi (es : List GoErr)
  /-- an `errors.New` / `fmt.Errorf` error with its rendered message -/
  | mk (s : String)
  /-- an opaque error value returned by a user factory -/
  | custom (n : Nat)
  deriving Repr

/-- Reflective facts about the ambient Go type system, as consulted by the
source through the `reflect` package.  Each field is a pure function of the
types involved. -/
structure TypeEnv where
  /-- `t.Kind() == reflect.Interface` -/
  isInterface : Ty → Bool
  /-- for a pointer type `t`: `t.Elem().Kind() == reflect.Interface` -/
  elemIsInterface : Ty → Bool
  /-- `to.Implements(iface)` -/
  implements : Ty → Ty → Bool
  /-- a value of the first type `CanConvert` to the second type -/
  canConvert : Ty → Ty → Bool
  /-- `t.AssignableTo(errorType)` -/
  assignableToError : Ty → Bool
  /-- `t.AssignableTo(cleanupFunc)` (i.e. to `func()`) -/
  assignableToCleanup : Ty → Bool

/-- The outputs of one call of a factory: the produced value (`outs[0]`),
the error slot and the cleanup slot.  The error slot is read by the engine
only when the node's `errOut > 0`, the cleanup slot only when
`cleanupOut > 0`; `none` models a nil error / nil cleanup func. -/
structure FRes where
  out : Nat
  err : Option GoErr
  cleanup : Option Nat

/-- A resolved input of a provider node (`providerFunc.in` entries). -/
inductive InArg where
  /-- a literal `reflect.Value` -/
  | value (v : Nat)
  /-- a `boundProviderFunc{f, boundAs}` -/
  | bound (pid : Nat) (boundAs : Ty)
  /-- a `*providerFunc` reference -/
  | pfRef (pid : Nat)
  deriving Repr

/-- The `providerFunc` node.  `dependencies`, `inArgs` reference other
nodes by id (pointer identity in Go). -/
structure ProviderFunc where
  id : Nat
  fn : List Nat → FRes
  inTypes : List Ty
  inArgs : List InArg
  dependencies : List Nat
  out : Ty
  errOut : Int
  cleanupOut : Int
  outValue : Option Nat
  cleanup : Option Nat
  depth : Int

instance : Inhabited ProviderFunc :=
  ⟨{ id := 0, fn := fun _ => ⟨0, none, none⟩, inTypes := [], inArgs := [],
     dependencies := [], out := "", errOut := -1, cleanupOut := -1,
     outValue := none, cleanup := none, depth := 0 }⟩

/-- `valueProvider`: `v = none` models a nil payload (`vp.v == nil`);
otherwise the payload's runtime type and the instance token.  The
`ifNotExists` option is stored by `setOptions` but (as in the source's
`resolveValues`) never consulted for values. -/
structure ValueP where
  v : Option (Ty × Nat)
  ifNotExists : Bool := false

/-- The reflect type of one argument of `Bind`: whether it is a pointer
(`Kind() == reflect.Ptr`) and, if so, its `Elem()` type. -/
structure BindArg where
  isPtr : Bool
  elem : Ty

/-- `bindingProvider` -/
structure BindingP where
  iface : BindArg
  toTy : BindArg
  ifNotExists : Bool := false

/-- `interfaceValueProvider`: `value = none` models a nil payload;
`ifaceTy` is `reflect.TypeOf(vp.iface)` (the pointer type `it` the source
manipulates). -/
structure IfaceValueP where
  value : Option (Ty × Nat)
  ifaceTy : Ty
  ifNotExists : Bool := false

/-- `funcProvider`: `isFunc` is `reflect.ValueOf(fp.v).Kind() ==
reflect.Func`; `tyName` the `%T` rendering used in error messages;
`inTypes` / `outTys` the reflected signature; `fn` the callable itself. -/
structure FuncP where
  isFunc : Bool
  tyName : String
  inTypes : List Ty
  outTys : List Ty
  fn : List Nat → FRes
  ifNotExists : Bool := false

/-- The `Provider` interface with its concrete implementations, including
nested `ProviderSet`s. -/
inductive Provider where
  | value (p : ValueP)
  | binding (p : BindingP)
  | ifaceValue (p : IfaceValueP)
  | func (p : FuncP)
  | set (ps : List Provider)

/-- The type token of `*wireless.Injector`, under which `New` registers the
container's self-reference. -/
def injectorTy : Ty := "*wireless.Injector"

/-- The `Injector` state.  `store` holds every `providerFunc` ever created
(position `id - 1`); `callLog` and `cleanLog` are ghost instrumentation
(see the module docstring). -/
structure Injector where
  id : Nat := 0
  resolved : Bool := false
  values : List (Ty × Nat) := []
  providersMap : List (Ty × Nat) := []
  providerFuncs : List Nat := []
  bindings : List (Ty × Ty) := []
  store : List ProviderFunc := []
  valueProviders : List ValueP := []
  bindingProviders : List BindingP := []
  funcProviders : List FuncP := []
  interfaceValueProviders : List IfaceValueP := []
  errors : List GoErr := []
  cleaned : Bool := false
  callLog : List Nat := []
  cleanLog : List Nat := []

/-- `New()`: an empty injector whose value table is seeded with the
self-reference (`i.values[reflect.TypeOf(i)] = reflect.ValueOf(i)`, the
injector instance modelled by token `0`). -/
def New : Injector := { values := [(injectorTy, 0)] }

/-- Lookup in one of the Go maps (modelled as insertion-ordered association
lists; all insertions are guarded by a preceding lookup, so keys are
unique and the model is extensionally a map). -/
def lookup {α : Type} (m : List (Ty × α)) (k : Ty) : Option α :=
  (m.find? (fun e => e.1 == k)).map (fun e => e.2)

/-- Dereference a `*providerFunc` by id. -/
def getPF (store : List ProviderFunc) (pid : Nat) : Option ProviderFunc :=
  store.get? (pid - 1)

/-- Write through a `*providerFunc` by id. -/
def setPF (store : List ProviderFunc) (pid : Nat) (p : ProviderFunc) :
    List ProviderFunc :=
  store.set (pid - 1) p

/-- `p.depth = d` through the pointer. -/
def setDepth (store : List ProviderFunc) (pid : Nat) (d : Int) :
    List ProviderFunc :=
  match getPF store pid with
  | some p => setPF store pid { p with depth := d }
  | none => store

/-- `maxInt` of the source. -/
def maxInt (i j : Int) : Int := if i > j then i else j

/-! ## Registration: `Provide` / `addProviders` -/

mutual

/-- One step of the `addProviders` type switch. -/
def addProvider (i : Injector) : Provider → Injector
  | .ifaceValue p =>
      { i with interfaceValueProviders := i.interfaceValueProviders ++ [p] }
  | .binding p => { i with bindingProviders := i.bindingProviders ++ [p] }
  | .func p => { i with funcProviders := i.funcProviders ++ [p] }
  | .value p => { i with valueProviders := i.valueProviders ++ [p] }
  | .set ps => addProviders i ps

/-- `addProviders`, flattening nested `ProviderSet`s. -/
def addProviders (i : Injector) : List Provider → Injector
  | [] => i
  | p :: rest => addProviders (addProvider i p) rest

end

/-- `Provide` -/
def Provide (i : Injector) (ps : List Provider) : Injector :=
  addProviders i ps

/-! ## `Resolve` phase 1: `resolveBindings` -/

/-- The loop body of `resolveBindings`.  Error strings follow the source's
format strings; the `%T` renderings of the malformed-argument case are
approximated by the argument element types (no claim depends on that
string's exact content). -/
def resolveBindingsLoop (env : TypeEnv) : Injector → List BindingP → Injector
  | i, [] => i
  | i, b :: rest =>
    if !b.iface.isPtr || !b.toTy.isPtr then
      resolveBindingsLoop env
        { i with errors := i.errors ++
            [GoErr.mk ("one of provided bindings are not defining values with `new` statement: " ++
              b.iface.elem ++ " -> " ++ b.toTy.elem)] } rest
    else
      let it := b.iface.elem
      let tt := b.toTy.elem
      if !env.isInterface it then
        resolveBindingsLoop env
          { i with errors := i.errors ++
              [GoErr.mk ("one of provided bindings are not using interface as type: " ++
                it ++ " -> " ++ tt)] } rest
      else if !env.implements tt it then
        resolveBindingsLoop env
          { i with errors := i.errors ++
              [GoErr.mk ("one of provided bindings type does not implement interface type: " ++
                it ++ " -> " ++ tt)] } rest
      else if (lookup i.bindings it).isSome then
        if b.ifNotExists then resolveBindingsLoop env i rest
        else
          resolveBindingsLoop env
            { i with errors := i.errors ++
                [GoErr.mk ("binding between: " ++ it ++ " and " ++ tt ++
                  " is already defined")] } rest
      else
        resolveBindingsLoop env { i with bindings := i.bindings ++ [(it, tt)] } rest

/-- `resolveBindings` -/
def resolveBindings (env : TypeEnv) (i : Injector) : Injector :=
  resolveBindingsLoop env i i.bindingProviders

/-! ## `Resolve` phase 2: `resolveInterfaceValues` -/

/-- The loop body of `resolveInterfaceValues`.  As in the source, a nil
payload appends an error and returns at once (abandoning the remaining
descriptors); the duplicate-check message renders the value's type. -/
def resolveInterfaceValuesLoop (env : TypeEnv) :
    Injector → List IfaceValueP → Injector
  | i, [] => i
  | i, vp :: rest =>
    match vp.value with
    | none =>
        { i with errors := i.errors ++ [GoErr.mk "input value provider is nil"] }
    | some (vt, v) =>
      if !env.elemIsInterface vp.ifaceTy then
        resolveInterfaceValuesLoop env
          { i with errors := i.errors ++
              [GoErr.mk ("one of provided interface values are not using interface as type: " ++
                vp.ifaceTy ++ " -> " ++ vt)] } rest
      else if !env.canConvert vt vp.ifaceTy then
        resolveInterfaceValuesLoop env
          { i with errors := i.errors ++
              [GoErr.mk ("one of provided interface values type does not implement interface type: " ++
                vp.ifaceTy ++ " -> " ++ vt)] } rest
      else if (lookup i.values vp.ifaceTy).isSome then
        resolveInterfaceValuesLoop env
          { i with errors := i.errors ++
              [GoErr.mk ("provider for type: " ++ vt ++ " already exists")] } rest
      else
        resolveInterfaceValuesLoop env
          { i with values := i.values ++ [(vp.ifaceTy, v)] } rest

/-- `resolveInterfaceValues` (skipped entirely when errors were already
accumulated). -/
def resolveInterfaceValues (env : TypeEnv) (i : Injector) : Injector :=
  if !i.errors.isEmpty then i
  else resolveInterfaceValuesLoop env i i.interfaceValueProviders

/-! ## `Resolve` phase 3: `resolveValues` -/

/-- The loop body of `resolveValues`.  A nil payload appends an error and
returns at once; a duplicate type appends an error and continues;
`ifNotExists` is not consulted (exactly as in the source). -/
def resolveValuesLoop : Injector → List ValueP → Injector
  | i, [] => i
  | i, vp :: rest =>
    match vp.v with
    | none =>
        { i with errors := i.errors ++ [GoErr.mk "input value provider is nil"] }
    | some (t, v) =>
      if (lookup i.values t).isSome then
        resolveValuesLoop
          { i with errors := i.errors ++
              [GoErr.mk ("provider for type: " ++ t ++ " already exists")] } rest
      else
        resolveValuesLoop { i with values := i.values ++ [(t, v)] } rest

/-- `resolveValues` (skipped entirely when errors were already
accumulated). -/
def resolveValues (i : Injector) : Injector :=
  if !i.errors.isEmpty then i else resolveValuesLoop i i.valueProviders

/-! ## `Resolve` phase 4a: `matchProviderFuncs` -/

/-- The registration tail of the `matchProviderFuncs` loop body: the
duplicate-output check honouring `ifNotExists`, then entry into
`providersMap`.  The created node is appended to the store in every case
(in Go the struct exists regardless of whether the map retains it). -/
def registerPF (pf : ProviderFunc) (skipIfExists : Bool) (i : Injector) :
    Injector :=
  if (lookup i.providersMap pf.out).isSome then
    if skipIfExists then { i with store := i.store ++ [pf] }
    else
      { i with store := i.store ++ [pf],
               errors := i.errors ++
                 [GoErr.mk ("provider already registered for type: " ++ pf.out)] }
  else
    { i with store := i.store ++ [pf],
             providersMap := i.providersMap ++ [(pf.out, pf.id)] }

/-- The output-shape switch of the `matchProviderFuncs` loop body
(`switch numOut` in the source): either the configured node, or the
validation error together with the partially initialised node that Go had
already built when it hit `continue`. -/
def matchFuncShape (env : TypeEnv) (tyName : String) :
    List Ty → ProviderFunc → Sum ProviderFunc (GoErr × ProviderFunc)
  | [t], base => .inl { base with out := t }
  | [t, second], base =>
    if env.assignableToError second then .inl { base with out := t, errOut := 1 }
    else if env.assignableToCleanup second then
      .inl { base with out := t, cleanupOut := 1 }
    else
      .inr (GoErr.mk ("provider: " ++ tyName ++
          " has invalid out second variable type " ++ second),
        { base with out := t })
  | [t, s1, s2], base =>
    if !env.assignableToCleanup s1 then
      .inr (GoErr.mk ("provider: " ++ tyName ++
          " has invalid out second variable type expected to be a cancel function but is: " ++ s1),
        { base with out := t, cleanupOut := 0 })
    else if !env.assignableToError s2 then
      -- NB: the source's message prints `rvt.Out(1)` here as well.
      .inr (GoErr.mk ("provider: " ++ tyName ++
          " has invalid out second variable type expected to be an error but is: " ++ s1),
        { base with out := t, cleanupOut := 1, errOut := 0 })
    else .inl { base with out := t, cleanupOut := 1, errOut := 2 }
  | outTys, base =>
      .inr (GoErr.mk ("provider: " ++ tyName ++
          " have invalid returned variables number"), base)

/-- The loop body of `matchProviderFuncs`.  Every descriptor that passes
the `Kind() == Func` test consumes an id and appends its (possibly
partially initialised) node to the store — mirroring Go, where the struct
is built before the shape checks; nodes that fail the shape checks or are
dropped by `ifNotExists` are simply never entered into `providersMap`. -/
def matchProviderFuncsLoop (env : TypeEnv) : Injector → List FuncP → Injector
  | i, [] => i
  | i, fp :: rest =>
    if !fp.isFunc then
      matchProviderFuncsLoop env
        { i with errors := i.errors ++
            [GoErr.mk ("provider " ++ fp.tyName ++ " is not a function ")] } rest
    else
      let pfId := i.id + 1
      let i1 := { i with id := pfId }
      let base : ProviderFunc :=
        { id := pfId, fn := fp.fn, inTypes := fp.inTypes, inArgs := [],
          dependencies := [], out := "", errOut := -1, cleanupOut := -1,
          outValue := none, cleanup := none, depth := 0 }
      match matchFuncShape env fp.tyName fp.outTys base with
      | .inl pf =>
          matchProviderFuncsLoop env (registerPF pf fp.ifNotExists i1) rest
      | .inr (e, pf) =>
          matchProviderFuncsLoop env
            { i1 with errors := i1.errors ++ [e],
                      store := i1.store ++ [pf] } rest

/-- `matchProviderFuncs` -/
def matchProviderFuncs (env : TypeEnv) (i : Injector) : Injector :=
  matchProviderFuncsLoop env i i.funcProviders

/-! ## `Resolve` phase 4b: `resolveProvidersDependencies` -/

/-- The inner loop of `resolveProvidersDependencies`: resolve each declared
input type against the value table, the provider map, or (one indirection)
the binding table; `.inl t` is the fatal `no provider found` case for type
`t`.  On success returns the resolved `p.in` entries and the dependency
ids appended for provider / bound-provider matches. -/
def resolveIns (values : List (Ty × Nat)) (pmap : List (Ty × Nat))
    (bindings : List (Ty × Ty)) : List Ty → Sum Ty (List InArg × List Nat)
  | [] => .inr ([], [])
  | t :: rest =>
    let step : Sum Ty (InArg × Option Nat) :=
      match lookup values t with
      | some v => .inr (.value v, none)
      | none =>
        match lookup pmap t with
        | some pid => .inr (.pfRef pid, some pid)
        | none =>
          match lookup bindings t with
          | some bt =>
            match lookup values bt with
            | some v => .inr (.value v, none)  -- `vt.Convert(in)` keeps the instance
            | none =>
              match lookup pmap bt with
              | some pid => .inr (.bound pid t, some pid)
              | none => .inl t
          | none => .inl t
    match step with
    | .inl t => .inl t
    | .inr (arg, dep) =>
      match resolveIns values pmap bindings rest with
      | .inl t => .inl t
      | .inr (args, deps) =>
        .inr (arg :: args, (dep.toList) ++ deps)

/-- The outer loop of `resolveProvidersDependencies` over the entries of
`providersMap`.  (Go iterates the map in unspecified order; the model uses
insertion order.  The per-node effects are independent so only the choice
of *which* missing-dependency error is returned first can differ, and no
theorem below depends on that choice.)  On the error path the source has
already written part of `p.in`; the model leaves the node untouched, a
difference that is unobservable because a failed `Resolve` leaves the
container unresolved. -/
def resolveProvidersDependenciesLoop :
    Injector → List (Ty × Nat) → Option GoErr × Injector
  | i, [] => (none, i)
  | i, (_, pid) :: rest =>
    match getPF i.store pid with
    | none => resolveProvidersDependenciesLoop i rest  -- unreachable: map entries reference created nodes
    | some p =>
      match resolveIns i.values i.providersMap i.bindings p.inTypes with
      | .inl t =>
          (some (.mk ("no provider found for the " ++ t ++ " type")), i)
      | .inr (args, deps) =>
        let p1 := { p with inArgs := args,
                           dependencies := p.dependencies ++ deps,
                           depth := -1 }
        resolveProvidersDependenciesLoop
          { i with store := setPF i.store pid p1 } rest

/-- `resolveProvidersDependencies` -/
def resolveProvidersDependencies (i : Injector) : Option GoErr × Injector :=
  resolveProvidersDependenciesLoop i i.providersMap

/-! ## `Resolve` phase 4c: cycle detection (`checkCycles`) -/

/-- The state threaded through the depth-first search: the `visited` and
`dfsVisited` arrays and the node store (whose `depth` fields the search
writes). -/
structure DfsSt where
  visited : List Bool
  dfs : List Bool
  store : List ProviderFunc

/-- `p.out.String()` for the node with the given id. -/
def outName (store : List ProviderFunc) (pid : Nat) : String :=
  ((getPF store pid).map (fun p => p.out)).getD ""

/-- `dep.depth` read through the pointer. -/
def depthOf (store : List ProviderFunc) (pid : Nat) : Int :=
  ((getPF store pid).map (fun p => p.depth)).getD 0

mutual

/-- `checkCycles` for one node: mark `visited` and `dfsVisited`, walk the
dependency list, and on a clean return set `p.depth = max + 1` and clear
the `dfsVisited` mark.  `none` is fuel exhaustion (never reached: each
nested call targets a previously unvisited node, which it marks at once,
so the nesting depth is bounded by the number of unvisited entries). -/
def checkCycles (fuel : Nat) (pid : Nat) (s : DfsSt) :
    Option ((List String × Bool) × DfsSt) :=
  match fuel with
  | 0 => none
  | fuel + 1 =>
    match getPF s.store pid with
    | none => none  -- a nil node pointer: unreachable
    | some p =>
      let s1 : DfsSt :=
        { s with visited := s.visited.set (pid - 1) true,
                 dfs := s.dfs.set (pid - 1) true }
      match checkCyclesDeps fuel p.out pid p.dependencies (-1) s1 with
      | none => none
      | some (.inl (trace, s2)) => some ((trace, true), s2)
      | some (.inr (mx, s2)) =>
        some ((([] : List String), false),
          { s2 with store := setDepth s2.store pid (mx + 1),
                    dfs := s2.dfs.set (pid - 1) false })

/-- The dependency loop of `checkCycles` for the node with output name
`pOut`: an unvisited dependency is searched recursively (a reported cycle
propagates with `append(trace, p.out.String())`); a dependency still on
the DFS stack is a back-edge, reported as `[]string{dep.out.String()}`;
otherwise `max = maxInt(max, dep.depth)` accumulates. -/
def checkCyclesDeps (fuel : Nat) (pOut : Ty) (pid : Nat) (deps : List Nat)
    (mx : Int) (s : DfsSt) :
    Option (Sum (List String × DfsSt) (Int × DfsSt)) :=
  match deps with
  | [] => some (.inr (mx, s))
  | dep :: rest =>
    if s.visited.getD (dep - 1) false = false then
      match checkCycles fuel dep s with
      | none => none
      | some ((trace, true), s1) =>
          some (.inl (trace ++ [pOut], s1))
      | some ((_, false), s1) =>
          checkCyclesDeps fuel pOut pid rest (maxInt mx (depthOf s1.store dep)) s1
    else if s.dfs.getD (dep - 1) false then
      some (.inl ([outName s.store dep], s))
    else
      checkCyclesDeps fuel pOut pid rest (maxInt mx (depthOf s.store dep)) s

end

/-- The `providers` array of `resolveProvideFunctions`:
`providers[p.id-1] = p` over the entries of `providersMap`.  A write out of
range (possible only when ids are not contiguous, i.e. some descriptor was
dropped) would panic in Go; the model drops it, and every theorem below
operates where ids are contiguous. -/
def buildProviders (m : List (Ty × Nat)) (n : Nat) : List (Option Nat) :=
  m.foldl (fun arr e => arr.set (e.2 - 1) (some e.2)) (List.replicate n none)

/-- The cycle-checking loop of `resolveProvideFunctions` over the
`providers` array.  `some (some trace, _)` is a detected cycle;
a `none` array entry (nil pointer, same non-contiguous-id caveat as
`buildProviders`) is skipped. -/
def cyclesLoop (fuel : Nat) : List (Option Nat) → DfsSt →
    Option (Option (List String) × DfsSt)
  | [], s => some (none, s)
  | none :: rest, s => cyclesLoop fuel rest s
  | some pid :: rest, s =>
    if s.visited.getD (pid - 1) false then cyclesLoop fuel rest s
    else
      match checkCycles fuel pid s with
      | none => none
      | some ((trace, true), s1) => some (some trace, s1)
      | some ((_, false), s1) => cyclesLoop fuel rest s1

/-- `resolveProvideFunctions`: factory matching, the aggregated-error
check, dependency resolution, then cycle detection over every node. -/
def resolveProvideFunctions (env : TypeEnv) (i : Injector) :
    Option GoErr × Injector :=
  let i1 := matchProviderFuncs env i
  if !i1.errors.isEmpty then (some (.multi i1.errors), i1)
  else
    match resolveProvidersDependencies i1 with
    | (some e, i2) => (some e, i2)
    | (none, i2) =>
      let n := i2.providersMap.length
      let provs := buildProviders i2.providersMap n
      match cyclesLoop (i2.store.length + 1) provs
          ⟨List.replicate n false, List.replicate n false, i2.store⟩ with
      | none => (some (.mk "model: checkCycles fuel exhausted"), i2)
      | some (some trace, s1) =>
          (some (.mk ("dependenc cycle detected " ++ String.intercalate "<-" trace)),
           { i2 with store := s1.store })
      | some (none, s1) => (none, { i2 with store := s1.store })

/-- `Resolve` -/
def Resolve (env : TypeEnv) (i : Injector) : Option GoErr × Injector :=
  if i.cleaned then (some .alreadyCleaned, i)
  else if i.resolved then (some .alreadyResolved, i)
  else if !i.errors.isEmpty then (some (.multi i.errors), i)
  else
    let i1 := resolveBindings env i
    let i2 := resolveInterfaceValues env i1
    let i3 := resolveValues i2
    match resolveProvideFunctions env i3 with
    | (some e, i4) => (some e, i4)
    | (none, i4) => (none, { i4 with resolved := true })

/-! ## The resolution engine: `getProviders`, `executeNecessaryProviders` -/

/-- `providerFunc.getProviders`: the transitive dependency closure in
dependencies-before-dependents order, with duplicates for nodes reachable
along several paths (exactly as in the source, which deduplicates nothing
here).  Fuel as in the module docstring; a dangling id contributes nothing
(a nil pointer in Go, unreachable). -/
def getProviders (store : List ProviderFunc) : Nat → Nat → List Nat
  | 0, _ => []
  | fuel + 1, pid =>
    match getPF store pid with
    | none => []
    | some p => (p.dependencies.flatMap (fun d => getProviders store fuel d)) ++ [pid]

/-- Assemble one call argument (`ins[j]`) from a resolved input.  Reading
the `outValue` of a not-yet-executed node would be an invalid
`reflect.Value` in Go (token `0` here); the engine's execution order
ensures it never happens. -/
def readArg (store : List ProviderFunc) : InArg → Nat
  | .value v => v
  | .bound pid _ => ((getPF store pid).bind (fun d => d.outValue)).getD 0
  | .pfRef pid => ((getPF store pid).bind (fun d => d.outValue)).getD 0

/-- The loop of `executeNecessaryProviders` over the provider list: skip
nodes whose `outValue` is already valid; otherwise assemble the inputs,
invoke the factory (ghost-logged in `callLog`), return a non-nil error
slot verbatim, else capture a non-nil cleanup slot, memoize `outs[0]` and
append the node to `providerFuncs`. -/
def execProviders : List Nat → Injector → Option GoErr × Injector
  | [], i => (none, i)
  | pid :: rest, i =>
    match getPF i.store pid with
    | none => execProviders rest i  -- a nil node pointer: unreachable
    | some p =>
      if p.outValue.isSome then execProviders rest i
      else
        let ins := p.inArgs.map (readArg i.store)
        let outs := p.fn ins
        let i1 := { i with callLog := i.callLog ++ [pid] }
        if p.errOut > 0 && outs.err.isSome then (outs.err, i1)
        else
          let p1 := if p.cleanupOut > 0 && outs.cleanup.isSome
                    then { p with cleanup := outs.cleanup } else p
          let p2 := { p1 with outValue := some outs.out }
          execProviders rest
            { i1 with store := setPF i1.store pid p2,
                      providerFuncs := i1.providerFuncs ++ [pid] }

/-- `executeNecessaryProviders` -/
def executeNecessaryProviders (i : Injector) (pid : Nat) :
    Option GoErr × Injector :=
  execProviders (getProviders i.store (i.store.length + 1) pid) i

/-! ## The injection façade: `injectAs`, `InjectAs`, `Inject` -/

/-- The tail of `injectAs` once a provider node is located: return the
memoized output if valid, else execute the necessary providers and read
the (now valid) output.  The middle component is the value written through
the destination pointer (`rVal.Elem().Set(...)`). -/
def injectAsRun (i : Injector) (pid : Nat) :
    Option GoErr × Option Nat × Injector :=
  match getPF i.store pid with
  | none => (none, none, i)  -- a nil node pointer: unreachable
  | some p =>
    if p.outValue.isSome then (none, p.outValue, i)
    else
      match executeNecessaryProviders i pid with
      | (some e, i1) => (some e, none, i1)
      | (none, i1) =>
          (none, (getPF i1.store pid).bind (fun q => q.outValue), i1)

/-- `injectAs` (the private method): value table, then provider map, then
one indirection through the binding table.  Both not-found paths report
the *requested* element type. -/
def injectAs (i : Injector) (elem : Ty) : Option GoErr × Option Nat × Injector :=
  match lookup i.values elem with
  | some v => (none, some v, i)
  | none =>
    match lookup i.providersMap elem with
    | some pid => injectAsRun i pid
    | none =>
      match lookup i.bindings elem with
      | none =>
          (some (.mk ("injector not found for the type: " ++ elem)), none, i)
      | some bv =>
        match lookup i.values bv with
        | some v => (none, some v, i)
        | none =>
          match lookup i.providersMap bv with
          | none =>
              (some (.mk ("injector not found for the type: " ++ elem)), none, i)
          | some pid => injectAsRun i pid

/-- Insertion into the `providerFuncs` log ordered by ascending depth. -/
def insertByDepth (store : List ProviderFunc) (pid : Nat) :
    List Nat → List Nat
  | [] => [pid]
  | q :: rest =>
    if depthOf store pid < depthOf store q then pid :: q :: rest
    else q :: insertByDepth store pid rest

/-- The re-sort of `providerFuncs` by ascending `depth` performed after a
successful request (`sort.Slice(i.providerFuncs, ...)`).  Go's
`sort.Slice` is an unstable sort with the same less-than relation; the
model's insertion sort agrees with it on any log whose depths are
pairwise distinct, and no theorem below compares equal depths. -/
def sortByDepth (store : List ProviderFunc) (l : List Nat) : List Nat :=
  l.foldr (insertByDepth store) []

/-- The reflective shape of the `InjectAs` destination argument. -/
inductive Dest where
  /-- a nil `interface{}` -/
  | nil
  /-- a non-pointer value of the given type -/
  | nonPtr (t : Ty)
  /-- a pointer whose `Elem()` is the given type -/
  | ptr (elem : Ty)

/-- `InjectAs` -/
def InjectAs (i : Injector) (dest : Dest) :
    Option GoErr × Option Nat × Injector :=
  if !i.resolved then (some .notResolved, none, i)
  else if i.cleaned then (some .alreadyCleaned, none, i)
  else if !i.errors.isEmpty then (some (.multi i.errors), none, i)
  else
    match dest with
    | .nil => (some (.mk "input injection type is nil"), none, i)
    | .nonPtr _ => (some (.mk "input injection type is not a pointer"), none, i)
    | .ptr elem =>
      match injectAs i elem with
      | (some e, v, i1) => (some e, v, i1)
      | (none, v, i1) =>
          (none, v,
           { i1 with providerFuncs := sortByDepth i1.store i1.providerFuncs })

/-- One exported field of a destination struct. -/
structure GoField where
  exported : Bool
  /-- carries the struct tag `wireless:"-"` -/
  tagDash : Bool
  ty : Ty

/-- The reflective shape of the `Inject` destination argument after
dereferencing pointers. -/
inductive StructDest where
  /-- a nil `interface{}` -/
  | nil
  /-- dereferences to a non-struct; carries the `%T` rendering -/
  | notStruct (tyName : String)
  /-- dereferences to a struct with the given fields in declaration order -/
  | ofStruct (fields : List GoField)

/-- The field loop of `Inject`: skip unexported fields and fields tagged
`wireless:"-"`, resolve each remaining field type, abort on the first
error. -/
def injectFields : Injector → List GoField → Option GoErr × Injector
  | i, [] => (none, i)
  | i, f :: rest =>
    if !f.exported then injectFields i rest
    else if f.tagDash then injectFields i rest
    else
      match injectAs i f.ty with
      | (some e, _, i1) => (some e, i1)
      | (none, _, i1) => injectFields i1 rest

/-- `Inject` -/
def Inject (i : Injector) (dest : StructDest) : Option GoErr × Injector :=
  if !i.resolved then (some .notResolved, i)
  else if i.cleaned then (some .alreadyCleaned, i)
  else if !i.errors.isEmpty then (some (.multi i.errors), i)
  else
    match dest with
    | .nil => (some (.mk "input injection type is nil"), i)
    | .notStruct tn =>
        (some (.mk ("input injection type is not a pointer to the struct but: " ++ tn)), i)
    | .ofStruct fields =>
      match injectFields i fields with
      | (some e, i1) => (some e, i1)
      | (none, i1) =>
          (none, { i1 with providerFuncs := sortByDepth i1.store i1.providerFuncs })

/-! ## `Clean` -/

/-- `Clean`: walk the (depth-sorted) execution log from the end, invoking
each valid cleanup callback (ghost-logged in `cleanLog`), then set the
`cleaned` flag; a second call is a no-op. -/
def Clean (i : Injector) : Injector :=
  if i.cleaned then i
  else
    let calls := i.providerFuncs.reverse.filterMap
      (fun pid => (getPF i.store pid).bind (fun p => p.cleanup))
    { i with cleanLog := i.cleanLog ++ calls, cleaned := true }

/-! ## Basic store lemmas -/

/-- The memoized output of a node, read through the store. -/
def outValueAt (store : List ProviderFunc) (q : Nat) : Option Nat :=
  (getPF store q).bind (fun p => p.outValue)

theorem getPF_setPF_self {store : List ProviderFunc} {pid : Nat}
    {p : ProviderFunc} (h : pid - 1 < store.length) :
    getPF (setPF store pid p) pid = some p := by
  simp [getPF, setPF, List.get?_eq_getElem?, List.getElem?_set_self h]

theorem getPF_setPF_ne {store : List ProviderFunc} {pid q : Nat}
    {p : ProviderFunc} (h : pid - 1 ≠ q - 1) :
    getPF (setPF store pid p) q = getPF store q := by
  simp [getPF, setPF, List.get?_eq_getElem?, List.getElem?_set_ne h]

theorem length_setPF (store : List ProviderFunc) (pid : Nat)
    (p : ProviderFunc) : (setPF store pid p).length = store.length := by
  simp [setPF]

/-! ## The execution loop: generic lemmas -/

/-- `execProviders` never unsets a memoized output: once `outValue` is
valid it stays, with the same token. -/
theorem execProviders_outValue_mono (L : List Nat) :
    ∀ (i : Injector) (q : Nat) (v : Nat),
      outValueAt i.store q = some v →
      outValueAt (execProviders L i).2.store q = some v := by
  induction L with
  | nil => intro i q v h; simpa [execProviders] using h
  | cons pid rest ih =>
    intro i q v h
    rw [execProviders]
    cases hg : getPF i.store pid with
    | none => exact ih i q v h
    | some p =>
      by_cases hs : p.outValue.isSome
      · simp only [hg, hs, if_pos]
        exact ih i q v h
      · simp only [hg, hs, if_neg, Bool.false_eq_true, not_false_iff]
        by_cases he : p.errOut > 0 && (p.fn (p.inArgs.map (readArg i.store))).err.isSome
        · simp only [he, if_pos]
          exact h
        · simp only [he, if_neg, Bool.not_eq_true]
          apply ih
          by_cases hidx : pid - 1 = q - 1
          · exfalso
            have : getPF i.store q = some p := by
              rw [getPF, ← hidx, ← getPF]; exact hg
            rw [outValueAt, this] at h
            simp only [Option.some_bind] at h
            rw [h] at hs; simp at hs
          · rw [outValueAt, getPF_setPF_ne hidx]
            exact h

theorem getPF_lt {store : List ProviderFunc} {q : Nat} {p : ProviderFunc}
    (h : getPF store q = some p) : q - 1 < store.length := by
  by_contra hge
  rw [getPF, List.get?_eq_getElem?, List.getElem?_eq_none (Nat.le_of_not_lt hge)] at h
  exact Option.noConfusion h

/-- A factory that succeeds on all inputs (the error slot is always nil). -/
def succeedsAlways (p : ProviderFunc) : Prop :=
  ∀ args, (p.fn args).err = none

/-- Fields of the injector state not touched by the execution loop. -/
theorem execProviders_frame (L : List Nat) : ∀ (i : Injector),
    (execProviders L i).2.values = i.values ∧
    (execProviders L i).2.providersMap = i.providersMap ∧
    (execProviders L i).2.bindings = i.bindings ∧
    (execProviders L i).2.resolved = i.resolved ∧
    (execProviders L i).2.cleaned = i.cleaned ∧
    (execProviders L i).2.errors = i.errors ∧
    (execProviders L i).2.cleanLog = i.cleanLog ∧
    (execProviders L i).2.store.length = i.store.length := by
  induction L with
  | nil => intro i; simp [execProviders]
  | cons pid rest ih =>
    intro i
    rw [execProviders]
    cases hg : getPF i.store pid with
    | none => exact ih i
    | some p =>
      by_cases hs : p.outValue.isSome
      · simp only [hs, if_pos]; exact ih i
      · simp only [hs, if_neg, Bool.false_eq_true, not_false_iff]
        by_cases he : p.errOut > 0 && (p.fn (p.inArgs.map (readArg i.store))).err.isSome
        · simp [he]
        · simp only [he, if_neg, Bool.not_eq_true]
          have := ih { i with
            callLog := i.callLog ++ [pid],
            store := setPF i.store pid
              { (if p.cleanupOut > 0 && (p.fn (p.inArgs.map (readArg i.store))).cleanup.isSome
                 then { p with cleanup := (p.fn (p.inArgs.map (readArg i.store))).cleanup }
                 else p) with
                outValue := some (p.fn (p.inArgs.map (readArg i.store))).out },
            providerFuncs := i.providerFuncs ++ [pid] }
          simpa [length_setPF] using this

/-- A node whose output is already memoized is never invoked again by the
execution loop: its ghost call count is unchanged. -/
theorem execProviders_memoized_not_called (L : List Nat) :
    ∀ (i : Injector) (q v : Nat),
      outValueAt i.store q = some v →
      (execProviders L i).2.callLog.count q = i.callLog.count q := by
  induction L with
  | nil => intro i q v _; simp [execProviders]
  | cons pid rest ih =>
    intro i q v h
    rw [execProviders]
    cases hg : getPF i.store pid with
    | none => exact ih i q v h
    | some p =>
      by_cases hs : p.outValue.isSome
      · simp only [hs, if_pos]; exact ih i q v h
      · simp only [hs, if_neg, Bool.false_eq_true, not_false_iff]
        have hqpid : q ≠ pid := by
          intro hqp
          subst hqp
          rw [outValueAt, hg, Option.some_bind] at h
          rw [h] at hs; simp at hs
        by_cases he : p.errOut > 0 && (p.fn (p.inArgs.map (readArg i.store))).err.isSome
        · simp only [he, if_pos]
          simp [List.count_append, List.count_singleton, Ne.symm hqpid]
        · simp only [he, if_neg, Bool.not_eq_true]
          by_cases hidx : pid - 1 = q - 1
          · -- distinct ids sharing an index: the write still leaves a
            -- memoized output at the shared position
            have h2 : outValueAt (setPF i.store pid
                { (if p.cleanupOut > 0 && (p.fn (p.inArgs.map (readArg i.store))).cleanup.isSome
                   then { p with cleanup := (p.fn (p.inArgs.map (readArg i.store))).cleanup }
                   else p) with
              outValue := some (p.fn (p.inArgs.map (readArg i.store))).out }) q
                = some (p.fn (p.inArgs.map (readArg i.store))).out := by
              rw [outValueAt, getPF, ← hidx, ← getPF,
                getPF_setPF_self (getPF_lt hg), Option.some_bind]
            rw [ih _ q _ h2]
            simp [List.count_append, List.count_singleton, Ne.symm hqpid]
          · have h2 : outValueAt (setPF i.store pid
                { (if p.cleanupOut > 0 && (p.fn (p.inArgs.map (readArg i.store))).cleanup.isSome
                   then { p with cleanup := (p.fn (p.inArgs.map (readArg i.store))).cleanup }
                   else p) with
              outValue := some (p.fn (p.inArgs.map (readArg i.store))).out }) q = some v := by
              rw [outValueAt, getPF_setPF_ne hidx]; exact h
            rw [ih _ q _ h2]
            simp [List.count_append, List.count_singleton, Ne.symm hqpid]

/-- Master lemma for a run of the execution loop in which every listed
factory succeeds on all inputs: the loop returns no error, every listed
node ends memoized, and each node's ghost call count grows by exactly one
if it was listed and unexecuted, by zero otherwise. -/
theorem execProviders_success (L : List Nat) :
    ∀ (i : Injector),
      (∀ q ∈ L, 1 ≤ q ∧ ∃ p, getPF i.store q = some p ∧ succeedsAlways p) →
      (execProviders L i).1 = none ∧
      (∀ q ∈ L, (outValueAt (execProviders L i).2.store q).isSome) ∧
      (∀ q : Nat, (execProviders L i).2.callLog.count q =
        i.callLog.count q +
          (if q ∈ L ∧ outValueAt i.store q = none then 1 else 0)) := by
  induction L with
  | nil =>
    intro i _
    refine ⟨by simp [execProviders], by simp, ?_⟩
    intro q; simp [execProviders]
  | cons pid rest ih =>
    intro i hL
    obtain ⟨hpid1, p, hg, hsucc⟩ := hL pid (List.mem_cons_self pid rest)
    rw [execProviders, hg]
    by_cases hs : p.outValue.isSome
    · simp only [hs, if_pos]
      have hrest : ∀ q ∈ rest, 1 ≤ q ∧ ∃ p, getPF i.store q = some p ∧ succeedsAlways p :=
        fun q hq => hL q (List.mem_cons_of_mem pid hq)
      obtain ⟨h1, h2, h3⟩ := ih i hrest
      refine ⟨h1, ?_, ?_⟩
      · intro q hq
        rcases List.mem_cons.mp hq with hq | hq
        · subst hq
          obtain ⟨v, hv⟩ := Option.isSome_iff_exists.mp hs
          have : outValueAt i.store q = some v := by
            rw [outValueAt, hg, Option.some_bind]; exact hv
          rw [execProviders_outValue_mono rest i q v this]; rfl
        · exact h2 q hq
      · intro q
        rw [h3 q]
        congr 1
        by_cases hq : q = pid
        · subst hq
          have : outValueAt i.store q = p.outValue := by
            rw [outValueAt, hg, Option.some_bind]
          simp only [this]
          rcases Option.isSome_iff_exists.mp hs with ⟨v, hv⟩
          simp [hv]
        · have hiff : (q ∈ rest ∧ outValueAt i.store q = none) ↔
              (q ∈ pid :: rest ∧ outValueAt i.store q = none) := by
            constructor <;> rintro ⟨hm, hc⟩ <;> refine ⟨?_, hc⟩
            · exact List.mem_cons_of_mem _ hm
            · rcases List.mem_cons.mp hm with h | h
              · exact absurd h hq
              · exact h
          exact if_congr hiff rfl rfl
    · simp only [hs, if_neg, Bool.false_eq_true, not_false_iff]
      have he : (decide (p.errOut > 0) &&
          (p.fn (p.inArgs.map (readArg i.store))).err.isSome) = false := by
        rw [hsucc (p.inArgs.map (readArg i.store))]
        simp
      simp only [he, Bool.false_eq_true, if_neg, not_false_iff]
      set p2 : ProviderFunc :=
        { (if p.cleanupOut > 0 && (p.fn (p.inArgs.map (readArg i.store))).cleanup.isSome
           then { p with cleanup := (p.fn (p.inArgs.map (readArg i.store))).cleanup }
           else p) with
          outValue := some (p.fn (p.inArgs.map (readArg i.store))).out } with hp2
      set i2 : Injector :=
        { i with callLog := i.callLog ++ [pid],
                 store := setPF i.store pid p2,
                 providerFuncs := i.providerFuncs ++ [pid] } with hi2
      have hp2fn : p2.fn = p.fn := by
        rw [hp2]; by_cases hc : p.cleanupOut > 0 &&
          (p.fn (p.inArgs.map (readArg i.store))).cleanup.isSome <;> simp [hc]
      have hp2out : p2.outValue = some (p.fn (p.inArgs.map (readArg i.store))).out := by
        rw [hp2]
      have hrest : ∀ q ∈ rest, 1 ≤ q ∧ ∃ p, getPF i2.store q = some p ∧ succeedsAlways p := by
        intro q hq
        obtain ⟨hq1, pq, hgq, hsq⟩ := hL q (List.mem_cons_of_mem pid hq)
        refine ⟨hq1, ?_⟩
        by_cases hidx : pid - 1 = q - 1
        · refine ⟨p2, ?_, ?_⟩
          · rw [hi2]
            show getPF (setPF i.store pid p2) q = some p2
            rw [getPF, ← hidx, ← getPF]
            exact getPF_setPF_self (getPF_lt hg)
          · intro args; rw [hp2fn]
            have : pq = p := by
              rw [getPF, ← hidx, ← getPF, hg] at hgq
              exact (Option.some.injEq _ _ ▸ hgq).symm
            rw [← this]; exact hsq args
        · refine ⟨pq, ?_, hsq⟩
          rw [hi2]
          show getPF (setPF i.store pid p2) q = some pq
          rw [getPF_setPF_ne hidx]; exact hgq
      obtain ⟨h1, h2, h3⟩ := ih i2 hrest
      refine ⟨h1, ?_, ?_⟩
      · intro q hq
        rcases List.mem_cons.mp hq with hq | hq
        · subst hq
          have : outValueAt i2.store q = some (p.fn (p.inArgs.map (readArg i.store))).out := by
            rw [hi2]
            show outValueAt (setPF i.store q p2) q = _
            rw [outValueAt, getPF_setPF_self (getPF_lt hg), Option.some_bind, hp2out]
          rw [execProviders_outValue_mono rest i2 q _ this]; rfl
        · exact h2 q hq
      · intro q
        rw [h3 q]
        rw [hi2]
        show (i.callLog ++ [pid]).count q + _ = _
        rw [List.count_append]
        by_cases hq : q = pid
        · subst hq
          have hnone : outValueAt i.store q = none := by
            rw [outValueAt, hg, Option.some_bind]
            exact Option.not_isSome_iff_eq_none.mp hs
          have hsome : outValueAt i2.store q =
              some (p.fn (p.inArgs.map (readArg i.store))).out := by
            rw [hi2]
            show outValueAt (setPF i.store q p2) q = _
            rw [outValueAt, getPF_setPF_self (getPF_lt hg), Option.some_bind, hp2out]
          rw [if_neg (fun hc => by rw [hsome] at hc; exact Option.noConfusion hc.2),
            if_pos ⟨List.mem_cons_self _ _, hnone⟩, List.count_singleton_self]
        · have hcnt : List.count q [pid] = 0 := by
            simp [List.count_singleton, Ne.symm hq]
          rw [hcnt]
          by_cases hidx : pid - 1 = q - 1
          · -- distinct ids with a shared store position would need q = 0 or
            -- pid = 0; every listed id is at least 1, so q is not listed
            have hq0 : q ∉ rest := by
              intro hm
              obtain ⟨hq1, _⟩ := hL q (List.mem_cons_of_mem pid hm)
              omega
            rw [if_neg (fun hc => hq0 hc.1),
              if_neg (fun hc => by
                rcases List.mem_cons.mp hc.1 with h | h
                · exact hq h
                · exact hq0 h)]
          · have hvq2 : outValueAt i2.store q = outValueAt i.store q := by
              rw [hi2]
              show outValueAt (setPF i.store pid p2) q = _
              rw [outValueAt, getPF_setPF_ne hidx]; rfl
            rw [hvq2]
            have hiff : (q ∈ rest ∧ outValueAt i.store q = none) ↔
                (q ∈ pid :: rest ∧ outValueAt i.store q = none) := by
              constructor <;> rintro ⟨hm, hc⟩ <;> refine ⟨?_, hc⟩
              · exact List.mem_cons_of_mem _ hm
              · rcases List.mem_cons.mp hm with h | h
                · exact absurd h hq
                · exact h
            rw [if_congr hiff rfl rfl]
            omega

/-- The execution loop sequences over list concatenation, stopping at the
first error. -/
theorem execProviders_append (L1 L2 : List Nat) : ∀ (i : Injector),
    execProviders (L1 ++ L2) i =
      match execProviders L1 i with
      | (none, i1) => execProviders L2 i1
      | (some e, i1) => (some e, i1) := by
  induction L1 with
  | nil => intro i; simp [execProviders]
  | cons pid rest ih =>
    intro i
    rw [List.cons_append, execProviders, execProviders]
    cases hg : getPF i.store pid with
    | none => exact ih i
    | some p =>
      by_cases hs : p.outValue.isSome
      · simp only [hs, if_pos]; exact ih i
      · simp only [hs, if_neg, Bool.false_eq_true, not_false_iff]
        by_cases he : p.errOut > 0 && (p.fn (p.inArgs.map (readArg i.store))).err.isSome
        · simp only [he, if_pos]
          have : (p.fn (p.inArgs.map (readArg i.store))).err.isSome := by
            cases Bool.and_eq_true_iff.mp he with
            | intro h1 h2 => exact h2
          obtain ⟨e, hee⟩ := Option.isSome_iff_exists.mp this
          simp [hee]
        · simp only [he, if_neg, Bool.not_eq_true]
          exact ih _

/-- Nodes not named in the processed list keep their exact store entry. -/
theorem execProviders_getPF_untouched (L : List Nat) :
    ∀ (i : Injector) (q : Nat), 1 ≤ q → (∀ r ∈ L, 1 ≤ r) → q ∉ L →
      getPF (execProviders L i).2.store q = getPF i.store q := by
  induction L with
  | nil => intro i q _ _ _; simp [execProviders]
  | cons pid rest ih =>
    intro i q hq1 hL hq
    have hqpid : q ≠ pid := fun h => hq (h ▸ List.mem_cons_self pid rest)
    have hrest : q ∉ rest := fun h => hq (List.mem_cons_of_mem pid h)
    have hL1 : ∀ r ∈ rest, 1 ≤ r := fun r hr => hL r (List.mem_cons_of_mem pid hr)
    have hpid1 : 1 ≤ pid := hL pid (List.mem_cons_self pid rest)
    have hidx : pid - 1 ≠ q - 1 := by omega
    rw [execProviders]
    cases hg : getPF i.store pid with
    | none => exact ih i q hq1 hL1 hrest
    | some p =>
      by_cases hs : p.outValue.isSome
      · simp only [hs, if_pos]; exact ih i q hq1 hL1 hrest
      · simp only [hs, if_neg, Bool.false_eq_true, not_false_iff]
        by_cases he : p.errOut > 0 && (p.fn (p.inArgs.map (readArg i.store))).err.isSome
        · simp only [he, if_pos]
        · simp only [he, if_neg, Bool.not_eq_true]
          rw [ih _ q hq1 hL1 hrest]
          show getPF (setPF i.store pid _) q = _
          rw [getPF_setPF_ne hidx]

/-- Nodes not named in the processed list gain no ghost call entries. -/
theorem execProviders_count_untouched (L : List Nat) :
    ∀ (i : Injector) (q : Nat), q ∉ L →
      (execProviders L i).2.callLog.count q = i.callLog.count q := by
  induction L with
  | nil => intro i q _; simp [execProviders]
  | cons pid rest ih =>
    intro i q hq
    have hqpid : q ≠ pid := fun h => hq (h ▸ List.mem_cons_self pid rest)
    have hrest : q ∉ rest := fun h => hq (List.mem_cons_of_mem pid h)
    rw [execProviders]
    cases hg : getPF i.store pid with
    | none => exact ih i q hrest
    | some p =>
      by_cases hs : p.outValue.isSome
      · simp only [hs, if_pos]; exact ih i q hrest
      · simp only [hs, if_neg, Bool.false_eq_true, not_false_iff]
        by_cases he : p.errOut > 0 && (p.fn (p.inArgs.map (readArg i.store))).err.isSome
        · simp only [he, if_pos]
          simp [List.count_append, List.count_singleton, Ne.symm hqpid]
        · simp only [he, if_neg, Bool.not_eq_true]
          rw [ih _ q hrest]
          simp [List.count_append, List.count_singleton, Ne.symm hqpid]

/-- A node whose factory reports an error stops the loop at once: the
error value is returned verbatim and the only state change is the ghost
record of the failed invocation. -/
theorem execProviders_failStep (i : Injector) (pfail : Nat) (L2 : List Nat)
    (pp : ProviderFunc) (e : GoErr)
    (hg : getPF i.store pfail = some pp)
    (hout : pp.outValue = none)
    (herr : pp.errOut > 0)
    (hf : (pp.fn (pp.inArgs.map (readArg i.store))).err = some e) :
    execProviders (pfail :: L2) i =
      (some e, { i with callLog := i.callLog ++ [pfail] }) := by
  rw [execProviders, hg]
  have hs : ¬ pp.outValue.isSome := by rw [hout]; simp
  simp only [hs, if_neg, Bool.false_eq_true, not_false_iff]
  rw [hf]
  simp [herr]

/-! ## Reachability along dependency edges, and `getProviders` -/

/-- One dependency edge in the resolved node store. -/
def DepEdge (store : List ProviderFunc) (a b : Nat) : Prop :=
  ∃ p, getPF store a = some p ∧ b ∈ p.dependencies

/-- Reflexive-transitive reachability along dependency edges: the
"transitively depended-on" relation. -/
inductive Reaches (store : List ProviderFunc) : Nat → Nat → Prop
  | refl (a : Nat) : Reaches store a a
  | step {a b c : Nat} : DepEdge store a b → Reaches store b c →
      Reaches store a c

/-- The store invariant established by a successful cycle check: every
node's depth is nonnegative and below the store size, and depths strictly
decrease along dependency edges (whose targets are valid ids). -/
def DepthGood (store : List ProviderFunc) : Prop :=
  ∀ a p, getPF store a = some p →
    0 ≤ p.depth ∧ p.depth < (store.length : Int) ∧
    ∀ b ∈ p.dependencies, 1 ≤ b ∧
      ∃ q, getPF store b = some q ∧ q.depth < p.depth

/-- Every id listed by `getProviders` names a live node. -/
theorem getProviders_valid (store : List ProviderFunc) :
    ∀ (fuel pid q : Nat), q ∈ getProviders store fuel pid →
      ∃ p, getPF store q = some p := by
  intro fuel
  induction fuel with
  | zero => intro pid q hq; simp [getProviders] at hq
  | succ fuel ih =>
    intro pid q hq
    rw [getProviders] at hq
    cases hg : getPF store pid with
    | none => rw [hg] at hq; simp at hq
    | some p =>
      rw [hg] at hq
      rcases List.mem_append.mp hq with hq | hq
      · obtain ⟨d, _, hqd⟩ := List.mem_flatMap.mp hq
        exact ih d q hqd
      · rw [List.mem_singleton.mp hq]
        exact ⟨p, hg⟩

/-- Every id listed by `getProviders` is at least 1, provided the root is
and dependency ids are. -/
theorem getProviders_pos (store : List ProviderFunc) (hd : DepthGood store) :
    ∀ (fuel pid q : Nat), 1 ≤ pid → q ∈ getProviders store fuel pid →
      1 ≤ q := by
  intro fuel
  induction fuel with
  | zero => intro pid q _ hq; simp [getProviders] at hq
  | succ fuel ih =>
    intro pid q hpid hq
    rw [getProviders] at hq
    cases hg : getPF store pid with
    | none => rw [hg] at hq; simp at hq
    | some p =>
      rw [hg] at hq
      rcases List.mem_append.mp hq with hq | hq
      · obtain ⟨d, hd2, hqd⟩ := List.mem_flatMap.mp hq
        have := ((hd pid p hg).2.2 d hd2).1
        exact ih d q this hqd
      · rw [List.mem_singleton.mp hq]; exact hpid

/-- Soundness: everything listed by `getProviders` is reachable from the
root. -/
theorem getProviders_sound (store : List ProviderFunc) :
    ∀ (fuel pid q : Nat), q ∈ getProviders store fuel pid →
      Reaches store pid q := by
  intro fuel
  induction fuel with
  | zero => intro pid q hq; simp [getProviders] at hq
  | succ fuel ih =>
    intro pid q hq
    rw [getProviders] at hq
    cases hg : getPF store pid with
    | none => rw [hg] at hq; simp at hq
    | some p =>
      rw [hg] at hq
      rcases List.mem_append.mp hq with hq | hq
      · obtain ⟨d, hd2, hqd⟩ := List.mem_flatMap.mp hq
        exact Reaches.step ⟨p, hg, hd2⟩ (ih d q hqd)
      · rw [List.mem_singleton.mp hq]
        exact Reaches.refl pid

/-- Completeness: with enough fuel (more than the root's depth), every
node reachable from the root is listed by `getProviders`. -/
theorem getProviders_complete (store : List ProviderFunc)
    (hd : DepthGood store) :
    ∀ (fuel : Nat) (pid q : Nat) (p : ProviderFunc),
      getPF store pid = some p → p.depth < (fuel : Int) →
      Reaches store pid q → q ∈ getProviders store fuel pid := by
  intro fuel
  induction fuel with
  | zero =>
    intro pid q p hg hf _
    exact absurd hf (by have := (hd pid p hg).1; omega)
  | succ fuel ih =>
    intro pid q p hg hf hr
    rw [getProviders, hg]
    cases hr with
    | refl => exact List.mem_append_right _ (List.mem_singleton_self pid)
    | @step _ b _ he hr2 =>
      rcases he with ⟨p2, hg2, hb⟩
      have hp2 : p2 = p := by rw [hg2] at hg; exact Option.some.inj hg
      subst hp2
      obtain ⟨_, qb, hgb, hdb⟩ := (hd pid p2 hg2).2.2 b hb
      refine List.mem_append_left _ (List.mem_flatMap.mpr ⟨b, hb, ?_⟩)
      exact ih b q qb hgb (by omega) hr2

/-! ## DFS utilities: colours, counters, store equality up to depth -/

/-- An unvisited node. -/
def isWhite (s : DfsSt) (q : Nat) : Prop := s.visited.getD (q - 1) false = false

/-- A node on the DFS stack. -/
def isGray (s : DfsSt) (q : Nat) : Prop := s.dfs.getD (q - 1) false = true

/-- A finished node: visited and off the stack. -/
def isBlack (s : DfsSt) (q : Nat) : Prop := ¬ isWhite s q ∧ ¬ isGray s q

/-- Number of unvisited entries. -/
def Wc (s : DfsSt) : Nat := s.visited.count false

/-- Number of on-stack entries. -/
def Gc (s : DfsSt) : Nat := s.dfs.count true

theorem getD_set_self (l : List Bool) (k : Nat) (b : Bool)
    (h : k < l.length) : (l.set k b).getD k false = b := by
  rw [List.getD_eq_getElem?_getD, List.getElem?_set_self (by simpa using h)]
  rfl

theorem getD_set_ne (l : List Bool) (k j : Nat) (b : Bool) (h : k ≠ j) :
    (l.set k b).getD j false = l.getD j false := by
  rw [List.getD_eq_getElem?_getD, List.getElem?_set_ne h,
    ← List.getD_eq_getElem?_getD]

theorem count_set_false_true : ∀ (l : List Bool) (k : Nat),
    k < l.length → l.getD k false = false →
    (l.set k true).count false + 1 = l.count false := by
  intro l
  induction l with
  | nil => intro k h; simp at h
  | cons a rest ih =>
    intro k hk hv
    cases k with
    | zero =>
      simp only [List.getD_cons_zero] at hv
      subst hv
      simp [List.count_cons]
    | succ k =>
      simp only [List.getD_cons_succ] at hv
      have := ih k (by simpa using hk) hv
      simp only [List.set_cons_succ, List.count_cons]
      omega

theorem count_set_true_grows : ∀ (l : List Bool) (k : Nat),
    k < l.length → l.getD k false = false →
    (l.set k true).count true = l.count true + 1 := by
  intro l
  induction l with
  | nil => intro k h; simp at h
  | cons a rest ih =>
    intro k hk hv
    cases k with
    | zero =>
      simp only [List.getD_cons_zero] at hv
      subst hv
      simp [List.count_cons]
    | succ k =>
      simp only [List.getD_cons_succ] at hv
      have := ih k (by simpa using hk) hv
      simp only [List.set_cons_succ, List.count_cons]
      omega

theorem count_set_true_false : ∀ (l : List Bool) (k : Nat),
    k < l.length → l.getD k false = true →
    (l.set k false).count true + 1 = l.count true := by
  intro l
  induction l with
  | nil => intro k h; simp at h
  | cons a rest ih =>
    intro k hk hv
    cases k with
    | zero =>
      simp only [List.getD_cons_zero] at hv
      subst hv
      simp [List.count_cons]
    | succ k =>
      simp only [List.getD_cons_succ] at hv
      have := ih k (by simpa using hk) hv
      simp only [List.set_cons_succ, List.count_cons]
      omega

/-- Disjointness bound: if every on-stack entry is visited, the unvisited
count plus the on-stack count is at most the array length; strictly less
when some position is visited and off-stack. -/
theorem count_disjoint : ∀ (v d : List Bool), v.length = d.length →
    (∀ k, k < v.length → d.getD k false = true → v.getD k false = true) →
    v.count false + d.count true ≤ v.length := by
  intro v
  induction v with
  | nil => intro d h _; simp [List.length_eq_zero.mp h.symm]
  | cons a rest ih =>
    intro d hlen hdis
    cases d with
    | nil => simp at hlen
    | cons b drest =>
      have hlen2 : rest.length = drest.length := by simpa using hlen
      have hdis2 : ∀ k, k < rest.length → drest.getD k false = true →
          rest.getD k false = true := by
        intro k hk hb
        have := hdis (k + 1) (by simpa using Nat.succ_lt_succ hk)
        simp only [List.getD_cons_succ] at this
        exact this hb
      have hrest := ih drest hlen2 hdis2
      have h0 := hdis 0 (by simp)
      simp only [List.getD_cons_zero] at h0
      simp only [List.count_cons, List.length_cons]
      cases a with
      | false =>
        cases b with
        | false => simp; omega
        | true => exact absurd (h0 rfl) (by simp)
      | true =>
        cases b with
        | false => simp; omega
        | true => simp; omega

theorem count_disjoint_strict : ∀ (v d : List Bool), v.length = d.length →
    (∀ k, k < v.length → d.getD k false = true → v.getD k false = true) →
    ∀ j, j < v.length → v.getD j false = true → d.getD j false = false →
    v.count false + d.count true + 1 ≤ v.length := by
  intro v
  induction v with
  | nil => intro d _ _ j hj; simp at hj
  | cons a rest ih =>
    intro d hlen hdis j hj hvj hdj
    cases d with
    | nil => simp at hlen
    | cons b drest =>
      have hlen2 : rest.length = drest.length := by simpa using hlen
      have hdis2 : ∀ k, k < rest.length → drest.getD k false = true →
          rest.getD k false = true := by
        intro k hk hb
        have := hdis (k + 1) (by simpa using Nat.succ_lt_succ hk)
        simp only [List.getD_cons_succ] at this
        exact this hb
      cases j with
      | zero =>
        simp only [List.getD_cons_zero] at hvj hdj
        subst hvj; subst hdj
        have := count_disjoint rest drest hlen2 hdis2
        simp [List.count_cons]
        omega
      | succ j =>
        simp only [List.getD_cons_succ] at hvj hdj
        have hrest := ih drest hlen2 hdis2 j (by simpa using hj) hvj hdj
        have h0 := hdis 0 (by simp)
        simp only [List.getD_cons_zero] at h0
        simp only [List.count_cons, List.length_cons]
        cases a with
        | false =>
          cases b with
          | false => simp; omega
          | true => exact absurd (h0 rfl) (by simp)
        | true =>
          cases b with
          | false => simp; omega
          | true => simp; omega

/-- Store equality up to `depth` fields (the only node attribute the cycle
detector writes). -/
def EqExceptDepth (st1 st2 : List ProviderFunc) : Prop :=
  st1.length = st2.length ∧
  ∀ k, k < st1.length → ∃ p d, st1.get? k = some p ∧
    st2.get? k = some { p with depth := d }

theorem EqExceptDepth.reflEq (st : List ProviderFunc) : EqExceptDepth st st := by
  refine ⟨rfl, ?_⟩
  intro k hk
  obtain ⟨p, hp⟩ := Option.isSome_iff_exists.mp
    (by rw [List.get?_eq_getElem?]; simp [List.getElem?_eq_getElem hk] :
      (st.get? k).isSome)
  exact ⟨p, p.depth, hp, by rw [hp]⟩

theorem EqExceptDepth.transEq {s1 s2 s3 : List ProviderFunc}
    (h12 : EqExceptDepth s1 s2) (h23 : EqExceptDepth s2 s3) :
    EqExceptDepth s1 s3 := by
  refine ⟨h12.1.trans h23.1, ?_⟩
  intro k hk
  obtain ⟨p, d, hp, hq⟩ := h12.2 k hk
  obtain ⟨p2, d2, hp2, hq2⟩ := h23.2 k (h12.1 ▸ hk)
  rw [hq] at hp2
  have : p2 = { p with depth := d } := (Option.some.inj hp2).symm
  subst this
  exact ⟨p, d2, hp, hq2⟩

theorem EqExceptDepth.setDepth (st : List ProviderFunc) (pid : Nat) (d : Int) :
    EqExceptDepth st (setDepth st pid d) := by
  unfold Wireless.setDepth
  cases hg : getPF st pid with
  | none => exact EqExceptDepth.reflEq st
  | some p =>
    refine ⟨(length_setPF st pid _).symm, ?_⟩
    intro k hk
    by_cases hkp : k = pid - 1
    · subst hkp
      refine ⟨p, d, ?_, ?_⟩
      · rw [← getPF]; exact hg
      · show (setPF st pid _).get? (pid - 1) = _
        rw [← getPF, getPF_setPF_self (getPF_lt hg)]
    · obtain ⟨q, hq⟩ := Option.isSome_iff_exists.mp
        (by rw [List.get?_eq_getElem?]; simp [List.getElem?_eq_getElem hk] :
          (st.get? k).isSome)
      refine ⟨q, q.depth, hq, ?_⟩
      show (setPF st pid _).get? k = _
      rw [setPF, List.get?_eq_getElem?, List.getElem?_set_ne (fun h => hkp h.symm),
        ← List.get?_eq_getElem?, hq]

theorem EqExceptDepth.getPF_iff {st1 st2 : List ProviderFunc}
    (h : EqExceptDepth st1 st2) (q : Nat) :
    ∀ p, getPF st1 q = some p → ∃ d, getPF st2 q = some { p with depth := d } := by
  intro p hp
  have hk : q - 1 < st1.length := getPF_lt hp
  obtain ⟨p2, d, hp2, hq2⟩ := h.2 (q - 1) hk
  rw [getPF] at hp
  rw [hp] at hp2
  have : p2 = p := Option.some.inj hp2.symm
  subst this
  exact ⟨d, hq2⟩

theorem EqExceptDepth.getPF_none {st1 st2 : List ProviderFunc}
    (h : EqExceptDepth st1 st2) (q : Nat) (hp : getPF st1 q = none) :
    getPF st2 q = none := by
  rw [getPF] at hp ⊢
  rw [List.get?_eq_getElem?] at hp ⊢
  rcases Nat.lt_or_ge (q - 1) st1.length with hlt | hge
  · obtain ⟨p, d, hp1, _⟩ := h.2 (q - 1) hlt
    rw [List.get?_eq_getElem?] at hp1
    rw [hp1] at hp; exact Option.noConfusion hp
  · exact List.getElem?_eq_none (h.1 ▸ hge)

theorem EqExceptDepth.outName {st1 st2 : List ProviderFunc}
    (h : EqExceptDepth st1 st2) (q : Nat) : outName st2 q = outName st1 q := by
  cases hp : getPF st1 q with
  | none =>
    have h2 := h.getPF_none q hp
    simp [Wireless.outName, hp, h2]
  | some p =>
    obtain ⟨d, hd⟩ := h.getPF_iff q p hp
    simp [Wireless.outName, hp, hd]

theorem EqExceptDepth.depEdge {st1 st2 : List ProviderFunc}
    (h : EqExceptDepth st1 st2) {a b : Nat} (he : DepEdge st1 a b) :
    DepEdge st2 a b := by
  obtain ⟨p, hp, hb⟩ := he
  obtain ⟨d, hd⟩ := h.getPF_iff a p hp
  exact ⟨{ p with depth := d }, hd, hb⟩

theorem EqExceptDepth.symm {st1 st2 : List ProviderFunc}
    (h : EqExceptDepth st1 st2) : EqExceptDepth st2 st1 := by
  refine ⟨h.1.symm, ?_⟩
  intro k hk
  obtain ⟨p, d, hp, hq⟩ := h.2 k (h.1 ▸ hk)
  exact ⟨{ p with depth := d }, p.depth, hq, by rw [hp]⟩

/-- The chain property of the DFS stack: consecutive entries are joined by
dependency edges. -/
def StackChain (store : List ProviderFunc) (l : List Nat) : Prop :=
  List.Chain' (DepEdge store) l

theorem StackChain.ofEqStore {st1 st2 : List ProviderFunc}
    (h : EqExceptDepth st1 st2) (l : List Nat) (hc : StackChain st1 l) :
    StackChain st2 l :=
  List.Chain'.imp (fun _ _ he => h.depEdge he) hc

theorem StackChain.append_one {store : List ProviderFunc}
    (l : List Nat) (pid d : Nat) (hc : StackChain store (l ++ [pid]))
    (he : DepEdge store pid d) : StackChain store ((l ++ [pid]) ++ [d]) := by
  rw [StackChain, List.chain'_append]
  refine ⟨hc, List.chain'_singleton d, ?_⟩
  intro x hx y hy
  have hx2 : pid = x := by
    rw [List.getLast?_append] at hx
    simpa using hx
  have hy2 : d = y := by simpa using hy
  rw [← hx2, ← hy2]; exact he

/-- A nonempty edge-closed loop in the store graph. -/
def IsCycle (store : List ProviderFunc) (c : List Nat) : Prop :=
  c ≠ [] ∧ List.Chain' (DepEdge store) c ∧
    ∀ x ∈ c.getLast?, ∀ y ∈ c.head?, DepEdge store x y

theorem IsCycle.ofEqCycle {st1 st2 : List ProviderFunc}
    (h : EqExceptDepth st1 st2) {c : List Nat} (hc : IsCycle st1 c) :
    IsCycle st2 c := by
  obtain ⟨hne, hch, hcl⟩ := hc
  exact ⟨hne, List.Chain'.imp (fun _ _ he => h.depEdge he) hch,
    fun x hx y hy => h.depEdge (hcl x hx y hy)⟩

/-- A store contains a dependency cycle. -/
def HasCycle (store : List ProviderFunc) : Prop := ∃ c, IsCycle store c

/-! ## DFS invariants and specification predicates -/

theorem maxInt_le_left (i j : Int) : i ≤ maxInt i j := by
  rw [maxInt]; split <;> omega

theorem maxInt_le_right (i j : Int) : j ≤ maxInt i j := by
  rw [maxInt]; split <;> omega

theorem maxInt_lt {i j c : Int} (hi : i < c) (hj : j < c) : maxInt i j < c := by
  rw [maxInt]; split <;> omega

theorem getPF_some_of_lt {store : List ProviderFunc} {q : Nat}
    (h : q - 1 < store.length) : ∃ p, getPF store q = some p := by
  rw [getPF, List.get?_eq_getElem?]
  exact ⟨store[q - 1], by simp [List.getElem?_eq_getElem h]⟩

theorem getPF_setDepth_self {store : List ProviderFunc} {pid : Nat}
    {p : ProviderFunc} (hg : getPF store pid = some p) (d : Int) :
    getPF (setDepth store pid d) pid = some { p with depth := d } := by
  unfold Wireless.setDepth
  rw [hg]
  exact getPF_setPF_self (getPF_lt hg)

theorem getPF_setDepth_ne {store : List ProviderFunc} {pid q : Nat}
    (h : pid - 1 ≠ q - 1) (d : Int) :
    getPF (setDepth store pid d) q = getPF store q := by
  unfold Wireless.setDepth
  cases hg : getPF store pid with
  | none => rfl
  | some p => exact getPF_setPF_ne h

theorem length_setDepth (store : List ProviderFunc) (pid : Nat) (d : Int) :
    (setDepth store pid d).length = store.length := by
  unfold Wireless.setDepth
  cases getPF store pid with
  | none => rfl
  | some p => exact length_setPF store pid _

theorem white_mem_false {s : DfsSt} {q : Nat} (hw : isWhite s q)
    (hq : q - 1 < s.visited.length) : (false : Bool) ∈ s.visited := by
  rw [isWhite] at hw
  rw [List.getD_eq_getElem?_getD, List.getElem?_eq_getElem hq] at hw
  simp only [Option.getD_some] at hw
  exact hw ▸ List.getElem_mem hq

theorem white_Wc_pos {s : DfsSt} {q : Nat} (hw : isWhite s q)
    (hq : q - 1 < s.visited.length) : 1 ≤ Wc s :=
  List.count_pos_iff.mpr (white_mem_false hw hq)

theorem set_false_id : ∀ (l : List Bool) (k : Nat),
    l.getD k false = false → l.set k false = l := by
  intro l
  induction l with
  | nil => intro k _; rfl
  | cons a rest ih =>
    intro k hk
    cases k with
    | zero => simp only [List.getD_cons_zero] at hk; simp [hk]
    | succ k =>
      simp only [List.getD_cons_succ] at hk
      simp [ih k hk]

/-- Well-formedness of a DFS state: array lengths match the store, the
dependencies of live nodes are valid ids, and on-stack entries are
visited. -/
structure DfsWf (s : DfsSt) : Prop where
  vlen : s.visited.length = s.store.length
  dlen : s.dfs.length = s.store.length
  depsWf : ∀ k p, getPF s.store k = some p → ∀ d ∈ p.dependencies,
    1 ≤ d ∧ d - 1 < s.store.length
  grayVis : ∀ q, isGray s q → s.visited.getD (q - 1) false = true

/-- Finished nodes carry correct depth information: nonnegative, bounded
by the number of finished nodes (expressed through the unvisited and
on-stack counters), and strictly above the depths of all (finished)
dependencies. -/
def BlackInv (s : DfsSt) : Prop :=
  ∀ b, 1 ≤ b → b - 1 < s.store.length → isBlack s b →
    ∃ p, getPF s.store b = some p ∧ 0 ≤ p.depth ∧
      p.depth + (Wc s : Int) + (Gc s : Int) < (s.store.length : Int) ∧
      ∀ d ∈ p.dependencies, isBlack s d ∧
        ∃ q, getPF s.store d = some q ∧ q.depth < p.depth

/-- The stack discipline: the gray set is exactly the stack, without
duplicates, and stack entries are valid ids. -/
def GrayInv (s : DfsSt) (st : List Nat) : Prop :=
  (∀ q, 1 ≤ q → (isGray s q ↔ q ∈ st)) ∧ st.Nodup ∧
  ∀ q ∈ st, 1 ≤ q ∧ q - 1 < s.store.length

/-- State evolution facts common to every DFS call. -/
structure DfsEvolves (s s1 : DfsSt) : Prop where
  store : EqExceptDepth s.store s1.store
  vlen : s1.visited.length = s.visited.length
  dlen : s1.dfs.length = s.dfs.length
  visMono : ∀ k, s.visited.getD k false = true → s1.visited.getD k false = true
  wcLe : Wc s1 ≤ Wc s
  blackMono : ∀ q, 1 ≤ q → isBlack s q → isBlack s1 q
  blackStable : ∀ q, 1 ≤ q → isBlack s q → getPF s1.store q = getPF s.store q

theorem DfsEvolves.reflEv (s : DfsSt) : DfsEvolves s s :=
  ⟨EqExceptDepth.reflEq s.store, rfl, rfl, fun _ h => h, Nat.le.refl,
   fun _ _ h => h, fun _ _ _ => rfl⟩

theorem DfsEvolves.transEv {s1 s2 s3 : DfsSt} (h12 : DfsEvolves s1 s2)
    (h23 : DfsEvolves s2 s3) : DfsEvolves s1 s3 :=
  ⟨h12.store.transEq h23.store, h23.vlen.trans h12.vlen,
   h23.dlen.trans h12.dlen,
   fun k h => h23.visMono k (h12.visMono k h),
   Nat.le_trans h23.wcLe h12.wcLe,
   fun q h1 hb => h23.blackMono q h1 (h12.blackMono q h1 hb),
   fun q h1 hb =>
     (h23.blackStable q h1 (h12.blackMono q h1 hb)).trans
       (h12.blackStable q h1 hb)⟩

/-- What a cycle report means, relative to the pre-state and the current
stack: there is a genuine cycle, and the trace names the output type of
every cycle node other than the back-edge origin `o` — except for nodes
still on the caller's stack, whose names the callers will append during
unwinding. -/
def CycleFound (s : DfsSt) (st : List Nat) (trace : List String) : Prop :=
  ∃ c o, IsCycle s.store c ∧ o ∈ c ∧
    (∀ q ∈ c, 1 ≤ q ∧ q - 1 < s.store.length) ∧
    ∀ q ∈ c, q ≠ o → outName s.store q ∈ trace ∨ q ∈ st

/-- Full functional specification of `checkCycles` at a given fuel. -/
def NodeSpec (fuel : Nat) : Prop :=
  ∀ (pid : Nat) (s : DfsSt) (st : List Nat),
    DfsWf s → BlackInv s → GrayInv s st → StackChain s.store (st ++ [pid]) →
    1 ≤ pid → pid - 1 < s.store.length → isWhite s pid →
    Wc s ≤ fuel →
    ∃ trace b s1, checkCycles fuel pid s = some ((trace, b), s1) ∧
      DfsEvolves s s1 ∧ DfsWf s1 ∧
      (b = true → CycleFound s st trace) ∧
      (b = false →
        s1.dfs = s.dfs ∧ ¬ isWhite s1 pid ∧ BlackInv s1 ∧ Wc s1 < Wc s)

/-- Full functional specification of `checkCyclesDeps` at a given fuel. -/
def DepsSpec (fuel : Nat) : Prop :=
  ∀ (pid : Nat) (deps : List Nat) (mx : Int) (s : DfsSt) (st : List Nat),
    DfsWf s → BlackInv s → GrayInv s (st ++ [pid]) →
    StackChain s.store (st ++ [pid]) →
    1 ≤ pid → pid - 1 < s.store.length →
    (∀ d ∈ deps, DepEdge s.store pid d) →
    -1 ≤ mx → mx + (Wc s : Int) + (Gc s : Int) < (s.store.length : Int) →
    Wc s ≤ fuel →
    ∃ r, checkCyclesDeps fuel (outName s.store pid) pid deps mx s = some r ∧
      ( (∃ trace s1, r = .inl (trace, s1) ∧ DfsEvolves s s1 ∧ DfsWf s1 ∧
          CycleFound s st trace) ∨
        (∃ mx1 s1, r = .inr (mx1, s1) ∧ DfsEvolves s s1 ∧ DfsWf s1 ∧
          s1.dfs = s.dfs ∧ mx ≤ mx1 ∧ -1 ≤ mx1 ∧
          mx1 + (Wc s1 : Int) + (Gc s1 : Int) < (s.store.length : Int) ∧
          BlackInv s1 ∧
          ∀ d ∈ deps, isBlack s1 d ∧
            ∃ q, getPF s1.store d = some q ∧ q.depth ≤ mx1) )

theorem nodeSpec_zero : NodeSpec 0 := by
  intro pid s st hwf _ _ _ _ hlt hwhite hfuel
  have := white_Wc_pos hwhite (hwf.vlen ▸ hlt)
  omega

theorem nodeSpec_succ (fuel : Nat) (ihDeps : DepsSpec fuel) :
    NodeSpec (fuel + 1) := by
  intro pid s st hwf hblack hgray hchain hpid1 hlt hwhite hfuel
  obtain ⟨p, hg⟩ := getPF_some_of_lt hlt
  set s1 : DfsSt :=
    { s with visited := s.visited.set (pid - 1) true,
             dfs := s.dfs.set (pid - 1) true } with hs1
  have hstore1 : s1.store = s.store := rfl
  have hpidvis : pid - 1 < s.visited.length := hwf.vlen ▸ hlt
  have hpiddfs : pid - 1 < s.dfs.length := hwf.dlen ▸ hlt
  have hnotgray : s.dfs.getD (pid - 1) false = false := by
    cases hd : s.dfs.getD (pid - 1) false
    · rfl
    · exfalso
      have hv := hwf.grayVis pid hd
      rw [isWhite] at hwhite
      rw [hv] at hwhite; exact Bool.noConfusion hwhite
  have hW1 : Wc s1 + 1 = Wc s := by
    rw [Wc, Wc, hs1]
    exact count_set_false_true s.visited (pid - 1) hpidvis hwhite
  have hG1 : Gc s1 = Gc s + 1 := by
    rw [Gc, Gc, hs1]
    exact count_set_true_grows s.dfs (pid - 1) hpiddfs hnotgray
  have hpid_notin_st : pid ∉ st := by
    intro hmem
    have hgp := (hgray.1 pid hpid1).mpr hmem
    have hv := hwf.grayVis pid hgp
    rw [isWhite] at hwhite
    rw [hv] at hwhite; exact Bool.noConfusion hwhite
  -- colour-transfer facts at untouched positions
  have hwEq : ∀ q, q - 1 ≠ pid - 1 → (isWhite s1 q ↔ isWhite s q) := by
    intro q hq
    rw [isWhite, isWhite, hs1]
    show (s.visited.set (pid-1) true).getD (q-1) false = false ↔ _
    rw [getD_set_ne _ _ _ _ (fun h => hq h.symm)]
  have hgEq : ∀ q, q - 1 ≠ pid - 1 → (isGray s1 q ↔ isGray s q) := by
    intro q hq
    rw [isGray, isGray, hs1]
    show (s.dfs.set (pid-1) true).getD (q-1) false = true ↔ _
    rw [getD_set_ne _ _ _ _ (fun h => hq h.symm)]
  have hgPid : isGray s1 pid := by
    rw [isGray, hs1]
    show (s.dfs.set (pid-1) true).getD (pid-1) false = true
    exact getD_set_self _ _ _ hpiddfs
  have hvPid : s1.visited.getD (pid - 1) false = true := by
    rw [hs1]
    show (s.visited.set (pid-1) true).getD (pid-1) false = true
    exact getD_set_self _ _ _ hpidvis
  have hblackIdx : ∀ q, isBlack s q → q - 1 ≠ pid - 1 := by
    intro q hq h
    apply hq.1
    rw [isWhite, h]
    exact hwhite
  have hev01 : DfsEvolves s s1 := by
    refine ⟨hstore1 ▸ EqExceptDepth.reflEq s.store, by simp [hs1], by simp [hs1],
      ?_, by omega, ?_, ?_⟩
    · intro k hk
      rw [hs1]
      show (s.visited.set (pid-1) true).getD k false = true
      by_cases hkp : pid - 1 = k
      · subst hkp; exact getD_set_self _ _ _ hpidvis
      · rw [getD_set_ne _ _ _ _ hkp]; exact hk
    · intro q _ hq
      have hidx := hblackIdx q hq
      exact ⟨fun h => hq.1 ((hwEq q hidx).mp h), fun h => hq.2 ((hgEq q hidx).mp h)⟩
    · intro q _ _; rw [hstore1]
  have hwf1 : DfsWf s1 := by
    refine ⟨by simp [hs1, hwf.vlen], by simp [hs1, hwf.dlen], ?_, ?_⟩
    · intro k pk hgk
      exact hwf.depsWf k pk (hstore1 ▸ hgk)
    · intro q hq
      by_cases hidx : q - 1 = pid - 1
      · rw [hs1]
        show (s.visited.set (pid-1) true).getD (q-1) false = true
        rw [hidx]; exact getD_set_self _ _ _ hpidvis
      · have := hwf.grayVis q ((hgEq q hidx).mp hq)
        rw [hs1]
        show (s.visited.set (pid-1) true).getD (q-1) false = true
        rw [getD_set_ne _ _ _ _ (fun h => hidx h.symm)]
        exact this
  have hblack1 : BlackInv s1 := by
    intro b hb1 hblt hbb
    have hbidx : b - 1 ≠ pid - 1 := by
      intro h
      exact hbb.2 (by rw [isGray, hs1]
                      show (s.dfs.set (pid-1) true).getD (b-1) false = true
                      rw [h]; exact getD_set_self _ _ _ hpiddfs)
    have hbbS : isBlack s b :=
      ⟨fun h => hbb.1 ((hwEq b hbidx).mpr h), fun h => hbb.2 ((hgEq b hbidx).mpr h)⟩
    obtain ⟨pb, hpb, hd0, hdbnd, hdeps⟩ := hblack b hb1 (hstore1 ▸ hblt) hbbS
    refine ⟨pb, hstore1 ▸ hpb, hd0, by rw [hstore1]; omega, ?_⟩
    intro d hd
    obtain ⟨hdb, qd, hqd, hqdep⟩ := hdeps d hd
    have hdidx := hblackIdx d hdb
    refine ⟨⟨fun h => hdb.1 ((hwEq d hdidx).mp h),
             fun h => hdb.2 ((hgEq d hdidx).mp h)⟩, qd, hstore1 ▸ hqd, hqdep⟩
  have hgray1 : GrayInv s1 (st ++ [pid]) := by
    refine ⟨?_, ?_, ?_⟩
    · intro q hq1
      by_cases hidx : q - 1 = pid - 1
      · have hqpid : q = pid := by omega
        subst hqpid
        exact ⟨fun _ => List.mem_append_right _ (List.mem_singleton_self q),
               fun _ => hgPid⟩
      · constructor
        · intro hgq
          exact List.mem_append_left _ ((hgray.1 q hq1).mp ((hgEq q hidx).mp hgq))
        · intro hmem
          rcases List.mem_append.mp hmem with hmem | hmem
          · exact (hgEq q hidx).mpr ((hgray.1 q hq1).mpr hmem)
          · exact absurd (by rw [List.mem_singleton.mp hmem] : q - 1 = pid - 1) hidx
    · refine List.Nodup.append hgray.2.1 (List.nodup_singleton pid) ?_
      intro a ha hb
      rw [List.mem_singleton.mp hb] at ha
      exact hpid_notin_st ha
    · intro q hq
      rcases List.mem_append.mp hq with h | h
      · exact ⟨(hgray.2.2 q h).1, hstore1 ▸ (hgray.2.2 q h).2⟩
      · rw [List.mem_singleton.mp h]; exact ⟨hpid1, hstore1 ▸ hlt⟩
  have hchain1 : StackChain s1.store (st ++ [pid]) := hstore1 ▸ hchain
  have hedges : ∀ d ∈ p.dependencies, DepEdge s1.store pid d :=
    fun d hd => ⟨p, hstore1 ▸ hg, hd⟩
  have hdisj := count_disjoint s.visited s.dfs (hwf.vlen.trans hwf.dlen.symm)
    (fun k hk ht => by
      have : isGray s (k + 1) := by rw [isGray]; simpa using ht
      simpa using hwf.grayVis (k + 1) this)
  have hsum : (-1 : Int) + (Wc s1 : Int) + (Gc s1 : Int) <
      (s1.store.length : Int) := by
    rw [hstore1]
    have : Wc s + Gc s ≤ s.store.length := by
      rw [Wc, Gc]; exact hwf.vlen ▸ hdisj
    omega
  have hfuel1 : Wc s1 ≤ fuel := by omega
  have houtn : outName s1.store pid = p.out := by
    rw [hstore1]; simp [Wireless.outName, hg]
  obtain ⟨r, hr, hpost⟩ := ihDeps pid p.dependencies (-1) s1 st hwf1 hblack1
    hgray1 hchain1 hpid1 (hstore1 ▸ hlt) hedges (by omega) hsum hfuel1
  rw [houtn] at hr
  have heq : checkCycles (fuel + 1) pid s =
      (match checkCyclesDeps fuel p.out pid p.dependencies (-1) s1 with
       | none => none
       | some (.inl (trace, s2)) => some ((trace, true), s2)
       | some (.inr (mx, s2)) =>
         some ((([] : List String), false),
           { s2 with store := setDepth s2.store pid (mx + 1),
                     dfs := s2.dfs.set (pid - 1) false })) := by
    rw [checkCycles, hg]
  rcases hpost with ⟨trace, s2, hreq, hev12, hwf2, hcf⟩ | ⟨mx1, s2, hreq, hev12, hwf2, hdfs2, _, hmx1, hbnd2, hblack2, hdeps2⟩
  · -- a cycle propagated from the dependency loop
    subst hreq
    refine ⟨trace, true, s2, ?_, hev01.transEv hev12, hwf2, ?_, ?_⟩
    · rw [heq, hr]
    · intro _
      obtain ⟨c, o, hcyc, ho, hrange, hnames⟩ := hcf
      exact ⟨c, o, hstore1 ▸ hcyc, ho, hstore1 ▸ hrange, hstore1 ▸ hnames⟩
    · intro h; exact Bool.noConfusion h
  · -- a clean return: assign the depth and pop the stack
    subst hreq
    set s3 : DfsSt :=
      { s2 with store := setDepth s2.store pid (mx1 + 1),
                dfs := s2.dfs.set (pid - 1) false } with hs3
    have hlen2 : s2.store.length = s.store.length := hev12.store.1.symm
    have hgPid2 : isGray s2 pid := by
      rw [isGray, hdfs2]; exact hgPid
    have hpiddfs2 : pid - 1 < s2.dfs.length := by
      rw [hev12.dlen]; simpa [hs1] using hpiddfs
    have hG3 : Gc s3 + 1 = Gc s2 := by
      rw [Gc, Gc, hs3]
      exact count_set_true_false s2.dfs (pid - 1) hpiddfs2 (by
        rw [isGray] at hgPid2; exact hgPid2)
    have hW3 : Wc s3 = Wc s2 := rfl
    obtain ⟨p2, hp2⟩ := getPF_some_of_lt (show pid - 1 < s2.store.length by omega)
    have hp2dep : p2.dependencies = p.dependencies := by
      obtain ⟨d2, hd2⟩ := hev12.store.getPF_iff pid p (hstore1 ▸ hg)
      rw [hd2] at hp2
      rw [← Option.some.inj hp2]
    have hgetS3 : getPF s3.store pid = some { p2 with depth := mx1 + 1 } := by
      rw [hs3]
      exact getPF_setDepth_self hp2 (mx1 + 1)
    have hev23 : DfsEvolves s2 s3 := by
      refine ⟨EqExceptDepth.setDepth s2.store pid (mx1 + 1),
        rfl, by simp [hs3], fun _ h => h, Nat.le.refl, ?_, ?_⟩
      · intro q hq1 hqb
        refine ⟨hqb.1, ?_⟩
        intro hg3
        apply hqb.2
        rw [isGray] at hg3 ⊢
        rw [hs3] at hg3
        by_cases hidx : pid - 1 = q - 1
        · rw [show (s2.dfs.set (pid-1) false).getD (q-1) false =
              false by rw [hidx]; exact getD_set_self _ _ _ (hidx ▸ hpiddfs2)] at hg3
          exact Bool.noConfusion hg3
        · rw [getD_set_ne _ _ _ _ hidx] at hg3
          exact hg3
      · intro q hq1 hqb
        have hqidx : q - 1 ≠ pid - 1 := by
          intro h
          apply hqb.2
          rw [isGray, h]
          rw [isGray] at hgPid2; exact hgPid2
        rw [hs3]
        show getPF (setDepth s2.store pid (mx1+1)) q = _
        rw [getPF_setDepth_ne (fun h => hqidx h.symm)]
    have hwf3 : DfsWf s3 := by
      refine ⟨?_, ?_, ?_, ?_⟩
      · show s2.visited.length = (setDepth s2.store pid (mx1+1)).length
        rw [length_setDepth]; exact hwf2.vlen
      · show (s2.dfs.set (pid-1) false).length = (setDepth s2.store pid (mx1+1)).length
        rw [length_setDepth, List.length_set]; exact hwf2.dlen
      · intro k pk hgk
        rw [hs3] at hgk
        show ∀ d ∈ pk.dependencies, 1 ≤ d ∧ d - 1 < (setDepth s2.store pid (mx1+1)).length
        rw [length_setDepth]
        by_cases hidx : pid - 1 = k - 1
        · have : getPF (setDepth s2.store pid (mx1+1)) k =
              some { p2 with depth := mx1 + 1 } := by
            rw [getPF, ← hidx, ← getPF]; exact hgetS3
          rw [this] at hgk
          rw [← Option.some.inj hgk]
          intro d hd
          exact hwf2.depsWf pid p2 hp2 d hd
        · rw [getPF_setDepth_ne hidx] at hgk
          exact hwf2.depsWf k pk hgk
      · intro q hq
        rw [isGray, hs3] at hq
        by_cases hidx : pid - 1 = q - 1
        · rw [show (s2.dfs.set (pid-1) false).getD (q-1) false = false by
            rw [hidx]; exact getD_set_self _ _ _ (hidx ▸ hpiddfs2)] at hq
          exact Bool.noConfusion hq
        · rw [getD_set_ne _ _ _ _ hidx] at hq
          exact hwf2.grayVis q hq
    have hblack3 : BlackInv s3 := by
      intro b hb1 hblt hbb
      have hlen32 : s3.store.length = s2.store.length := by
        rw [hs3]; exact length_setDepth s2.store pid (mx1 + 1)
      have hlen2s : s2.store.length = s.store.length := by
        rw [← hstore1]; exact hev12.store.1.symm
      have hbnd2s : mx1 + (Wc s2 : Int) + (Gc s2 : Int) < (s.store.length : Int) := by
        rw [← hstore1]; exact hbnd2
      by_cases hbpid : b - 1 = pid - 1
      · have hbeq : b = pid := by omega
        rw [hbeq]
        refine ⟨{ p2 with depth := mx1 + 1 }, hgetS3,
          by show (0 : Int) ≤ mx1 + 1; omega, ?_, ?_⟩
        · show mx1 + 1 + (Wc s3 : Int) + (Gc s3 : Int) < _
          have hlen3 : s3.store.length = s.store.length := by omega
          rw [hlen3]
          omega
        · show ∀ d ∈ ({ p2 with depth := mx1 + 1 } : ProviderFunc).dependencies, _
          intro d hd
          rw [show ({ p2 with depth := mx1 + 1 } : ProviderFunc).dependencies =
            p2.dependencies from rfl, hp2dep] at hd
          obtain ⟨hdb2, qd, hqd, hqdep⟩ := hdeps2 d hd
          have hd1 : 1 ≤ d := (hwf2.depsWf pid p2 hp2 d (hp2dep ▸ hd)).1
          refine ⟨hev23.blackMono d hd1 hdb2, qd, ?_,
            by show qd.depth < mx1 + 1; omega⟩
          rw [hev23.blackStable d hd1 hdb2]
          exact hqd
      · have hbb2 : isBlack s2 b := by
          refine ⟨hbb.1, ?_⟩
          intro hgb
          apply hbb.2
          rw [isGray, hs3]
          show (s2.dfs.set (pid-1) false).getD (b-1) false = true
          rw [getD_set_ne _ _ _ _ (fun h => hbpid h.symm)]
          rw [isGray] at hgb; exact hgb
        have hblt2 : b - 1 < s2.store.length := by omega
        obtain ⟨pb, hpb, hd0, hdbnd, hdepsb⟩ := hblack2 b hb1 hblt2 hbb2
        refine ⟨pb, ?_, hd0, ?_, ?_⟩
        · rw [hs3]
          show getPF (setDepth s2.store pid (mx1+1)) b = some pb
          rw [getPF_setDepth_ne (fun h => hbpid h.symm)]
          exact hpb
        · have hlen3 : s3.store.length = s2.store.length := by
            rw [hs3]; show (setDepth s2.store pid (mx1+1)).length = _
            rw [length_setDepth]
          rw [hlen3]
          omega
        · intro d hd
          obtain ⟨hdb2, qd, hqd, hqdep⟩ := hdepsb d hd
          have hd1 : 1 ≤ d := (hwf2.depsWf b pb hpb d hd).1
          refine ⟨hev23.blackMono d hd1 hdb2, qd, ?_, hqdep⟩
          rw [hev23.blackStable d hd1 hdb2]
          exact hqd
    refine ⟨[], false, s3, ?_, (hev01.transEv hev12).transEv hev23, hwf3, ?_, ?_⟩
    · rw [heq, hr]
    · intro h; exact Bool.noConfusion h
    · intro _
      refine ⟨?_, ?_, hblack3, ?_⟩
      · show s2.dfs.set (pid - 1) false = s.dfs
        rw [hdfs2, hs1]
        show (s.dfs.set (pid-1) true).set (pid-1) false = s.dfs
        rw [List.set_set]
        exact set_false_id s.dfs (pid - 1) hnotgray
      · intro hw3
        rw [isWhite] at hw3
        have : s3.visited.getD (pid - 1) false = true :=
          hev12.visMono (pid - 1) hvPid
        rw [this] at hw3
        exact Bool.noConfusion hw3
      · calc Wc s3 = Wc s2 := rfl
          _ ≤ Wc s1 := hev12.wcLe
          _ < Wc s := by omega

theorem depsSpec_of_node (fuel : Nat) (ihNode : NodeSpec fuel) :
    DepsSpec fuel := by
  intro pid deps
  induction deps with
  | nil =>
    intro mx s st hwf hblack hgray hchain hpid1 hlt hedges hmx hbound hfuel
    refine ⟨.inr (mx, s), by rw [checkCyclesDeps],
      Or.inr ⟨mx, s, rfl, DfsEvolves.reflEv s, hwf, rfl, le_refl mx, hmx,
        hbound, hblack, by simp⟩⟩
  | cons dep rest ih =>
    intro mx s st hwf hblack hgray hchain hpid1 hlt hedges hmx hbound hfuel
    have hedgedep : DepEdge s.store pid dep := hedges dep (List.mem_cons_self _ _)
    obtain ⟨pp, hpp, hdepmem⟩ := hedgedep
    have hdep1 : 1 ≤ dep := (hwf.depsWf pid pp hpp dep hdepmem).1
    have hdeplt : dep - 1 < s.store.length := (hwf.depsWf pid pp hpp dep hdepmem).2
    have hedgedep2 : DepEdge s.store pid dep := ⟨pp, hpp, hdepmem⟩
    by_cases hvis : s.visited.getD (dep - 1) false = false
    · -- an unvisited dependency: search it
      have hchain2 : StackChain s.store ((st ++ [pid]) ++ [dep]) :=
        StackChain.append_one st pid dep hchain hedgedep2
      obtain ⟨trace, b, s1, hr, hev, hwf1, htrue, hfalse⟩ :=
        ihNode dep s (st ++ [pid]) hwf hblack hgray hchain2 hdep1 hdeplt hvis hfuel
      cases b with
      | true =>
        have hcf := htrue rfl
        refine ⟨.inl (trace ++ [outName s.store pid], s1), ?_, Or.inl
          ⟨trace ++ [outName s.store pid], s1, rfl, hev, hwf1, ?_⟩⟩
        · rw [checkCyclesDeps, if_pos hvis, hr]
        · obtain ⟨c, o, hcyc, ho, hrange, hnames⟩ := hcf
          refine ⟨c, o, hcyc, ho, hrange, ?_⟩
          intro q hq hqo
          rcases hnames q hq hqo with hn | hn
          · exact Or.inl (List.mem_append_left _ hn)
          · rcases List.mem_append.mp hn with hn | hn
            · exact Or.inr hn
            · rw [List.mem_singleton.mp hn]
              exact Or.inl (List.mem_append_right _ (List.mem_singleton_self _))
      | false =>
        obtain ⟨hdfs1, hnw1, hblack1, hwlt⟩ := hfalse rfl
        have hlen1 : s1.store.length = s.store.length := hev.store.1.symm
        have hgrayEq : ∀ q, isGray s1 q ↔ isGray s q := by
          intro q; rw [isGray, isGray, hdfs1]
        have hGc1 : Gc s1 = Gc s := by rw [Gc, Gc, hdfs1]
        have hgray1 : GrayInv s1 (st ++ [pid]) := by
          refine ⟨fun q hq => (hgrayEq q).trans (hgray.1 q hq), hgray.2.1, ?_⟩
          intro q hq
          exact ⟨(hgray.2.2 q hq).1, hlen1 ▸ (hgray.2.2 q hq).2⟩
        have hchain1 : StackChain s1.store (st ++ [pid]) :=
          StackChain.ofEqStore hev.store _ hchain
        have hedges1 : ∀ d ∈ rest, DepEdge s1.store pid d :=
          fun d hd => hev.store.depEdge (hedges d (List.mem_cons_of_mem _ hd))
        have hdepblack : isBlack s1 dep := by
          refine ⟨hnw1, ?_⟩
          intro hgd
          have hgs : isGray s dep := (hgrayEq dep).mp hgd
          have := hwf.grayVis dep hgs
          rw [this] at hvis
          exact Bool.noConfusion hvis
        obtain ⟨pd, hpd, hpd0, hpdbnd, _⟩ :=
          hblack1 dep hdep1 (hlen1 ▸ hdeplt) hdepblack
        have hdepthOf : depthOf s1.store dep = pd.depth := by
          simp [Wireless.depthOf, hpd]
        have hmx1 : (-1 : Int) ≤ maxInt mx (depthOf s1.store dep) :=
          le_trans hmx (maxInt_le_left _ _)
        have hbound1 : maxInt mx (depthOf s1.store dep) + (Wc s1 : Int) +
            (Gc s1 : Int) < (s1.store.length : Int) := by
          have h1 : mx < (s1.store.length : Int) - (Wc s1 : Int) - (Gc s1 : Int) := by
            have : (Wc s1 : Int) ≤ (Wc s : Int) := by
              have := hev.wcLe; omega
            rw [hlen1, hGc1]
            omega
          have h2 : depthOf s1.store dep <
              (s1.store.length : Int) - (Wc s1 : Int) - (Gc s1 : Int) := by
            rw [hdepthOf]; omega
          have := maxInt_lt h1 h2
          omega
        have hfuel1 : Wc s1 ≤ fuel := by omega
        obtain ⟨r2, hr2, hpost2⟩ := ih (maxInt mx (depthOf s1.store dep)) s1 st
          hwf1 hblack1 hgray1 hchain1 hpid1 (hlen1 ▸ hlt) hedges1 hmx1 hbound1 hfuel1
        rw [hev.store.outName pid] at hr2
        refine ⟨r2, ?_, ?_⟩
        · rw [checkCyclesDeps, if_pos hvis, hr]
          exact hr2
        · rcases hpost2 with ⟨tr2, s2, hreq, hev2, hwf2, hcf2⟩ |
            ⟨mx2, s2, hreq, hev2, hwf2, hdfs2, hmxle, hmx2, hbnd2, hblack2, hdeps2⟩
          · refine Or.inl ⟨tr2, s2, hreq, hev.transEv hev2, hwf2, ?_⟩
            obtain ⟨c, o, hcyc, ho, hrange, hnames⟩ := hcf2
            refine ⟨c, o, hcyc.ofEqCycle hev.store.symm, ho, ?_, ?_⟩
            · intro q hq
              exact ⟨(hrange q hq).1, hlen1 ▸ (hrange q hq).2⟩
            · intro q hq hqo
              rcases hnames q hq hqo with hn | hn
              · rw [hev.store.outName q] at hn
                exact Or.inl hn
              · exact Or.inr hn
          · refine Or.inr ⟨mx2, s2, hreq, hev.transEv hev2, hwf2,
              hdfs2.trans hdfs1, le_trans (maxInt_le_left _ _) hmxle,
              hmx2, by rw [← hlen1]; exact hbnd2, hblack2, ?_⟩
            intro d hd
            rcases List.mem_cons.mp hd with hd | hd
            · subst hd
              refine ⟨hev2.blackMono d hdep1 hdepblack, pd, ?_, ?_⟩
              · rw [hev2.blackStable d hdep1 hdepblack]; exact hpd
              · calc pd.depth = depthOf s1.store d := hdepthOf.symm
                  _ ≤ maxInt mx (depthOf s1.store d) := maxInt_le_right _ _
                  _ ≤ mx2 := hmxle
            · exact hdeps2 d hd
    · by_cases hdfs : s.dfs.getD (dep - 1) false = true
      · -- a back-edge: the dependency is on the current stack
        have hgd : isGray s dep := hdfs
        have hmem : dep ∈ st ++ [pid] := (hgray.1 dep hdep1).mp hgd
        obtain ⟨pre, post, hsplit⟩ := List.append_of_mem hmem
        have hlastc : (dep :: post).getLast? = some pid := by
          have h1 : (st ++ [pid]).getLast? = some pid := by
            rw [List.getLast?_append]; simp
          rw [hsplit, List.getLast?_append] at h1
          cases hc : (dep :: post).getLast? with
          | none => simp at hc
          | some x =>
            rw [hc] at h1
            simpa using h1
        have hcyc : IsCycle s.store (dep :: post) := by
          refine ⟨by simp, ?_, ?_⟩
          · have := hchain
            rw [StackChain, hsplit] at this
            exact this.right_of_append
          · intro x hx y hy
            rw [hlastc] at hx
            rw [List.head?_cons] at hy
            have hx2 : pid = x := by simpa using hx
            have hy2 : dep = y := by simpa using hy
            rw [← hx2, ← hy2]
            exact hedgedep2
        have hsubset : ∀ q ∈ dep :: post, q ∈ st ++ [pid] := by
          intro q hq
          rw [hsplit]
          exact List.mem_append_right _ hq
        refine ⟨.inl ([outName s.store dep], s), ?_, Or.inl
          ⟨[outName s.store dep], s, rfl, DfsEvolves.reflEv s, hwf, ?_⟩⟩
        · rw [checkCyclesDeps, if_neg hvis, if_pos hdfs]
        · refine ⟨dep :: post, pid, hcyc, ?_, ?_, ?_⟩
          · exact List.mem_of_getLast?_eq_some hlastc
          · intro q hq
            exact hgray.2.2 q (hsubset q hq)
          · intro q hq hqo
            rcases List.mem_append.mp (hsubset q hq) with h | h
            · exact Or.inr h
            · exact absurd (List.mem_singleton.mp h) hqo
      · -- a finished dependency: only the depth matters
        have hdepblack : isBlack s dep := ⟨by rw [isWhite]; exact hvis,
          by rw [isGray]; exact hdfs⟩
        obtain ⟨pd, hpd, hpd0, hpdbnd, _⟩ := hblack dep hdep1 hdeplt hdepblack
        have hdepthOf : depthOf s.store dep = pd.depth := by
          simp [Wireless.depthOf, hpd]
        have hmx1 : (-1 : Int) ≤ maxInt mx (depthOf s.store dep) :=
          le_trans hmx (maxInt_le_left _ _)
        have hbound1 : maxInt mx (depthOf s.store dep) + (Wc s : Int) +
            (Gc s : Int) < (s.store.length : Int) := by
          have h2 : depthOf s.store dep <
              (s.store.length : Int) - (Wc s : Int) - (Gc s : Int) := by
            rw [hdepthOf]; omega
          have := maxInt_lt (show mx < (s.store.length : Int) - (Wc s : Int) -
            (Gc s : Int) by omega) h2
          omega
        obtain ⟨r2, hr2, hpost2⟩ := ih (maxInt mx (depthOf s.store dep)) s st
          hwf hblack hgray hchain hpid1 hlt
          (fun d hd => hedges d (List.mem_cons_of_mem _ hd)) hmx1 hbound1 hfuel
        refine ⟨r2, ?_, ?_⟩
        · rw [checkCyclesDeps, if_neg hvis, if_neg hdfs]
          exact hr2
        · rcases hpost2 with ⟨tr2, s2, hreq, hev2, hwf2, hcf2⟩ |
            ⟨mx2, s2, hreq, hev2, hwf2, hdfs2, hmxle, hmx2, hbnd2, hblack2, hdeps2⟩
          · exact Or.inl ⟨tr2, s2, hreq, hev2, hwf2, hcf2⟩
          · refine Or.inr ⟨mx2, s2, hreq, hev2, hwf2, hdfs2,
              le_trans (maxInt_le_left _ _) hmxle, hmx2, hbnd2, hblack2, ?_⟩
            intro d hd
            rcases List.mem_cons.mp hd with hd | hd
            · subst hd
              refine ⟨hev2.blackMono d hdep1 hdepblack, pd, ?_, ?_⟩
              · rw [hev2.blackStable d hdep1 hdepblack]; exact hpd
              · calc pd.depth = depthOf s.store d := hdepthOf.symm
                  _ ≤ maxInt mx (depthOf s.store d) := maxInt_le_right _ _
                  _ ≤ mx2 := hmxle
            · exact hdeps2 d hd

/-- The combined DFS specification, for every fuel value. -/
theorem dfsMaster : ∀ fuel, NodeSpec fuel ∧ DepsSpec fuel := by
  intro fuel
  induction fuel with
  | zero => exact ⟨nodeSpec_zero, depsSpec_of_node 0 nodeSpec_zero⟩
  | succ f ih =>
    have hnode := nodeSpec_succ f ih.2
    exact ⟨hnode, depsSpec_of_node (f + 1) hnode⟩

/-- Specification of the cycle-checking loop of `resolveProvideFunctions`:
either some root reports a cycle, or every listed node is finished. -/
theorem cyclesLoopSpec (fuel : Nat) : ∀ (provs : List (Option Nat)) (s : DfsSt),
    DfsWf s → BlackInv s → GrayInv s [] →
    (∀ e ∈ provs, ∀ pid, e = some pid → 1 ≤ pid ∧ pid - 1 < s.store.length) →
    Wc s ≤ fuel →
    ∃ res s1, cyclesLoop fuel provs s = some (res, s1) ∧ DfsEvolves s s1 ∧
      DfsWf s1 ∧
      (∀ trace, res = some trace → CycleFound s [] trace) ∧
      (res = none → BlackInv s1 ∧ GrayInv s1 [] ∧
        ∀ e ∈ provs, ∀ pid, e = some pid → ¬ isWhite s1 pid) := by
  intro provs
  induction provs with
  | nil =>
    intro s hwf hblack hgray _ _
    refine ⟨none, s, by rw [cyclesLoop], DfsEvolves.reflEv s, hwf, ?_, ?_⟩
    · intro trace h; exact Option.noConfusion h
    · intro _; exact ⟨hblack, hgray, by simp⟩
  | cons e rest ih =>
    intro s hwf hblack hgray hids hfuel
    cases e with
    | none =>
      obtain ⟨res, s1, hr, hev, hwf1, htr, hnone⟩ := ih s hwf hblack hgray
        (fun e he pid hpe => hids e (List.mem_cons_of_mem _ he) pid hpe) hfuel
      refine ⟨res, s1, by rw [cyclesLoop]; exact hr, hev, hwf1, htr, ?_⟩
      intro h
      obtain ⟨hb, hg, hv⟩ := hnone h
      refine ⟨hb, hg, ?_⟩
      intro e he pid hpe
      rcases List.mem_cons.mp he with he | he
      · exact Option.noConfusion (he ▸ hpe)
      · exact hv e he pid hpe
    | some pid =>
      obtain ⟨hpid1, hlt⟩ := hids (some pid) (List.mem_cons_self _ _) pid rfl
      by_cases hvis : s.visited.getD (pid - 1) false = true
      · obtain ⟨res, s1, hr, hev, hwf1, htr, hnone⟩ := ih s hwf hblack hgray
          (fun e he pid hpe => hids e (List.mem_cons_of_mem _ he) pid hpe) hfuel
        refine ⟨res, s1, ?_, hev, hwf1, htr, ?_⟩
        · rw [cyclesLoop, if_pos hvis]; exact hr
        · intro h
          obtain ⟨hb, hg, hv⟩ := hnone h
          refine ⟨hb, hg, ?_⟩
          intro e he q hpe
          rcases List.mem_cons.mp he with he | he
          · have : q = pid := by
              rw [he] at hpe
              exact (Option.some.inj hpe).symm
            subst this
            intro hw
            rw [isWhite] at hw
            rw [hev.visMono (q - 1) hvis] at hw
            exact Bool.noConfusion hw
          · exact hv e he q hpe
      · have hwhite : isWhite s pid := by
          rw [isWhite]
          cases hv : s.visited.getD (pid - 1) false
          · rfl
          · exact absurd hv hvis
        have hchain : StackChain s.store ([] ++ [pid]) := List.chain'_singleton pid
        obtain ⟨trace, b, s1, hr, hev, hwf1, htrue, hfalse⟩ :=
          (dfsMaster fuel).1 pid s [] hwf hblack hgray hchain hpid1 hlt hwhite hfuel
        cases b with
        | true =>
          refine ⟨some trace, s1, ?_, hev, hwf1, ?_, ?_⟩
          · rw [cyclesLoop, if_neg hvis, hr]
          · intro tr h
            rw [← Option.some.inj h]
            exact htrue rfl
          · intro h; exact Option.noConfusion h
        | false =>
          obtain ⟨hdfs1, hnw1, hblack1, hwlt⟩ := hfalse rfl
          have hlen1 : s1.store.length = s.store.length := hev.store.1.symm
          have hgray1 : GrayInv s1 [] := by
            refine ⟨?_, List.nodup_nil, by simp⟩
            intro q hq
            rw [isGray, hdfs1]
            exact hgray.1 q hq
          obtain ⟨res, s2, hr2, hev2, hwf2, htr2, hnone2⟩ := ih s1 hwf1 hblack1
            hgray1 (fun e he q hpe => by
              obtain ⟨h1, h2⟩ := hids e (List.mem_cons_of_mem _ he) q hpe
              exact ⟨h1, hlen1 ▸ h2⟩) (by omega)
          refine ⟨res, s2, ?_, hev.transEv hev2, hwf2, ?_, ?_⟩
          · rw [cyclesLoop, if_neg hvis, hr]; exact hr2
          · intro tr h
            obtain ⟨c, o, hcyc, ho, hrange, hnames⟩ := htr2 tr h
            refine ⟨c, o, hcyc.ofEqCycle hev.store.symm, ho, ?_, ?_⟩
            · intro q hq
              exact ⟨(hrange q hq).1, hlen1 ▸ (hrange q hq).2⟩
            · intro q hq hqo
              rcases hnames q hq hqo with hn | hn
              · rw [hev.store.outName q] at hn
                exact Or.inl hn
              · exact Or.inr hn
          · intro h
            obtain ⟨hb, hg, hv⟩ := hnone2 h
            refine ⟨hb, hg, ?_⟩
            intro e he q hpe
            rcases List.mem_cons.mp he with he | he
            · have : q = pid := by
                rw [he] at hpe
                exact (Option.some.inj hpe).symm
              subst this
              intro hw
              apply hnw1
              rw [isWhite] at hw ⊢
              cases hv1 : s1.visited.getD (q - 1) false
              · rfl
              · rw [hev2.visMono (q - 1) hv1] at hw
                exact Bool.noConfusion hw
            · exact hv e he q hpe

/-- If every node is finished, the black invariant yields the global
depth discipline. -/
theorem depthGood_of_allBlack (s : DfsSt) (hblack : BlackInv s)
    (hwf : DfsWf s)
    (hall : ∀ b, 1 ≤ b → b - 1 < s.store.length → isBlack s b)
    (hnowhite : Wc s = 0) (hnogray : Gc s = 0) :
    DepthGood s.store := by
  intro a p hp
  have hk : a - 1 < s.store.length := getPF_lt hp
  have hb : isBlack s (a - 1 + 1) := hall (a - 1 + 1) (by omega) (by omega)
  obtain ⟨pb, hpb, h0, hbnd, hdeps⟩ := hblack (a - 1 + 1) (by omega) (by omega) hb
  have hpeq : pb = p := by
    rw [getPF] at hp hpb
    rw [show a - 1 + 1 - 1 = a - 1 by omega] at hpb
    rw [hp] at hpb
    exact (Option.some.inj hpb).symm
  subst hpeq
  refine ⟨h0, by omega, ?_⟩
  intro b hbdep
  have h1 := (hwf.depsWf a pb (by
    rw [getPF]; rw [getPF] at hpb
    rw [show a - 1 + 1 - 1 = a - 1 by omega] at hpb
    exact hpb)) b hbdep
  obtain ⟨hdb, qb, hqb, hqdep⟩ := hdeps b hbdep
  exact ⟨h1.1, qb, hqb, hqdep⟩

/-- Along any dependency chain the depths are non-increasing head to
last, under the depth discipline. -/
theorem chain_depth_le (store : List ProviderFunc) (hd : DepthGood store) :
    ∀ (c : List Nat), List.Chain' (DepEdge store) c →
      ∀ x ∈ c.head?, ∀ y ∈ c.getLast?, depthOf store y ≤ depthOf store x := by
  intro c
  induction c with
  | nil => intro _ x hx; simp at hx
  | cons a rest ih =>
    intro hch x hx y hy
    have hx2 : a = x := by simpa using hx
    subst hx2
    cases rest with
    | nil =>
      have hy2 : a = y := by simpa using hy
      subst hy2; exact le_refl _
    | cons b rest2 =>
      have hedge : DepEdge store a b := (List.chain'_cons.mp hch).1
      have hch2 : List.Chain' (DepEdge store) (b :: rest2) :=
        (List.chain'_cons.mp hch).2
      have hy2 : y ∈ (b :: rest2).getLast? := by
        rw [List.getLast?_cons_cons] at hy
        exact hy
      have hle := ih hch2 b (by simp) y hy2
      obtain ⟨p, hp, hb⟩ := hedge
      obtain ⟨_, _, hdeps⟩ := hd a p hp
      obtain ⟨_, q, hq, hqdep⟩ := hdeps b hb
      have h1 : depthOf store b = q.depth := by simp [Wireless.depthOf, hq]
      have h2 : depthOf store a = p.depth := by simp [Wireless.depthOf, hp]
      omega

/-- The depth discipline excludes dependency cycles. -/
theorem no_cycle_of_depthGood (store : List ProviderFunc)
    (hd : DepthGood store) : ¬ HasCycle store := by
  rintro ⟨c, hne, hch, hcl⟩
  cases c with
  | nil => exact hne rfl
  | cons a rest =>
    cases hlast : (a :: rest).getLast? with
    | none => simp at hlast
    | some y =>
      have hle := chain_depth_le store hd (a :: rest) hch a (by simp) y
        (by rw [hlast]; rfl)
      have hedge : DepEdge store y a := hcl y (by rw [hlast]; rfl) a (by simp)
      obtain ⟨p, hp, hb⟩ := hedge
      obtain ⟨_, _, hdeps⟩ := hd y p hp
      obtain ⟨_, q, hq, hqdep⟩ := hdeps a hb
      have h1 : depthOf store a = q.depth := by simp [Wireless.depthOf, hq]
      have h2 : depthOf store y = p.depth := by simp [Wireless.depthOf, hp]
      omega

/-! ## Lookup lemmas and pipeline characterization -/

theorem lookup_nil {α : Type} (k : Ty) : lookup ([] : List (Ty × α)) k = none := rfl

theorem lookup_cons_self {α : Type} (m : List (Ty × α)) (k : Ty) (v : α) :
    lookup ((k, v) :: m) k = some v := by
  simp [lookup]

theorem lookup_cons_ne {α : Type} (m : List (Ty × α)) (t k : Ty) (v : α)
    (h : t ≠ k) : lookup ((t, v) :: m) k = lookup m k := by
  simp [lookup, List.find?_cons_of_neg, h]

theorem lookup_append {α : Type} (m1 m2 : List (Ty × α)) (k : Ty) :
    lookup (m1 ++ m2) k = (lookup m1 k).or (lookup m2 k) := by
  rw [lookup, List.find?_append]
  cases h : m1.find? (fun e => e.1 == k) with
  | none => simp [lookup, h]
  | some e => simp [lookup, h]

theorem lookup_eq_none_iff {α : Type} (m : List (Ty × α)) (k : Ty) :
    lookup m k = none ↔ ∀ e ∈ m, e.1 ≠ k := by
  rw [lookup]
  constructor
  · intro h e he
    cases hf : m.find? (fun e => e.1 == k) with
    | none =>
      have := List.find?_eq_none.mp hf e he
      simpa using this
    | some x => rw [hf] at h; simp at h
  · intro h
    rw [List.find?_eq_none.mpr (fun x hx => by simpa using h x hx)]
    rfl

theorem lookup_mem {α : Type} {m : List (Ty × α)} {k : Ty} {v : α}
    (h : lookup m k = some v) : (k, v) ∈ m := by
  rw [lookup] at h
  cases hf : m.find? (fun e => e.1 == k) with
  | none => rw [hf] at h; simp at h
  | some e =>
    rw [hf] at h
    have hmem := List.mem_of_find?_eq_some hf
    have hkey : e.1 = k := by simpa using List.find?_some hf
    have hval : e.2 = v := by simpa using h
    have : e = (k, v) := by
      cases e; simp at hkey hval; simp [hkey, hval]
    exact this ▸ hmem

/-- The four legal factory return shapes, as decided by
`matchProviderFuncs`: the produced output type and the `errOut` /
`cleanupOut` indices. -/
def shapeOf (env : TypeEnv) : List Ty → Option (Ty × Int × Int)
  | [t] => some (t, -1, -1)
  | [t, second] =>
    if env.assignableToError second then some (t, 1, -1)
    else if env.assignableToCleanup second then some (t, -1, 1)
    else none
  | [t, s1, s2] =>
    if env.assignableToCleanup s1 then
      if env.assignableToError s2 then some (t, 2, 1) else none
    else none
  | _ => none

/-- The output type a valid factory descriptor will register under. -/
def outOf (env : TypeEnv) (fp : FuncP) : Ty :=
  ((shapeOf env fp.outTys).getD ("", -1, -1)).1

/-- The provider node `matchProviderFuncs` creates for a valid factory
descriptor, given its id. -/
def mkPF (fp : FuncP) (pfId : Nat) (sh : Ty × Int × Int) : ProviderFunc :=
  { id := pfId, fn := fp.fn, inTypes := fp.inTypes, inArgs := [],
    dependencies := [], out := sh.1, errOut := sh.2.1, cleanupOut := sh.2.2,
    outValue := none, cleanup := none, depth := 0 }

/-- A well-shaped, non-duplicate factory descriptor list is matched into
consecutive provider nodes, with no errors. -/
theorem matchProviderFuncsLoop_clean (env : TypeEnv) :
    ∀ (fds : List FuncP) (i : Injector),
      (∀ fp ∈ fds, fp.isFunc = true ∧ fp.ifNotExists = false ∧
        ∃ sh, shapeOf env fp.outTys = some sh) →
      (∀ fp ∈ fds, lookup i.providersMap (outOf env fp) = none) →
      ((fds.map (outOf env)).Nodup) →
      i.id = i.store.length →
      ∃ i1, matchProviderFuncsLoop env i fds = i1 ∧
        i1.store = i.store ++
          (List.zip fds (List.range fds.length)).map
            (fun e => mkPF e.1 (i.id + e.2 + 1) ((shapeOf env e.1.outTys).getD ("", -1, -1))) ∧
        i1.providersMap = i.providersMap ++
          (List.zip fds (List.range fds.length)).map
            (fun e => (outOf env e.1, i.id + e.2 + 1)) ∧
        i1.errors = i.errors ∧ i1.id = i.id + fds.length ∧
        i1.values = i.values ∧ i1.bindings = i.bindings ∧
        i1.resolved = i.resolved ∧ i1.cleaned = i.cleaned ∧
        i1.providerFuncs = i.providerFuncs ∧ i1.callLog = i.callLog ∧
        i1.cleanLog = i.cleanLog := by
  intro fds
  induction fds with
  | nil =>
    intro i _ _ _ _
    exact ⟨i, rfl, by simp, by simp, rfl, rfl, rfl, rfl, rfl, rfl, rfl, rfl, rfl⟩
  | cons fp rest ih =>
    intro i hshape hfresh hnodup hid
    obtain ⟨hfunc, hnotex, sh, hsh⟩ := hshape fp (List.mem_cons_self _ _)
    have houtfp : outOf env fp = sh.1 := by rw [outOf, hsh]; rfl
    have hfreshfp : lookup i.providersMap (outOf env fp) = none :=
      hfresh fp (List.mem_cons_self _ _)
    -- the loop body reduces to a registration of `mkPF fp (i.id + 1) sh`
    have hmfs : ∀ pfId : Nat,
        matchFuncShape env fp.tyName fp.outTys
          { id := pfId, fn := fp.fn, inTypes := fp.inTypes, inArgs := [],
            dependencies := [], out := "", errOut := -1, cleanupOut := -1,
            outValue := none, cleanup := none, depth := 0 } =
          .inl (mkPF fp pfId sh) := by
      intro pfId
      rcases hout : fp.outTys with _ | ⟨t, _ | ⟨s2, _ | ⟨s3, _ | ⟨s4, tl⟩⟩⟩⟩ <;>
        rw [hout] at hsh
      · simp [shapeOf] at hsh
      · rw [shapeOf] at hsh
        rw [matchFuncShape]
        have : sh = (t, -1, -1) := (Option.some.inj hsh).symm
        subst this
        rfl
      · rw [shapeOf] at hsh
        rw [matchFuncShape]
        by_cases he : env.assignableToError s2
        · rw [if_pos he] at hsh
          have : sh = (t, 1, -1) := (Option.some.inj hsh).symm
          subst this
          rw [if_pos he]
          rfl
        · rw [if_neg he] at hsh
          by_cases hc : env.assignableToCleanup s2
          · rw [if_pos hc] at hsh
            have : sh = (t, -1, 1) := (Option.some.inj hsh).symm
            subst this
            rw [if_neg he, if_pos hc]
            rfl
          · rw [if_neg hc] at hsh; exact absurd hsh (by simp)
      · rw [shapeOf] at hsh
        rw [matchFuncShape]
        by_cases hc : env.assignableToCleanup s2
        · rw [if_pos hc] at hsh
          by_cases he : env.assignableToError s3
          · rw [if_pos he] at hsh
            have : sh = (t, 2, 1) := (Option.some.inj hsh).symm
            subst this
            rw [if_neg (by rw [hc]; simp), if_neg (by rw [he]; simp)]
            rfl
          · rw [if_neg he] at hsh; exact absurd hsh (by simp)
        · rw [if_neg hc] at hsh; exact absurd hsh (by simp)
      · simp [shapeOf] at hsh
    have hbody : matchProviderFuncsLoop env i (fp :: rest) =
        matchProviderFuncsLoop env
          (registerPF (mkPF fp (i.id + 1) sh) fp.ifNotExists { i with id := i.id + 1 })
          rest := by
      rw [matchProviderFuncsLoop]
      rw [if_neg (by rw [hfunc]; simp)]
      simp only [hmfs]
    have hreg : registerPF (mkPF fp (i.id + 1) sh) fp.ifNotExists { i with id := i.id + 1 } =
        { i with id := i.id + 1,
                 store := i.store ++ [mkPF fp (i.id + 1) sh],
                 providersMap := i.providersMap ++ [(sh.1, i.id + 1)] } := by
      rw [registerPF]
      rw [if_neg (by
        show ¬ (lookup i.providersMap (mkPF fp (i.id + 1) sh).out).isSome
        rw [show (mkPF fp (i.id + 1) sh).out = sh.1 from rfl, ← houtfp, hfreshfp]
        simp)]
      rfl
    set i2 : Injector :=
      { i with id := i.id + 1,
               store := i.store ++ [mkPF fp (i.id + 1) sh],
               providersMap := i.providersMap ++ [(sh.1, i.id + 1)] } with hi2
    have hshape2 : ∀ g ∈ rest, g.isFunc = true ∧ g.ifNotExists = false ∧
        ∃ sh2, shapeOf env g.outTys = some sh2 :=
      fun g hg => hshape g (List.mem_cons_of_mem _ hg)
    have hfresh2 : ∀ g ∈ rest, lookup i2.providersMap (outOf env g) = none := by
      intro g hg
      rw [hi2]
      show lookup (i.providersMap ++ [(sh.1, i.id + 1)]) (outOf env g) = none
      rw [lookup_append, hfresh g (List.mem_cons_of_mem _ hg)]
      rw [Option.none_or]
      rw [lookup_cons_ne]
      · rfl
      · rw [← houtfp]
        intro hca
        have : outOf env fp ∈ rest.map (outOf env) :=
          hca ▸ List.mem_map_of_mem (outOf env) hg
        exact (List.nodup_cons.mp hnodup).1 this
    have hnodup2 : (rest.map (outOf env)).Nodup := (List.nodup_cons.mp hnodup).2
    have hid2 : i2.id = i2.store.length := by
      rw [hi2]
      show i.id + 1 = (i.store ++ [mkPF fp (i.id + 1) sh]).length
      simp [hid]
    obtain ⟨i3, heq3, hst3, hpm3, herr3, hid3, hv3, hb3, hr3, hc3, hpf3, hcl3, hclog3⟩ :=
      ih i2 hshape2 hfresh2 hnodup2 hid2
    refine ⟨i3, by rw [hbody, hreg]; exact heq3, ?_, ?_, herr3, ?_, hv3, hb3, hr3, hc3, hpf3, hcl3, hclog3⟩
    · rw [hst3, hi2]
      show (i.store ++ [mkPF fp (i.id + 1) sh]) ++ _ = _
      rw [List.append_assoc]
      congr 1
      show [mkPF fp (i.id + 1) sh] ++
          (List.zip rest (List.range rest.length)).map
            (fun e => mkPF e.1 (i.id + 1 + e.2 + 1) ((shapeOf env e.1.outTys).getD ("", -1, -1))) =
        (List.zip (fp :: rest) (List.range (fp :: rest).length)).map
            (fun e => mkPF e.1 (i.id + e.2 + 1) ((shapeOf env e.1.outTys).getD ("", -1, -1)))
      rw [List.length_cons, List.range_succ_eq_map, List.zip_cons_cons,
        List.map_cons, List.singleton_append]
      congr 1
      · rw [hsh]
        rfl
      · rw [List.zip_map_right, List.map_map]
        apply List.map_congr_left
        intro e _
        show mkPF e.1 (i.id + 1 + e.2 + 1) _ = mkPF e.1 (i.id + (e.2 + 1) + 1) _
        congr 1
        omega
    · rw [hpm3, hi2]
      show (i.providersMap ++ [(sh.1, i.id + 1)]) ++ _ = _
      rw [List.append_assoc]
      congr 1
      show [(sh.1, i.id + 1)] ++
          (List.zip rest (List.range rest.length)).map
            (fun e => (outOf env e.1, i.id + 1 + e.2 + 1)) =
        (List.zip (fp :: rest) (List.range (fp :: rest).length)).map
            (fun e => (outOf env e.1, i.id + e.2 + 1))
      rw [List.length_cons, List.range_succ_eq_map, List.zip_cons_cons,
        List.map_cons, List.singleton_append]
      congr 1
      · rw [houtfp]
        rfl
      · rw [List.zip_map_right, List.map_map]
        apply List.map_congr_left
        intro e _
        show (outOf env e.1, i.id + 1 + e.2 + 1) = (outOf env e.1, i.id + (e.2 + 1) + 1)
        congr 1
        omega
    · rw [hid3, hi2]
      show i.id + 1 + rest.length = i.id + (fp :: rest).length
      simp
      omega

/-! ## Registration frame lemmas (`Provide` / `addProviders`) -/

/-- The injector fields `addProviders` leaves exactly unchanged. -/
def KeepsCore (i j : Injector) : Prop :=
  j.values = i.values ∧ j.providersMap = i.providersMap ∧ j.bindings = i.bindings ∧
  j.store = i.store ∧ j.providerFuncs = i.providerFuncs ∧ j.errors = i.errors ∧
  j.resolved = i.resolved ∧ j.cleaned = i.cleaned ∧ j.id = i.id ∧
  j.callLog = i.callLog ∧ j.cleanLog = i.cleanLog

/-- The per-kind descriptor lists grow only by appending. -/
def AppendsDescriptors (i j : Injector) : Prop :=
  (∃ l, j.valueProviders = i.valueProviders ++ l) ∧
  (∃ l, j.bindingProviders = i.bindingProviders ++ l) ∧
  (∃ l, j.funcProviders = i.funcProviders ++ l) ∧
  (∃ l, j.interfaceValueProviders = i.interfaceValueProviders ++ l)

theorem KeepsCore.reflKeeps (i : Injector) : KeepsCore i i :=
  ⟨rfl, rfl, rfl, rfl, rfl, rfl, rfl, rfl, rfl, rfl, rfl⟩

theorem KeepsCore.transKeeps {i j k : Injector} (h1 : KeepsCore i j)
    (h2 : KeepsCore j k) : KeepsCore i k := by
  obtain ⟨a1, a2, a3, a4, a5, a6, a7, a8, a9, a10, a11⟩ := h1
  obtain ⟨b1, b2, b3, b4, b5, b6, b7, b8, b9, b10, b11⟩ := h2
  exact ⟨b1.trans a1, b2.trans a2, b3.trans a3, b4.trans a4, b5.trans a5,
    b6.trans a6, b7.trans a7, b8.trans a8, b9.trans a9, b10.trans a10,
    b11.trans a11⟩

theorem AppendsDescriptors.reflApp (i : Injector) : AppendsDescriptors i i :=
  ⟨⟨[], by simp⟩, ⟨[], by simp⟩, ⟨[], by simp⟩, ⟨[], by simp⟩⟩

theorem AppendsDescriptors.transApp {i j k : Injector}
    (h1 : AppendsDescriptors i j) (h2 : AppendsDescriptors j k) :
    AppendsDescriptors i k := by
  obtain ⟨⟨l1, a1⟩, ⟨l2, a2⟩, ⟨l3, a3⟩, ⟨l4, a4⟩⟩ := h1
  obtain ⟨⟨r1, b1⟩, ⟨r2, b2⟩, ⟨r3, b3⟩, ⟨r4, b4⟩⟩ := h2
  exact ⟨⟨l1 ++ r1, by rw [b1, a1, List.append_assoc]⟩,
    ⟨l2 ++ r2, by rw [b2, a2, List.append_assoc]⟩,
    ⟨l3 ++ r3, by rw [b3, a3, List.append_assoc]⟩,
    ⟨l4 ++ r4, by rw [b4, a4, List.append_assoc]⟩⟩

mutual

theorem addProvider_keeps (i : Injector) (p : Provider) :
    KeepsCore i (addProvider i p) ∧ AppendsDescriptors i (addProvider i p) := by
  cases p with
  | value vp =>
    exact ⟨⟨rfl, rfl, rfl, rfl, rfl, rfl, rfl, rfl, rfl, rfl, rfl⟩,
      ⟨[vp], rfl⟩, ⟨[], by simp [addProvider]⟩, ⟨[], by simp [addProvider]⟩,
      ⟨[], by simp [addProvider]⟩⟩
  | binding bp =>
    exact ⟨⟨rfl, rfl, rfl, rfl, rfl, rfl, rfl, rfl, rfl, rfl, rfl⟩,
      ⟨[], by simp [addProvider]⟩, ⟨[bp], rfl⟩, ⟨[], by simp [addProvider]⟩,
      ⟨[], by simp [addProvider]⟩⟩
  | ifaceValue vp =>
    exact ⟨⟨rfl, rfl, rfl, rfl, rfl, rfl, rfl, rfl, rfl, rfl, rfl⟩,
      ⟨[], by simp [addProvider]⟩, ⟨[], by simp [addProvider]⟩,
      ⟨[], by simp [addProvider]⟩, ⟨[vp], rfl⟩⟩
  | func fp =>
    exact ⟨⟨rfl, rfl, rfl, rfl, rfl, rfl, rfl, rfl, rfl, rfl, rfl⟩,
      ⟨[], by simp [addProvider]⟩, ⟨[], by simp [addProvider]⟩,
      ⟨[fp], rfl⟩, ⟨[], by simp [addProvider]⟩⟩
  | set ps =>
    rw [addProvider]
    exact addProviders_keeps i ps

theorem addProviders_keeps (i : Injector) (ps : List Provider) :
    KeepsCore i (addProviders i ps) ∧ AppendsDescriptors i (addProviders i ps) := by
  cases ps with
  | nil => exact ⟨KeepsCore.reflKeeps i, AppendsDescriptors.reflApp i⟩
  | cons p rest =>
    rw [addProviders]
    obtain ⟨h1, h2⟩ := addProvider_keeps i p
    obtain ⟨h3, h4⟩ := addProviders_keeps (addProvider i p) rest
    exact ⟨h1.transKeeps h3, h2.transApp h4⟩

end

/-- Registering a list of `Func` descriptors appends exactly those
descriptors to `funcProviders` and nothing else. -/
theorem addProviders_funcs : ∀ (fds : List FuncP) (i : Injector),
    addProviders i (fds.map Provider.func) =
      { i with funcProviders := i.funcProviders ++ fds } := by
  intro fds
  induction fds with
  | nil =>
    intro i
    show i = _
    simp
  | cons fp rest ih =>
    intro i
    rw [List.map_cons, addProviders]
    show addProviders { i with funcProviders := i.funcProviders ++ [fp] } _ = _
    rw [ih]
    simp

/-! ## `resolveIns` on a fully provider-backed input list -/

/-- When every requested input type misses the value table and hits the
provider map, `resolveIns` succeeds with one `pfRef` argument and one
dependency id per input, in order. -/
theorem resolveIns_allProviders (values pmap : List (Ty × Nat))
    (bindings : List (Ty × Ty)) :
    ∀ tys : List Ty,
      (∀ t ∈ tys, lookup values t = none ∧ (lookup pmap t).isSome) →
      resolveIns values pmap bindings tys =
        .inr (tys.map (fun t => InArg.pfRef ((lookup pmap t).getD 0)),
              tys.map (fun t => (lookup pmap t).getD 0)) := by
  intro tys
  induction tys with
  | nil => intro _; rfl
  | cons t rest ih =>
    intro h
    obtain ⟨hv, hpm⟩ := h t (List.mem_cons_self _ _)
    obtain ⟨pid, hpid⟩ := Option.isSome_iff_exists.mp hpm
    have hrest := ih (fun u hu => h u (List.mem_cons_of_mem _ hu))
    rw [resolveIns]
    simp only [hv, hpid, hrest]
    simp [hpid]

/-! ## `resolveProvidersDependencies` when every input has a provider -/

/-- Successful dependency resolution over a list of map entries with
pairwise distinct node ids: no error, each listed node's `in`, dependency list
and depth updated in place, every other node and every other injector field
untouched. -/
theorem rpdLoop_success :
    ∀ (entries : List (Ty × Nat)) (i : Injector),
      (entries.map Prod.snd).Nodup →
      (∀ e ∈ entries, 1 ≤ e.2 ∧ ∃ p, getPF i.store e.2 = some p ∧
        ∀ t ∈ p.inTypes, lookup i.values t = none ∧
          (lookup i.providersMap t).isSome) →
      ∃ i1, resolveProvidersDependenciesLoop i entries = (none, i1) ∧
        (∀ q, 1 ≤ q → q ∉ entries.map Prod.snd →
          getPF i1.store q = getPF i.store q) ∧
        (∀ e ∈ entries, ∀ p, getPF i.store e.2 = some p →
          getPF i1.store e.2 = some { p with
            inArgs := p.inTypes.map
              (fun t => InArg.pfRef ((lookup i.providersMap t).getD 0)),
            dependencies := p.dependencies ++
              p.inTypes.map (fun t => (lookup i.providersMap t).getD 0),
            depth := -1 }) ∧
        i1.store.length = i.store.length ∧
        i1.values = i.values ∧ i1.providersMap = i.providersMap ∧
        i1.bindings = i.bindings ∧ i1.errors = i.errors ∧
        i1.resolved = i.resolved ∧ i1.cleaned = i.cleaned ∧
        i1.id = i.id ∧ i1.providerFuncs = i.providerFuncs ∧
        i1.callLog = i.callLog ∧ i1.cleanLog = i.cleanLog := by
  intro entries
  induction entries with
  | nil =>
    intro i _ _
    refine ⟨i, rfl, fun q _ _ => rfl, by simp, rfl, rfl, rfl, rfl, rfl, rfl,
      rfl, rfl, rfl, rfl, rfl⟩
  | cons e rest ih =>
    intro i hnodup hok
    obtain ⟨hpos, p, hg, hins⟩ := hok e (List.mem_cons_self _ _)
    have hres : resolveIns i.values i.providersMap i.bindings p.inTypes =
        .inr (p.inTypes.map
            (fun t => InArg.pfRef ((lookup i.providersMap t).getD 0)),
          p.inTypes.map (fun t => (lookup i.providersMap t).getD 0)) :=
      resolveIns_allProviders i.values i.providersMap i.bindings p.inTypes hins
    have hstep : resolveProvidersDependenciesLoop i (e :: rest) =
        resolveProvidersDependenciesLoop
          { i with store := setPF i.store e.2 { p with
              inArgs := p.inTypes.map
                (fun t => InArg.pfRef ((lookup i.providersMap t).getD 0)),
              dependencies := p.dependencies ++
                p.inTypes.map (fun t => (lookup i.providersMap t).getD 0),
              depth := -1 } } rest := by
      show resolveProvidersDependenciesLoop i ((e.1, e.2) :: rest) = _
      rw [resolveProvidersDependenciesLoop]
      simp only [hg, hres]
    set p1 : ProviderFunc := { p with
      inArgs := p.inTypes.map
        (fun t => InArg.pfRef ((lookup i.providersMap t).getD 0)),
      dependencies := p.dependencies ++
        p.inTypes.map (fun t => (lookup i.providersMap t).getD 0),
      depth := -1 } with hp1
    set i2 : Injector := { i with store := setPF i.store e.2 p1 } with hi2
    have hnodup2 : (rest.map Prod.snd).Nodup := (List.nodup_cons.mp hnodup).2
    have hnotin : e.2 ∉ rest.map Prod.snd := (List.nodup_cons.mp hnodup).1
    have hg2 : ∀ q, q ≠ e.2 → 1 ≤ q → getPF i2.store q = getPF i.store q := by
      intro q hq hq1
      show getPF (setPF i.store e.2 p1) q = getPF i.store q
      exact getPF_setPF_ne (by omega)
    have hok2 : ∀ f ∈ rest, 1 ≤ f.2 ∧ ∃ p2, getPF i2.store f.2 = some p2 ∧
        ∀ t ∈ p2.inTypes, lookup i2.values t = none ∧
          (lookup i2.providersMap t).isSome := by
      intro f hf
      obtain ⟨hf1, p2, hgf, hinf⟩ := hok f (List.mem_cons_of_mem _ hf)
      have hne : f.2 ≠ e.2 := by
        intro hcontra
        exact hnotin (hcontra ▸ List.mem_map_of_mem Prod.snd hf)
      refine ⟨hf1, p2, ?_, hinf⟩
      rw [hg2 f.2 hne hf1]
      exact hgf
    obtain ⟨i1, heq, huntouch, hupd, hlen, hv, hpm, hb, herr, hrs, hcl, hid,
      hpf, hclog, hclean⟩ := ih i2 hnodup2 hok2
    refine ⟨i1, by rw [hstep]; exact heq, ?_, ?_, ?_, hv, hpm, hb, herr, hrs,
      hcl, hid, hpf, hclog, hclean⟩
    · intro q hq1 hq
      have hqe : q ≠ e.2 := by
        intro hcontra
        exact hq (hcontra ▸ List.mem_cons_self _ _)
      have hqrest : q ∉ rest.map Prod.snd := by
        intro hcontra
        exact hq (List.mem_cons_of_mem _ hcontra)
      rw [huntouch q hq1 hqrest, hg2 q hqe hq1]
    · intro f hf pf hgf
      rcases List.mem_cons.mp hf with hf | hf
      · subst hf
        have hpeq : pf = p := by
          rw [hg] at hgf
          exact Option.some.inj hgf.symm
        subst hpeq
        rw [huntouch f.2 hpos hnotin]
        show getPF (setPF i.store f.2 p1) f.2 = _
        rw [getPF_setPF_self (getPF_lt hg)]
      · have hne : f.2 ≠ e.2 := by
          intro hcontra
          exact hnotin (hcontra ▸ List.mem_map_of_mem Prod.snd hf)
        have hf1 : 1 ≤ f.2 := (hok f (List.mem_cons_of_mem _ hf)).1
        have hgf2 : getPF i2.store f.2 = some pf := by
          rw [hg2 f.2 hne hf1]; exact hgf
        exact hupd f hf pf hgf2
    · rw [hlen]
      show (setPF i.store e.2 p1).length = i.store.length
      exact length_setPF i.store e.2 p1

/-! ## `buildProviders` -/

theorem mem_of_mem_set {α : Type} :
    ∀ (l : List α) (k : Nat) (v x : α), x ∈ l.set k v → x ∈ l ∨ x = v := by
  intro l
  induction l with
  | nil => intro k v x hx; simp at hx
  | cons a rest ih =>
    intro k v x hx
    cases k with
    | zero =>
      rw [List.set_cons_zero] at hx
      rcases List.mem_cons.mp hx with hx | hx
      · exact Or.inr hx
      · exact Or.inl (List.mem_cons_of_mem _ hx)
    | succ k =>
      rw [List.set_cons_succ] at hx
      rcases List.mem_cons.mp hx with hx | hx
      · exact Or.inl (hx ▸ List.mem_cons_self _ _)
      · rcases ih k v x hx with hx | hx
        · exact Or.inl (List.mem_cons_of_mem _ hx)
        · exact Or.inr hx

theorem buildProviders_length (m : List (Ty × Nat)) (n : Nat) :
    (buildProviders m n).length = n := by
  rw [buildProviders]
  have : ∀ (l : List (Ty × Nat)) (arr : List (Option Nat)),
      (l.foldl (fun arr e => arr.set (e.2 - 1) (some e.2)) arr).length =
        arr.length := by
    intro l
    induction l with
    | nil => intro arr; rfl
    | cons e rest ih =>
      intro arr
      rw [List.foldl_cons, ih]
      exact List.length_set arr _ _
  rw [this]
  exact List.length_replicate n none

theorem buildProviders_mem (m : List (Ty × Nat)) (n : Nat) :
    ∀ x ∈ buildProviders m n, x = none ∨ ∃ e ∈ m, x = some e.2 := by
  rw [buildProviders]
  have : ∀ (l : List (Ty × Nat)) (arr : List (Option Nat)) (x : Option Nat),
      x ∈ l.foldl (fun arr e => arr.set (e.2 - 1) (some e.2)) arr →
        x ∈ arr ∨ ∃ e ∈ l, x = some e.2 := by
    intro l
    induction l with
    | nil => intro arr x hx; exact Or.inl hx
    | cons e rest ih =>
      intro arr x hx
      rw [List.foldl_cons] at hx
      rcases ih _ x hx with hx | ⟨f, hf, hxf⟩
      · rcases mem_of_mem_set _ _ _ _ hx with hx | hx
        · exact Or.inl hx
        · exact Or.inr ⟨e, List.mem_cons_self _ _, hx⟩
      · exact Or.inr ⟨f, List.mem_cons_of_mem _ hf, hxf⟩
  intro x hx
  rcases this m _ x hx with hx | h
  · exact Or.inl (List.eq_of_mem_replicate hx)
  · exact Or.inr h

/-- Pointwise contents of the `providers` array: a slot is filled exactly
when some entry's id names it, and the fill is that id (a consequence of
`providers[p.id-1] = p`). -/
theorem buildProviders_get (m : List (Ty × Nat)) (n : Nat) (j : Nat)
    (hj : j < n) (hpos : ∀ e ∈ m, 1 ≤ e.2) :
    (buildProviders m n).get? j =
      some (if m.any (fun e => e.2 == j + 1) then some (j + 1) else none) := by
  rw [buildProviders]
  have main : ∀ (l : List (Ty × Nat)) (arr : List (Option Nat)),
      (∀ e ∈ l, 1 ≤ e.2) → j < arr.length →
      (l.foldl (fun arr e => arr.set (e.2 - 1) (some e.2)) arr).get? j =
        if l.any (fun e => e.2 == j + 1) then some (some (j + 1))
        else arr.get? j := by
    intro l
    induction l with
    | nil => intro arr _ _; simp
    | cons e rest ih =>
      intro arr hpos2 hlen
      rw [List.foldl_cons]
      have hlen2 : j < (arr.set (e.2 - 1) (some e.2)).length := by
        rw [List.length_set]; exact hlen
      rw [ih _ (fun f hf => hpos2 f (List.mem_cons_of_mem _ hf)) hlen2]
      by_cases he : e.2 = j + 1
      · have hidx : e.2 - 1 = j := by omega
        have hset : (arr.set (e.2 - 1) (some e.2)).get? j =
            some (some (j + 1)) := by
          rw [hidx, he, List.get?_eq_getElem?, List.getElem?_set_self hlen]
        rw [hset]
        have hany : (e :: rest).any (fun f => f.2 == j + 1) = true := by
          simp [List.any_cons, he]
        rw [hany, if_pos rfl]
        by_cases hr : rest.any (fun f => f.2 == j + 1)
        · rw [if_pos hr]
        · rw [if_neg hr]
      · have h1 : 1 ≤ e.2 := hpos2 e (List.mem_cons_self _ _)
        have hidx : e.2 - 1 ≠ j := by omega
        have hset : (arr.set (e.2 - 1) (some e.2)).get? j = arr.get? j := by
          rw [List.get?_eq_getElem?, List.getElem?_set_ne hidx,
            ← List.get?_eq_getElem?]
        rw [hset]
        have hany : (e :: rest).any (fun f => f.2 == j + 1) =
            rest.any (fun f => f.2 == j + 1) := by
          simp [List.any_cons, he]
        rw [hany]
  rw [main m _ hpos (by rw [List.length_replicate]; exact hj)]
  by_cases hm : m.any (fun e => e.2 == j + 1)
  · rw [if_pos hm, if_pos hm]
  · rw [if_neg hm, if_neg hm, List.get?_eq_getElem?,
      List.getElem?_replicate_of_lt hj]

/-! ## Positions in `zip`-with-`range` lists -/

theorem zip_range_get {α : Type} :
    ∀ (l : List α) (k : Nat),
      (List.zip l (List.range l.length)).get? k =
        (l.get? k).map (fun a => (a, k)) := by
  intro l
  induction l with
  | nil => intro k; simp
  | cons a rest ih =>
    intro k
    rw [List.length_cons, List.range_succ_eq_map, List.zip_cons_cons]
    cases k with
    | zero => rfl
    | succ k =>
      rw [List.get?_cons_succ, List.zip_map_right, List.get?_eq_getElem?,
        List.getElem?_map, ← List.get?_eq_getElem?, ih k,
        List.get?_cons_succ]
      cases rest.get? k with
      | none => rfl
      | some b => rfl

theorem mem_zip_range {α : Type} :
    ∀ (l : List α) (n : Nat) (a : α) (j : Nat),
      (a, j) ∈ List.zip l (List.range n) → l.get? j = some a ∧ j < n := by
  intro l
  induction l with
  | nil => intro n a j h; simp at h
  | cons x rest ih =>
    intro n a j h
    cases n with
    | zero => simp at h
    | succ n =>
      rw [List.range_succ_eq_map, List.zip_cons_cons] at h
      rcases List.mem_cons.mp h with h | h
      · have h1 : a = x := congrArg Prod.fst h
        have h2 : j = 0 := congrArg Prod.snd h
        subst h1
        subst h2
        exact ⟨rfl, Nat.succ_pos n⟩
      · rw [List.zip_map_right] at h
        obtain ⟨⟨b, j2⟩, hmem, heq⟩ := List.mem_map.mp h
        have hb : b = a := congrArg Prod.fst heq
        have hj : j2 + 1 = j := congrArg Prod.snd heq
        obtain ⟨hget, hlt⟩ := ih n b j2 hmem
        subst hb
        rw [← hj]
        exact ⟨hget, by omega⟩

/-! ## The factory-only container scenario -/

/-- A container freshly `Provide`d with a list of `Func` descriptors. -/
def mkInjector (fds : List FuncP) : Injector :=
  Provide New (fds.map Provider.func)

/-- The provider map `matchProviderFuncs` builds for a clean factory list:
the k-th descriptor's output mapped to node id `k + 1`. -/
def pmapOf (env : TypeEnv) (fds : List FuncP) : List (Ty × Nat) :=
  (List.zip fds (List.range fds.length)).map (fun e => (outOf env e.1, e.2 + 1))

/-- The node id serving a type in the factory-only scenario. -/
def pidOf (env : TypeEnv) (fds : List FuncP) (t : Ty) : Nat :=
  (lookup (pmapOf env fds) t).getD 0

/-- The store created by `matchProviderFuncs` for a clean factory list. -/
def matchedStore (env : TypeEnv) (fds : List FuncP) : List ProviderFunc :=
  (List.zip fds (List.range fds.length)).map
    (fun e => mkPF e.1 (e.2 + 1) ((shapeOf env e.1.outTys).getD ("", -1, -1)))

/-- The k-th descriptor's node after dependency resolution. -/
def nodeOf (env : TypeEnv) (fds : List FuncP) (e : FuncP × Nat) : ProviderFunc :=
  { id := e.2 + 1, fn := e.1.fn, inTypes := e.1.inTypes,
    inArgs := e.1.inTypes.map (fun t => InArg.pfRef (pidOf env fds t)),
    dependencies := e.1.inTypes.map (pidOf env fds),
    out := ((shapeOf env e.1.outTys).getD ("", -1, -1)).1,
    errOut := ((shapeOf env e.1.outTys).getD ("", -1, -1)).2.1,
    cleanupOut := ((shapeOf env e.1.outTys).getD ("", -1, -1)).2.2,
    outValue := none, cleanup := none, depth := -1 }

/-- The store after `resolveProvidersDependencies` in the factory-only
scenario. -/
def resolvedStore (env : TypeEnv) (fds : List FuncP) : List ProviderFunc :=
  (List.zip fds (List.range fds.length)).map (nodeOf env fds)

/-- A factory descriptor list accepted without configuration errors: each
descriptor is a function with a legal output shape and no skip flag, the
output types are pairwise distinct and differ from the injector self-type,
and every declared input is the output of some registered factory. -/
def CleanFuncs (env : TypeEnv) (fds : List FuncP) : Prop :=
  (∀ fp ∈ fds, fp.isFunc = true ∧ fp.ifNotExists = false ∧
    (shapeOf env fp.outTys).isSome) ∧
  (fds.map (outOf env)).Nodup ∧
  (∀ fp ∈ fds, outOf env fp ≠ injectorTy) ∧
  (∀ fp ∈ fds, ∀ t ∈ fp.inTypes, t ≠ injectorTy ∧ t ∈ fds.map (outOf env))

theorem mkInjector_eq (fds : List FuncP) :
    mkInjector fds = { values := [(injectorTy, 0)], funcProviders := fds } := by
  rw [mkInjector, Provide, addProviders_funcs]
  rfl

theorem pmapOf_length (env : TypeEnv) (fds : List FuncP) :
    (pmapOf env fds).length = fds.length := by
  rw [pmapOf, List.length_map, List.length_zip, List.length_range]
  exact Nat.min_self _

theorem pmapOf_get (env : TypeEnv) (fds : List FuncP) (k : Nat) :
    (pmapOf env fds).get? k =
      (fds.get? k).map (fun fp => (outOf env fp, k + 1)) := by
  rw [pmapOf, List.get?_eq_getElem?, List.getElem?_map, ← List.get?_eq_getElem?,
    zip_range_get]
  cases fds.get? k with
  | none => rfl
  | some fp => rfl

theorem matchedStore_length (env : TypeEnv) (fds : List FuncP) :
    (matchedStore env fds).length = fds.length := by
  rw [matchedStore, List.length_map, List.length_zip, List.length_range]
  exact Nat.min_self _

theorem matchedStore_get (env : TypeEnv) (fds : List FuncP) (k : Nat) :
    (matchedStore env fds).get? k =
      (fds.get? k).map
        (fun fp => mkPF fp (k + 1) ((shapeOf env fp.outTys).getD ("", -1, -1))) := by
  rw [matchedStore, List.get?_eq_getElem?, List.getElem?_map,
    ← List.get?_eq_getElem?, zip_range_get]
  cases fds.get? k with
  | none => rfl
  | some fp => rfl

theorem resolvedStore_length (env : TypeEnv) (fds : List FuncP) :
    (resolvedStore env fds).length = fds.length := by
  rw [resolvedStore, List.length_map, List.length_zip, List.length_range]
  exact Nat.min_self _

theorem resolvedStore_get (env : TypeEnv) (fds : List FuncP) (k : Nat) :
    (resolvedStore env fds).get? k =
      (fds.get? k).map (fun fp => nodeOf env fds (fp, k)) := by
  rw [resolvedStore, List.get?_eq_getElem?, List.getElem?_map,
    ← List.get?_eq_getElem?, zip_range_get]
  cases fds.get? k with
  | none => rfl
  | some fp => rfl

theorem getPF_resolvedStore (env : TypeEnv) (fds : List FuncP) (q : Nat) :
    getPF (resolvedStore env fds) q =
      (fds.get? (q - 1)).map (fun fp => nodeOf env fds (fp, q - 1)) := by
  rw [getPF, resolvedStore_get]

theorem pmapOf_mem (env : TypeEnv) (fds : List FuncP) :
    ∀ e ∈ pmapOf env fds, ∃ k fp, fds.get? k = some fp ∧
      e = (outOf env fp, k + 1) := by
  intro e he
  rw [pmapOf] at he
  obtain ⟨z, hz, hze⟩ := List.mem_map.mp he
  obtain ⟨hget, _⟩ := mem_zip_range fds fds.length z.1 z.2 (by
    cases z
    exact hz)
  exact ⟨z.2, z.1, hget, hze.symm⟩

theorem pmapOf_mem_of_get (env : TypeEnv) (fds : List FuncP) (k : Nat)
    (fp : FuncP) (h : fds.get? k = some fp) :
    (outOf env fp, k + 1) ∈ pmapOf env fds := by
  have := pmapOf_get env fds k
  rw [h] at this
  exact List.get?_mem this

theorem lookup_pmapOf_isSome (env : TypeEnv) (fds : List FuncP) (t : Ty)
    (ht : t ∈ fds.map (outOf env)) :
    (lookup (pmapOf env fds) t).isSome := by
  cases hl : lookup (pmapOf env fds) t with
  | some v => rfl
  | none =>
    exfalso
    obtain ⟨fp, hfp, hout⟩ := List.mem_map.mp ht
    obtain ⟨k, hk⟩ := List.mem_iff_get?.mp hfp
    have hmem := pmapOf_mem_of_get env fds k fp hk
    exact (lookup_eq_none_iff _ _).mp hl _ hmem hout

theorem pidOf_spec (env : TypeEnv) (fds : List FuncP) (t : Ty)
    (ht : t ∈ fds.map (outOf env)) :
    ∃ k fp, fds.get? k = some fp ∧ pidOf env fds t = k + 1 ∧
      outOf env fp = t := by
  obtain ⟨v, hv⟩ := Option.isSome_iff_exists.mp (lookup_pmapOf_isSome env fds t ht)
  obtain ⟨k, fp, hget, he⟩ := pmapOf_mem env fds (t, v) (lookup_mem hv)
  have h1 : t = outOf env fp := congrArg Prod.fst he
  have h2 : v = k + 1 := congrArg Prod.snd he
  refine ⟨k, fp, hget, ?_, h1.symm⟩
  rw [pidOf, hv, h2]
  rfl

theorem pidOf_bounds (env : TypeEnv) (fds : List FuncP) (t : Ty)
    (ht : t ∈ fds.map (outOf env)) :
    1 ≤ pidOf env fds t ∧ pidOf env fds t - 1 < fds.length := by
  obtain ⟨k, fp, hget, hpid, _⟩ := pidOf_spec env fds t ht
  have hk : k < fds.length := by
    by_contra h
    rw [List.get?_eq_getElem?, List.getElem?_eq_none (Nat.le_of_not_lt h)] at hget
    exact Option.noConfusion hget
  exact ⟨by omega, by omega⟩

theorem pmapOf_snd (env : TypeEnv) (fds : List FuncP) :
    (pmapOf env fds).map Prod.snd = (List.range fds.length).map (fun k => k + 1) := by
  rw [pmapOf, List.map_map]
  have h1 : (Prod.snd ∘ fun e : FuncP × Nat => (outOf env e.1, e.2 + 1)) =
      (fun k => k + 1) ∘ Prod.snd := rfl
  rw [h1, ← List.map_map, List.map_snd_zip]
  rw [List.length_range]

theorem pmapOf_snd_nodup (env : TypeEnv) (fds : List FuncP) :
    ((pmapOf env fds).map Prod.snd).Nodup := by
  rw [pmapOf_snd]
  exact (List.nodup_range _).map (fun a b h => Nat.succ.inj h)

/-- `matchProviderFuncs` on the freshly provided factory-only container. -/
theorem matched_pipeline (env : TypeEnv) (fds : List FuncP)
    (hc : CleanFuncs env fds) :
    ∃ i1, matchProviderFuncsLoop env
        { values := [(injectorTy, 0)], funcProviders := fds } fds = i1 ∧
      i1.store = matchedStore env fds ∧
      i1.providersMap = pmapOf env fds ∧
      i1.errors = [] ∧ i1.values = [(injectorTy, 0)] ∧ i1.bindings = [] ∧
      i1.resolved = false ∧ i1.cleaned = false ∧ i1.providerFuncs = [] ∧
      i1.callLog = [] ∧ i1.cleanLog = [] ∧ i1.id = fds.length := by
  obtain ⟨i1, heq, hst, hpm, herr, hid, hv, hb, hr, hcln, hpf, hcl, hclog⟩ :=
    matchProviderFuncsLoop_clean env fds
      { values := [(injectorTy, 0)], funcProviders := fds }
      (fun fp hfp => ⟨(hc.1 fp hfp).1, (hc.1 fp hfp).2.1,
        Option.isSome_iff_exists.mp (hc.1 fp hfp).2.2⟩)
      (fun fp _ => rfl) hc.2.1 rfl
  refine ⟨i1, heq, ?_, ?_, herr, hv, hb, hr, hcln, hpf, hcl, hclog, ?_⟩
  · rw [hst]
    show [] ++ _ = _
    rw [List.nil_append, matchedStore]
    apply List.map_congr_left
    intro e _
    show mkPF e.1 (0 + e.2 + 1) _ = mkPF e.1 (e.2 + 1) _
    rw [Nat.zero_add]
  · rw [hpm]
    show [] ++ _ = _
    rw [List.nil_append, pmapOf]
    apply List.map_congr_left
    intro e _
    show (outOf env e.1, 0 + e.2 + 1) = (outOf env e.1, e.2 + 1)
    rw [Nat.zero_add]
  · rw [hid]
    show 0 + fds.length = fds.length
    rw [Nat.zero_add]

/-- `resolveProvidersDependencies` on the matched factory-only container. -/
theorem rpd_matched (env : TypeEnv) (fds : List FuncP)
    (hc : CleanFuncs env fds) :
    ∀ i1 : Injector, i1.store = matchedStore env fds →
      i1.providersMap = pmapOf env fds → i1.values = [(injectorTy, 0)] →
      ∃ i2, resolveProvidersDependenciesLoop i1 (pmapOf env fds) = (none, i2) ∧
        i2.store = resolvedStore env fds ∧
        i2.values = i1.values ∧ i2.providersMap = i1.providersMap ∧
        i2.bindings = i1.bindings ∧ i2.errors = i1.errors ∧
        i2.resolved = i1.resolved ∧ i2.cleaned = i1.cleaned ∧
        i2.id = i1.id ∧ i2.providerFuncs = i1.providerFuncs ∧
        i2.callLog = i1.callLog ∧ i2.cleanLog = i1.cleanLog := by
  intro i1 hst hpm hv
  have hok : ∀ e ∈ pmapOf env fds, 1 ≤ e.2 ∧ ∃ p, getPF i1.store e.2 = some p ∧
      ∀ t ∈ p.inTypes, lookup i1.values t = none ∧
        (lookup i1.providersMap t).isSome := by
    intro e he
    obtain ⟨k, fp, hget, hek⟩ := pmapOf_mem env fds e he
    have hsnd : e.2 = k + 1 := congrArg Prod.snd hek
    have hfp : fp ∈ fds := List.get?_mem hget
    refine ⟨by omega, mkPF fp (k + 1) ((shapeOf env fp.outTys).getD ("", -1, -1)),
      ?_, ?_⟩
    · rw [hst, hsnd]
      show (matchedStore env fds).get? (k + 1 - 1) = _
      rw [show k + 1 - 1 = k from rfl, matchedStore_get, hget]
      rfl
    · intro t ht
      obtain ⟨hne, hmem⟩ := hc.2.2.2 fp hfp t ht
      constructor
      · rw [hv, lookup_cons_ne _ _ _ _ (fun h => hne h.symm), lookup_nil]
      · rw [hpm]
        exact lookup_pmapOf_isSome env fds t hmem
  obtain ⟨i2, heq, huntouch, hupd, hlen, hv2, hpm2, hb2, herr2, hr2, hcl2,
    hid2, hpf2, hclog2, hclean2⟩ :=
    rpdLoop_success (pmapOf env fds) i1 (pmapOf_snd_nodup env fds) hok
  refine ⟨i2, heq, ?_, hv2, hpm2, hb2, herr2, hr2, hcl2, hid2, hpf2, hclog2,
    hclean2⟩
  have hl1 : i1.store.length = fds.length := by
    rw [hst, matchedStore_length]
  apply List.ext_get?
  intro m
  rcases Nat.lt_or_ge m fds.length with hm | hm
  · obtain ⟨fp, hget⟩ := Option.isSome_iff_exists.mp (by
      rw [List.get?_eq_getElem?]
      simp [List.getElem?_eq_getElem hm] : (fds.get? m).isSome)
    have hmem : (outOf env fp, m + 1) ∈ pmapOf env fds :=
      pmapOf_mem_of_get env fds m fp hget
    have hg1 : getPF i1.store (m + 1) =
        some (mkPF fp (m + 1) ((shapeOf env fp.outTys).getD ("", -1, -1))) := by
      rw [hst]
      show (matchedStore env fds).get? (m + 1 - 1) = _
      rw [show m + 1 - 1 = m from rfl, matchedStore_get, hget]
      rfl
    have hupd2 := hupd (outOf env fp, m + 1) hmem _ hg1
    have hstep : i2.store.get? m = getPF i2.store (m + 1) := rfl
    rw [hstep, hupd2, resolvedStore_get, hget]
    show _ = some (nodeOf env fds (fp, m))
    rw [hpm]
    rfl
  · have h1 : i2.store.get? m = none := by
      rw [List.get?_eq_getElem?, List.getElem?_eq_none]
      rw [hlen, hl1]
      exact hm
    have h2 : (resolvedStore env fds).get? m = none := by
      rw [List.get?_eq_getElem?, List.getElem?_eq_none]
      rw [resolvedStore_length]
      exact hm
    rw [h1, h2]

/-! ## Initial DFS state facts -/

theorem getD_replicate_false (n k : Nat) :
    (List.replicate n false).getD k false = false := by
  rcases Nat.lt_or_ge k n with h | h
  · rw [List.getD_eq_getElem?_getD, List.getElem?_replicate, if_pos h]
    rfl
  · rw [List.getD_eq_getElem?_getD, List.getElem?_replicate,
      if_neg (Nat.not_lt.mpr h)]
    rfl

theorem count_false_zero : ∀ l : List Bool,
    (∀ k, k < l.length → l.getD k false = true) → l.count false = 0 := by
  intro l
  induction l with
  | nil => intro _; rfl
  | cons a rest ih =>
    intro h
    have ha : a = true := h 0 (Nat.succ_pos _)
    subst ha
    rw [List.count_cons]
    have : rest.count false = 0 := ih (fun k hk => h (k + 1) (by
      rw [List.length_cons]; omega))
    simp [this]

theorem count_true_zero : ∀ l : List Bool,
    (∀ k, k < l.length → l.getD k false = false) → l.count true = 0 := by
  intro l
  induction l with
  | nil => intro _; rfl
  | cons a rest ih =>
    intro h
    have ha : a = false := h 0 (Nat.succ_pos _)
    subst ha
    rw [List.count_cons]
    have : rest.count true = 0 := ih (fun k hk => h (k + 1) (by
      rw [List.length_cons]; omega))
    simp [this]

theorem resolvedStore_depsWf (env : TypeEnv) (fds : List FuncP)
    (hc : CleanFuncs env fds) :
    ∀ k p, getPF (resolvedStore env fds) k = some p → ∀ d ∈ p.dependencies,
      1 ≤ d ∧ d - 1 < (resolvedStore env fds).length := by
  intro k p hp d hd
  rw [getPF_resolvedStore] at hp
  cases hget : fds.get? (k - 1) with
  | none => rw [hget] at hp; exact Option.noConfusion hp
  | some fp =>
    rw [hget] at hp
    have hpe : p = nodeOf env fds (fp, k - 1) := (Option.some.inj hp).symm
    subst hpe
    have hd2 : d ∈ fp.inTypes.map (pidOf env fds) := hd
    obtain ⟨t, ht, hdt⟩ := List.mem_map.mp hd2
    have hfp : fp ∈ fds := List.get?_mem hget
    obtain ⟨_, hmem⟩ := hc.2.2.2 fp hfp t ht
    obtain ⟨h1, h2⟩ := pidOf_bounds env fds t hmem
    rw [← hdt, resolvedStore_length]
    exact ⟨h1, h2⟩

theorem dfs_initial (store : List ProviderFunc) (n : Nat)
    (hlen : store.length = n)
    (hdeps : ∀ k p, getPF store k = some p → ∀ d ∈ p.dependencies,
      1 ≤ d ∧ d - 1 < store.length) :
    DfsWf ⟨List.replicate n false, List.replicate n false, store⟩ ∧
    BlackInv ⟨List.replicate n false, List.replicate n false, store⟩ ∧
    GrayInv ⟨List.replicate n false, List.replicate n false, store⟩ [] ∧
    Wc ⟨List.replicate n false, List.replicate n false, store⟩ = n := by
  refine ⟨⟨?_, ?_, hdeps, ?_⟩, ?_, ⟨?_, List.nodup_nil, by simp⟩, ?_⟩
  · rw [List.length_replicate, hlen]
  · rw [List.length_replicate, hlen]
  · intro q hg
    have h2 : (List.replicate n false).getD (q - 1) false = true := hg
    rw [getD_replicate_false] at h2
    exact Bool.noConfusion h2
  · intro b _ _ hb
    exact absurd (getD_replicate_false n (b - 1)) hb.1
  · intro q _
    constructor
    · intro hg
      have h2 : (List.replicate n false).getD (q - 1) false = true := hg
      rw [getD_replicate_false] at h2
      exact Bool.noConfusion h2
    · intro hmem
      exact absurd hmem (List.not_mem_nil q)
  · show (List.replicate n false).count false = n
    simp

theorem provs_ids (env : TypeEnv) (fds : List FuncP) :
    ∀ e ∈ buildProviders (pmapOf env fds) fds.length,
      ∀ pid, e = some pid → 1 ≤ pid ∧ pid - 1 < fds.length := by
  intro e he pid hpid
  rcases buildProviders_mem _ _ e he with hnone | ⟨f, hf, hef⟩
  · rw [hpid] at hnone
    exact Option.noConfusion hnone
  · obtain ⟨k, fp, hget, hfk⟩ := pmapOf_mem env fds f hf
    have hsnd : f.2 = k + 1 := congrArg Prod.snd hfk
    have hk : k < fds.length := by
      by_contra h
      rw [List.get?_eq_getElem?, List.getElem?_eq_none (Nat.le_of_not_lt h)] at hget
      exact Option.noConfusion hget
    rw [hpid] at hef
    have hpe : pid = f.2 := Option.some.inj hef
    omega

theorem provs_cover (env : TypeEnv) (fds : List FuncP) :
    ∀ j, j < fds.length →
      some (j + 1) ∈ buildProviders (pmapOf env fds) fds.length := by
  intro j hj
  have hpos : ∀ e ∈ pmapOf env fds, 1 ≤ e.2 := by
    intro e he
    obtain ⟨k, fp, _, hek⟩ := pmapOf_mem env fds e he
    have h2 : e.2 = k + 1 := congrArg Prod.snd hek
    omega
  obtain ⟨fp, hget⟩ := Option.isSome_iff_exists.mp (show (fds.get? j).isSome by
    rw [List.get?_eq_getElem?]
    simp [List.getElem?_eq_getElem hj])
  have hmem : (outOf env fp, j + 1) ∈ pmapOf env fds :=
    pmapOf_mem_of_get env fds j fp hget
  have hany : (pmapOf env fds).any (fun e => e.2 == j + 1) = true :=
    List.any_eq_true.mpr ⟨(outOf env fp, j + 1), hmem, by simp⟩
  have hg := buildProviders_get (pmapOf env fds) fds.length j hj hpos
  rw [hany, if_pos rfl] at hg
  exact List.get?_mem hg

/-- Full characterization of `Resolve` on a freshly provided clean factory
list: bindings / values / interface passes are no-ops, factory matching and
dependency resolution succeed, and the run ends in the cycle check — the
container resolves exactly when the factory dependency graph is acyclic,
and otherwise returns the cycle error and stays unresolved. -/
theorem resolve_factories (env : TypeEnv) (fds : List FuncP)
    (hc : CleanFuncs env fds) :
    ∃ r i4, Resolve env (mkInjector fds) = (r, i4) ∧
      i4.values = [(injectorTy, 0)] ∧
      i4.providersMap = pmapOf env fds ∧
      i4.bindings = [] ∧ i4.errors = [] ∧ i4.cleaned = false ∧
      i4.providerFuncs = [] ∧ i4.callLog = [] ∧ i4.cleanLog = [] ∧
      i4.store.length = fds.length ∧
      EqExceptDepth (resolvedStore env fds) i4.store ∧
      ( (r = none ∧ i4.resolved = true ∧ DepthGood i4.store) ∨
        ((∃ trace, r = some (GoErr.mk
            ("dependenc cycle detected " ++ String.intercalate "<-" trace)) ∧
          HasCycle (resolvedStore env fds)) ∧ i4.resolved = false) ) := by
  obtain ⟨i1, heq1, hst1, hpm1, herr1, hv1, hb1, hr1, hcln1, hpf1, hcl1,
    hclog1, hid1⟩ := matched_pipeline env fds hc
  obtain ⟨i2, heq2, hst2, hv2, hpm2, hb2, herr2, hr2, hcl2, hid2, hpf2,
    hclog2, hclean2⟩ := rpd_matched env fds hc i1 hst1 hpm1 hv1
  have hv2x : i2.values = [(injectorTy, 0)] := hv2.trans hv1
  have hpm2x : i2.providersMap = pmapOf env fds := hpm2.trans hpm1
  have hb2x : i2.bindings = [] := hb2.trans hb1
  have herr2x : i2.errors = [] := herr2.trans herr1
  have hr2x : i2.resolved = false := hr2.trans hr1
  have hcl2x : i2.cleaned = false := hcl2.trans hcln1
  have hpf2x : i2.providerFuncs = [] := hpf2.trans hpf1
  have hclog2x : i2.callLog = [] := hclog2.trans hcl1
  have hclean2x : i2.cleanLog = [] := hclean2.trans hclog1
  obtain ⟨hwf0, hblack0, hgray0, hwc0⟩ :=
    dfs_initial (resolvedStore env fds) fds.length (resolvedStore_length env fds)
      (resolvedStore_depsWf env fds hc)
  obtain ⟨res, s1, hcy, hev, hwf1, htr, hnone⟩ :=
    cyclesLoopSpec (fds.length + 1) (buildProviders (pmapOf env fds) fds.length)
      ⟨List.replicate fds.length false, List.replicate fds.length false,
       resolvedStore env fds⟩
      hwf0 hblack0 hgray0
      (fun e he pid hpid => by
        obtain ⟨h1, h2⟩ := provs_ids env fds e he pid hpid
        exact ⟨h1, by
          show pid - 1 < (resolvedStore env fds).length
          rw [resolvedStore_length]
          exact h2⟩)
      (by rw [hwc0]; exact Nat.le_succ _)
  have hmatch : matchProviderFuncs env
      { values := [(injectorTy, 0)], funcProviders := fds } = i1 := heq1
  have hcy2 : cyclesLoop (i2.store.length + 1)
      (buildProviders i2.providersMap i2.providersMap.length)
      ⟨List.replicate i2.providersMap.length false,
       List.replicate i2.providersMap.length false, i2.store⟩ =
      some (res, s1) := by
    rw [hst2, hpm2x, pmapOf_length, resolvedStore_length]
    exact hcy
  have hrpf : resolveProvideFunctions env
      { values := [(injectorTy, 0)], funcProviders := fds } =
      (match res with
       | some trace =>
           (some (GoErr.mk ("dependenc cycle detected " ++
              String.intercalate "<-" trace)),
            { i2 with store := s1.store })
       | none => (none, { i2 with store := s1.store })) := by
    rw [resolveProvideFunctions, hmatch, herr1]
    simp only [List.isEmpty_nil, Bool.not_true, Bool.false_eq_true, if_false]
    rw [resolveProvidersDependencies, hpm1]
    simp only [heq2]
    simp only [hcy2]
    cases res with
    | some trace => rfl
    | none => rfl
  have hfe : Resolve env (mkInjector fds) =
      (match res with
       | some trace =>
           (some (GoErr.mk ("dependenc cycle detected " ++
              String.intercalate "<-" trace)),
            { i2 with store := s1.store })
       | none =>
           (none, { i2 with store := s1.store, resolved := true })) := by
    rw [mkInjector_eq]
    show (match resolveProvideFunctions env
        { values := [(injectorTy, 0)], funcProviders := fds } with
      | (some e, i4) => (some e, i4)
      | (none, i4) => (none, { i4 with resolved := true })) = _
    simp only [hrpf]
    cases res with
    | some trace => rfl
    | none => rfl
  have hlen1 : s1.store.length = fds.length := by
    have h1 := hev.store.1
    have h2 : (resolvedStore env fds).length = s1.store.length := h1
    rw [← h2, resolvedStore_length]
  cases res with
  | none =>
    obtain ⟨hblack1, hgray1, hcov⟩ := hnone rfl
    have hall : ∀ b, 1 ≤ b → b - 1 < s1.store.length → isBlack s1 b := by
      intro b hb1 hblt
      have hbn : b - 1 < fds.length := by rw [hlen1] at hblt; exact hblt
      have hcovb := hcov (some (b - 1 + 1)) (provs_cover env fds (b - 1) hbn)
        (b - 1 + 1) rfl
      have hbeq : b - 1 + 1 = b := by omega
      rw [hbeq] at hcovb
      refine ⟨hcovb, ?_⟩
      intro hg
      exact absurd ((hgray1.1 b hb1).mp hg) (List.not_mem_nil b)
    have hvlen1 : s1.visited.length = fds.length := by
      rw [hwf1.vlen, hlen1]
    have hdlen1 : s1.dfs.length = fds.length := by
      rw [hwf1.dlen, hlen1]
    have hwcz : Wc s1 = 0 := by
      rw [Wc]
      apply count_false_zero
      intro k hk
      have hb := hall (k + 1) (Nat.succ_pos k) (by rw [hlen1]; rw [hvlen1] at hk; omega)
      cases hval : s1.visited.getD k false
      · exact absurd (show isWhite s1 (k + 1) from hval) hb.1
      · rfl
    have hgcz : Gc s1 = 0 := by
      rw [Gc]
      apply count_true_zero
      intro k hk
      cases hval : s1.dfs.getD k false
      · rfl
      · exact absurd ((hgray1.1 (k + 1) (Nat.succ_pos k)).mp
          (show isGray s1 (k + 1) from hval)) (List.not_mem_nil _)
    have hdg : DepthGood s1.store :=
      depthGood_of_allBlack s1 hblack1 hwf1 hall hwcz hgcz
    refine ⟨none, { i2 with store := s1.store, resolved := true }, hfe,
      hv2x, hpm2x, hb2x, herr2x, hcl2x, hpf2x, hclog2x, hclean2x, hlen1,
      hev.store, Or.inl ⟨rfl, rfl, hdg⟩⟩
  | some trace =>
    have hcycle : HasCycle (resolvedStore env fds) := by
      obtain ⟨c, o, hcyc, _, _, _⟩ := htr trace rfl
      exact ⟨c, hcyc⟩
    refine ⟨some (GoErr.mk ("dependenc cycle detected " ++
        String.intercalate "<-" trace)),
      { i2 with store := s1.store }, hfe,
      hv2x, hpm2x, hb2x, herr2x, hcl2x, hpf2x, hclog2x, hclean2x, hlen1,
      hev.store, Or.inr ⟨⟨trace, rfl, hcycle⟩, hr2x⟩⟩

/-! ## `InjectAs` computation helpers -/

theorem InjectAs_ptr_run (i : Injector) (T : Ty)
    (hres : i.resolved = true) (hcl : i.cleaned = false)
    (herr : i.errors = []) :
    InjectAs i (Dest.ptr T) =
      (match injectAs i T with
       | (some e, v, i1) => (some e, v, i1)
       | (none, v, i1) =>
           (none, v,
            { i1 with providerFuncs := sortByDepth i1.store i1.providerFuncs })) := by
  rw [InjectAs, hres, hcl, herr]
  rfl

theorem injectAs_provider (i : Injector) (T : Ty) (pid : Nat)
    (hval : lookup i.values T = none)
    (hpm : lookup i.providersMap T = some pid) :
    injectAs i T = injectAsRun i pid := by
  simp only [injectAs, hval, hpm]

theorem injectAsRun_exec (i : Injector) (pid : Nat) (p : ProviderFunc)
    (hg : getPF i.store pid = some p) (ho : p.outValue = none) :
    injectAsRun i pid =
      (match executeNecessaryProviders i pid with
       | (some e, i1) => (some e, none, i1)
       | (none, i1) =>
           (none, (getPF i1.store pid).bind (fun q => q.outValue), i1)) := by
  simp only [injectAsRun, hg, ho, Option.isSome_none, Bool.false_eq_true,
    if_false]

theorem injectAsRun_memo (i : Injector) (pid : Nat) (p : ProviderFunc)
    (hg : getPF i.store pid = some p) (ho : p.outValue.isSome) :
    injectAsRun i pid = (none, p.outValue, i) := by
  simp only [injectAsRun, hg, ho, if_true]

/-- Every node of a store matching the resolved factory store carries a
registered factory function and no memoized output. -/
theorem store_node_shape (env : TypeEnv) (fds : List FuncP)
    (st : List ProviderFunc) (hed : EqExceptDepth (resolvedStore env fds) st)
    (q : Nat) (pq : ProviderFunc) (hg : getPF st q = some pq) :
    ∃ fp, fds.get? (q - 1) = some fp ∧ pq.fn = fp.fn ∧ pq.outValue = none := by
  obtain ⟨d, hr⟩ := hed.symm.getPF_iff q pq hg
  rw [getPF_resolvedStore] at hr
  cases hget : fds.get? (q - 1) with
  | none => rw [hget] at hr; exact Option.noConfusion hr
  | some fp =>
    rw [hget] at hr
    have heq : nodeOf env fds (fp, q - 1) = { pq with depth := d } :=
      Option.some.inj hr
    refine ⟨fp, rfl, ?_, ?_⟩
    · exact (congrArg ProviderFunc.fn heq).symm
    · exact (congrArg ProviderFunc.outValue heq).symm

/-- C1: for every clean, acyclic, always-succeeding factory set, `Resolve`
returns nil; a first `InjectAs` for a produced type `T` succeeds, a second
returns the same memoized instance, and across both calls `T`'s node and
every transitively depended-on node (diamonds included) is invoked exactly
once, all other nodes zero times. -/
theorem resolve_memoizes_acyclic (env : TypeEnv) (fds : List FuncP)
    (hc : CleanFuncs env fds)
    (hnc : ¬ HasCycle (resolvedStore env fds))
    (hsucc : ∀ fp ∈ fds, ∀ args, (fp.fn args).err = none)
    (T : Ty) (hT : T ∈ fds.map (outOf env)) :
    ∃ i4 pid v i5 i6,
      Resolve env (mkInjector fds) = (none, i4) ∧
      lookup i4.providersMap T = some pid ∧
      InjectAs i4 (Dest.ptr T) = (none, some v, i5) ∧
      InjectAs i5 (Dest.ptr T) = (none, some v, i6) ∧
      (∀ q, Reaches i4.store pid q → i6.callLog.count q = 1) ∧
      (∀ q, ¬ Reaches i4.store pid q → i6.callLog.count q = 0) := by
  obtain ⟨r, i4, hre, hv4, hpm4, hb4, herr4, hcle4, hpf4, hcall4, hclog4,
    hslen4, hed4, hdisj⟩ := resolve_factories env fds hc
  rcases hdisj with ⟨hrn, hres4, hdg⟩ | ⟨⟨trace, _, hcyc⟩, _⟩
  swap
  · exact absurd hcyc hnc
  subst hrn
  obtain ⟨k, fp, hget, hpid, hout⟩ := pidOf_spec env fds T hT
  obtain ⟨pv, hpv⟩ :=
    Option.isSome_iff_exists.mp (lookup_pmapOf_isSome env fds T hT)
  have hpveq : pidOf env fds T = pv := by rw [pidOf, hpv]; rfl
  have hpvk : pv = k + 1 := by rw [← hpveq, hpid]
  have hlookup4 : lookup i4.providersMap T = some pv := by rw [hpm4]; exact hpv
  have hvlookup4 : lookup i4.values T = none := by
    rw [hv4]
    have hTne : T ≠ injectorTy := by
      rw [← hout]
      exact hc.2.2.1 fp (List.get?_mem hget)
    rw [lookup_cons_ne _ _ _ _ (fun h => hTne h.symm), lookup_nil]
  -- the node behind pv
  obtain ⟨p4, hp4⟩ : ∃ p4, getPF i4.store pv = some p4 := by
    have hr : getPF (resolvedStore env fds) pv = some (nodeOf env fds (fp, k)) := by
      rw [getPF_resolvedStore, hpvk]
      show (fds.get? (k + 1 - 1)).map _ = _
      rw [show k + 1 - 1 = k from rfl, hget]
      rfl
    obtain ⟨d, hd⟩ := hed4.getPF_iff pv _ hr
    exact ⟨_, hd⟩
  obtain ⟨fp4, hget4, hfn4, hov4⟩ := store_node_shape env fds i4.store hed4 pv p4 hp4
  -- the execution list
  have hpv1 : 1 ≤ pv := by omega
  have hLok : ∀ q ∈ getProviders i4.store (i4.store.length + 1) pv,
      1 ≤ q ∧ ∃ pq, getPF i4.store q = some pq ∧ succeedsAlways pq := by
    intro q hq
    refine ⟨getProviders_pos i4.store hdg _ pv q hpv1 hq, ?_⟩
    obtain ⟨pq, hpq⟩ := getProviders_valid i4.store _ pv q hq
    obtain ⟨fpq, hgetq, hfnq, _⟩ := store_node_shape env fds i4.store hed4 q pq hpq
    refine ⟨pq, hpq, ?_⟩
    intro args
    rw [hfnq]
    exact hsucc fpq (List.get?_mem hgetq) args
  obtain ⟨hexnone, hexout, hexcount⟩ :=
    execProviders_success (getProviders i4.store (i4.store.length + 1) pv) i4 hLok
  set i5p : Injector :=
    (execProviders (getProviders i4.store (i4.store.length + 1) pv) i4).2 with hi5p
  have hexec : executeNecessaryProviders i4 pv = (none, i5p) := by
    rw [executeNecessaryProviders]
    have hpair : execProviders (getProviders i4.store (i4.store.length + 1) pv) i4 =
        ((execProviders (getProviders i4.store (i4.store.length + 1) pv) i4).1,
         i5p) := rfl
    rw [hpair, hexnone]
  -- membership / reachability
  have hmemL : ∀ q, q ∈ getProviders i4.store (i4.store.length + 1) pv ↔
      Reaches i4.store pv q := by
    intro q
    constructor
    · exact getProviders_sound i4.store _ pv q
    · intro hrch
      apply getProviders_complete i4.store hdg _ pv q p4 hp4 _ hrch
      have := (hdg pv p4 hp4).2.1
      have h2 : (i4.store.length : Int) < ((i4.store.length + 1 : Nat) : Int) := by
        push_cast
        omega
      omega
  have hpvL : pv ∈ getProviders i4.store (i4.store.length + 1) pv :=
    (hmemL pv).mpr (Reaches.refl pv)
  -- the memoized value after execution
  obtain ⟨v, hv⟩ := Option.isSome_iff_exists.mp (hexout pv hpvL)
  -- first InjectAs
  have hfirst : InjectAs i4 (Dest.ptr T) =
      (none, some v,
       { i5p with providerFuncs := sortByDepth i5p.store i5p.providerFuncs }) := by
    rw [InjectAs_ptr_run i4 T hres4 hcle4 herr4,
      injectAs_provider i4 T pv hvlookup4 hlookup4,
      injectAsRun_exec i4 pv p4 hp4 hov4, hexec]
    show (none, (getPF i5p.store pv).bind (fun q => q.outValue), _) = _
    have hov : (getPF i5p.store pv).bind (fun q => q.outValue) = some v := hv
    rw [hov]
  set i5 : Injector :=
    { i5p with providerFuncs := sortByDepth i5p.store i5p.providerFuncs } with hi5
  obtain ⟨hfv, hfpm, hfb, hfr, hfc, hfe, hfcl, hfsl⟩ :=
    execProviders_frame (getProviders i4.store (i4.store.length + 1) pv) i4
  -- second InjectAs
  have hres5 : i5.resolved = true := by
    show i5p.resolved = true
    rw [hfr, hres4]
  have hcle5 : i5.cleaned = false := by
    show i5p.cleaned = false
    rw [hfc, hcle4]
  have herr5 : i5.errors = [] := by
    show i5p.errors = []
    rw [hfe, herr4]
  have hvlookup5 : lookup i5.values T = none := by
    show lookup i5p.values T = none
    rw [hfv, hv4]
    have hTne : T ≠ injectorTy := by
      rw [← hout]
      exact hc.2.2.1 fp (List.get?_mem hget)
    rw [lookup_cons_ne _ _ _ _ (fun h => hTne h.symm), lookup_nil]
  have hlookup5 : lookup i5.providersMap T = some pv := by
    show lookup i5p.providersMap T = some pv
    rw [hfpm, hpm4]
    exact hpv
  obtain ⟨p5, hp5⟩ : ∃ p5, getPF i5.store pv = some p5 := by
    have : (outValueAt i5p.store pv).isSome := hexout pv hpvL
    rw [outValueAt] at this
    cases hg : getPF i5p.store pv with
    | none => rw [hg] at this; simp at this
    | some p5 => exact ⟨p5, rfl⟩
  have hp5v : p5.outValue = some v := by
    have h2 : (getPF i5p.store pv).bind (fun q => q.outValue) = some v := hv
    have h3 : getPF i5p.store pv = some p5 := hp5
    rw [h3, Option.some_bind] at h2
    exact h2
  have hsecond : InjectAs i5 (Dest.ptr T) =
      (none, some v,
       { i5 with providerFuncs := sortByDepth i5.store i5.providerFuncs }) := by
    rw [InjectAs_ptr_run i5 T hres5 hcle5 herr5,
      injectAs_provider i5 T pv hvlookup5 hlookup5,
      injectAsRun_memo i5 pv p5 hp5 (by rw [hp5v]; rfl)]
    rw [hp5v]
  refine ⟨i4, pv, v, i5,
    { i5 with providerFuncs := sortByDepth i5.store i5.providerFuncs },
    hre, hlookup4, hfirst, hsecond, ?_, ?_⟩
  · intro q hrch
    have hq : q ∈ getProviders i4.store (i4.store.length + 1) pv :=
      (hmemL q).mpr hrch
    show i5p.callLog.count q = 1
    rw [hexcount q]
    obtain ⟨pq, hpq⟩ := getProviders_valid i4.store _ pv q hq
    obtain ⟨fpq, hgetq, hfnq, hovq⟩ :=
      store_node_shape env fds i4.store hed4 q pq hpq
    have hovn : outValueAt i4.store q = none := by
      rw [outValueAt, hpq, Option.some_bind, hovq]
    rw [if_pos ⟨hq, hovn⟩, hcall4]
    rfl
  · intro q hrch
    have hq : q ∉ getProviders i4.store (i4.store.length + 1) pv := by
      intro hmem
      exact hrch ((hmemL q).mp hmem)
    show i5p.callLog.count q = 0
    rw [hexcount q, if_neg (fun h => hq h.1), hcall4]
    rfl

/-- C2 (amended): a cycle among the registered factories makes `Resolve`
fail with the `dependenc cycle detected` error, and the container never
reaches the resolved state.  (The original claim's trace-completeness part
is refuted by `resolve_cycle_trace_incomplete` below.) -/
theorem resolve_cycle_detected (env : TypeEnv) (fds : List FuncP)
    (hc : CleanFuncs env fds)
    (hcyc : HasCycle (resolvedStore env fds)) :
    ∃ trace i4,
      Resolve env (mkInjector fds) =
        (some (GoErr.mk ("dependenc cycle detected " ++
           String.intercalate "<-" trace)), i4) ∧
      i4.resolved = false := by
  obtain ⟨r, i4, hre, _, _, _, _, _, _, _, _, _, hed, hdisj⟩ :=
    resolve_factories env fds hc
  rcases hdisj with ⟨hrn, _, hdg⟩ | ⟨⟨trace, htr, _⟩, hres⟩
  · exfalso
    obtain ⟨c, hcycc⟩ := hcyc
    exact no_cycle_of_depthGood i4.store hdg ⟨c, hcycc.ofEqCycle hed⟩
  · exact ⟨trace, i4, by rw [hre, htr], hres⟩

/-! ## Concrete scenario instances -/

/-- A concrete reflective environment: `error` is the only error type and
`func()` the only cleanup type; no interfaces. -/
def envC : TypeEnv :=
  { isInterface := fun _ => false, elemIsInterface := fun _ => false,
    implements := fun _ _ => false, canConvert := fun _ _ => false,
    assignableToError := fun t => t == "error",
    assignableToCleanup := fun t => t == "func()" }

/-- One dependency-free factory producing `A` (instance token 5). -/
def fdsC1 : List FuncP :=
  [{ isFunc := true, tyName := "func() A", inTypes := [], outTys := ["A"],
     fn := fun _ => ⟨5, none, none⟩ }]

/-- Two factories in a dependency cycle: `a` needs `b` and `b` needs `a`. -/
def fdsC2 : List FuncP :=
  [{ isFunc := true, tyName := "func(b) a", inTypes := ["b"], outTys := ["a"],
     fn := fun _ => ⟨1, none, none⟩ },
   { isFunc := true, tyName := "func(a) b", inTypes := ["a"], outTys := ["b"],
     fn := fun _ => ⟨2, none, none⟩ }]

theorem fdsC1_acyclic : ¬ HasCycle (resolvedStore envC fdsC1) := by
  rintro ⟨c, hne, hch, hcl⟩
  have hnoedge : ∀ x y, ¬ DepEdge (resolvedStore envC fdsC1) x y := by
    rintro x y ⟨p, hp, hy⟩
    rw [getPF_resolvedStore] at hp
    cases hm : fdsC1.get? (x - 1) with
    | none => rw [hm] at hp; exact Option.noConfusion hp
    | some fp =>
      rw [hm] at hp
      have hpe : p = nodeOf envC fdsC1 (fp, x - 1) := (Option.some.inj hp).symm
      subst hpe
      have hfp : fp ∈ fdsC1 := List.get?_mem hm
      simp [fdsC1] at hfp
      subst hfp
      simp [nodeOf] at hy
  cases c with
  | nil => exact hne rfl
  | cons a rest =>
    obtain ⟨x, hx⟩ : ∃ x, (a :: rest).getLast? = some x := by
      cases h : (a :: rest).getLast? with
      | some x => exact ⟨x, rfl⟩
      | none => rw [List.getLast?_eq_none_iff] at h; exact absurd h (by simp)
    exact hnoedge x a (hcl x hx a rfl)

theorem fdsC2_cycle : HasCycle (resolvedStore envC fdsC2) := by
  refine ⟨[1, 2], by simp, ?_, ?_⟩
  · exact List.Chain'.cons ⟨_, rfl, by decide⟩ (List.chain'_singleton 2)
  · intro x hx y hy
    have hx2 : x = 2 := by
      have h2 : some 2 = some x := hx
      exact (Option.some.inj h2).symm
    have hy2 : y = 1 := by
      have h2 : some 1 = some y := hy
      exact (Option.some.inj h2).symm
    subst hx2
    subst hy2
    exact ⟨_, rfl, by decide⟩

/-- Witness for C1 at the concrete one-factory container. -/
theorem resolve_memoizes_acyclic_witness :
    ∃ i4 pid v i5 i6,
      Resolve envC (mkInjector fdsC1) = (none, i4) ∧
      lookup i4.providersMap "A" = some pid ∧
      InjectAs i4 (Dest.ptr "A") = (none, some v, i5) ∧
      InjectAs i5 (Dest.ptr "A") = (none, some v, i6) ∧
      (∀ q, Reaches i4.store pid q → i6.callLog.count q = 1) ∧
      (∀ q, ¬ Reaches i4.store pid q → i6.callLog.count q = 0) :=
  resolve_memoizes_acyclic envC fdsC1 (by unfold CleanFuncs; decide) fdsC1_acyclic
    (fun fp hfp => by
      simp [fdsC1] at hfp
      subst hfp
      intro args
      rfl)
    "A" (by decide)

/-- Witness for C2's amended theorem at the concrete two-factory cycle. -/
theorem resolve_cycle_detected_witness :
    ∃ trace i4,
      Resolve envC (mkInjector fdsC2) =
        (some (GoErr.mk ("dependenc cycle detected " ++
           String.intercalate "<-" trace)), i4) ∧
      i4.resolved = false :=
  resolve_cycle_detected envC fdsC2 (by unfold CleanFuncs; decide) fdsC2_cycle

/-- Counterexample to C2 as stated: in the two-node cycle `a ↔ b` the
returned error is literally `dependenc cycle detected a<-a`.  Both nodes
are on the cycle, node 2's output type is named `b`, yet no character `b`
occurs in the message — the trace misses the back-edge origin. -/
theorem resolve_cycle_trace_incomplete :
    (Resolve envC (mkInjector fdsC2)).1 =
      some (GoErr.mk "dependenc cycle detected a<-a") ∧
    IsCycle (resolvedStore envC fdsC2) [1, 2] ∧
    outName (resolvedStore envC fdsC2) 1 = "a" ∧
    outName (resolvedStore envC fdsC2) 2 = "b" ∧
    ('b' ∈ "dependenc cycle detected a<-a".data → False) := by
  refine ⟨?_, ?_, rfl, rfl, by decide⟩
  · simp [Resolve, mkInjector, Provide, addProviders, addProvider, New,
      resolveBindings, resolveBindingsLoop, resolveInterfaceValues,
      resolveInterfaceValuesLoop, resolveValues, resolveValuesLoop,
      matchProviderFuncs, matchProviderFuncsLoop, matchFuncShape, registerPF,
      resolveProvideFunctions, resolveProvidersDependencies,
      resolveProvidersDependenciesLoop, resolveIns, buildProviders, cyclesLoop,
      checkCycles, checkCyclesDeps, setDepth, setPF, getPF, lookup, outName,
      depthOf, maxInt, injectorTy, fdsC2, envC]
    rfl
  · refine ⟨by simp, ?_, ?_⟩
    · exact List.Chain'.cons ⟨_, rfl, by decide⟩ (List.chain'_singleton 2)
    · intro x hx y hy
      have hx2 : x = 2 := by
        have h2 : some 2 = some x := hx
        exact (Option.some.inj h2).symm
      have hy2 : y = 1 := by
        have h2 : some 1 = some y := hy
        exact (Option.some.inj h2).symm
      subst hx2
      subst hy2
      exact ⟨_, rfl, by decide⟩

/-! ## The three-factory cleanup chain (C3) -/

/-- A chain of three factories `A ← B ← C`, each returning a cleanup
callback: output tokens `va vb vc`, cleanup tokens `ca cb cc`. -/
def fdsChain (va vb vc ca cb cc : Nat) : List FuncP :=
  [{ isFunc := true, tyName := "func(B) A", inTypes := ["B"],
     outTys := ["A", "func()"], fn := fun _ => ⟨va, none, some ca⟩ },
   { isFunc := true, tyName := "func(C) B", inTypes := ["C"],
     outTys := ["B", "func()"], fn := fun _ => ⟨vb, none, some cb⟩ },
   { isFunc := true, tyName := "func() C", inTypes := [],
     outTys := ["C", "func()"], fn := fun _ => ⟨vc, none, some cc⟩ }]

/-- C3 (amended): in the chain `A depends on B depends on C`, after a full
resolution `Clean` runs the cleanups dependent-first — A's callback (`ca`)
strictly before B's (`cb`) strictly before C's (`cc`), the mirror of the
claimed order. -/
theorem clean_runs_dependent_first (va vb vc ca cb cc : Nat) :
    (Resolve envC (mkInjector (fdsChain va vb vc ca cb cc))).1 = none ∧
    (InjectAs (Resolve envC (mkInjector (fdsChain va vb vc ca cb cc))).2
        (Dest.ptr "A")).1 = none ∧
    (Clean (InjectAs (Resolve envC (mkInjector (fdsChain va vb vc ca cb cc))).2
        (Dest.ptr "A")).2.2).cleanLog = [ca, cb, cc] := by
  have h1 : Resolve envC (mkInjector (fdsChain va vb vc ca cb cc)) =
      (none,
       { id := 3, resolved := true, values := [(injectorTy, 0)],
         providersMap := [("A", 1), ("B", 2), ("C", 3)],
         providerFuncs := [], bindings := [],
         store :=
           [{ id := 1, fn := fun _ => ⟨va, none, some ca⟩, inTypes := ["B"],
              inArgs := [InArg.pfRef 2], dependencies := [2], out := "A",
              errOut := -1, cleanupOut := 1, outValue := none,
              cleanup := none, depth := 2 },
            { id := 2, fn := fun _ => ⟨vb, none, some cb⟩, inTypes := ["C"],
              inArgs := [InArg.pfRef 3], dependencies := [3], out := "B",
              errOut := -1, cleanupOut := 1, outValue := none,
              cleanup := none, depth := 1 },
            { id := 3, fn := fun _ => ⟨vc, none, some cc⟩, inTypes := [],
              inArgs := [], dependencies := [], out := "C",
              errOut := -1, cleanupOut := 1, outValue := none,
              cleanup := none, depth := 0 }],
         valueProviders := [], bindingProviders := [],
         funcProviders := fdsChain va vb vc ca cb cc,
         interfaceValueProviders := [], errors := [], cleaned := false,
         callLog := [], cleanLog := [] }) := by
    simp [Resolve, mkInjector, Provide, addProviders, addProvider, New,
      resolveBindings, resolveBindingsLoop, resolveInterfaceValues,
      resolveInterfaceValuesLoop, resolveValues, resolveValuesLoop,
      matchProviderFuncs, matchProviderFuncsLoop, matchFuncShape, registerPF,
      resolveProvideFunctions, resolveProvidersDependencies,
      resolveProvidersDependenciesLoop, resolveIns, buildProviders, cyclesLoop,
      checkCycles, checkCyclesDeps, setDepth, setPF, getPF, lookup, outName,
      depthOf, maxInt, injectorTy, fdsChain, envC]
  refine ⟨by rw [h1], ?_, ?_⟩
  · rw [h1]
    rfl
  · rw [h1]
    rfl

/-- Counterexample to C3 as stated: with concrete cleanup tokens `10`
(A's), `11` (B's), `12` (C's), the cleanup log after `Clean` is
`[10, 11, 12]` — C's cleanup runs last, not strictly before B's and A's. -/
theorem clean_order_counterexample :
    (Clean (InjectAs (Resolve envC (mkInjector (fdsChain 20 21 22 10 11 12))).2
        (Dest.ptr "A")).2.2).cleanLog = [10, 11, 12] ∧
    (10 : Nat) ≠ 12 := by
  have h1 : Resolve envC (mkInjector (fdsChain 20 21 22 10 11 12)) =
      (none,
       { id := 3, resolved := true, values := [(injectorTy, 0)],
         providersMap := [("A", 1), ("B", 2), ("C", 3)],
         providerFuncs := [], bindings := [],
         store :=
           [{ id := 1, fn := fun _ => ⟨20, none, some 10⟩, inTypes := ["B"],
              inArgs := [InArg.pfRef 2], dependencies := [2], out := "A",
              errOut := -1, cleanupOut := 1, outValue := none,
              cleanup := none, depth := 2 },
            { id := 2, fn := fun _ => ⟨21, none, some 11⟩, inTypes := ["C"],
              inArgs := [InArg.pfRef 3], dependencies := [3], out := "B",
              errOut := -1, cleanupOut := 1, outValue := none,
              cleanup := none, depth := 1 },
            { id := 3, fn := fun _ => ⟨22, none, some 12⟩, inTypes := [],
              inArgs := [], dependencies := [], out := "C",
              errOut := -1, cleanupOut := 1, outValue := none,
              cleanup := none, depth := 0 }],
         valueProviders := [], bindingProviders := [],
         funcProviders := fdsChain 20 21 22 10 11 12,
         interfaceValueProviders := [], errors := [], cleaned := false,
         callLog := [], cleanLog := [] }) := by
    simp [Resolve, mkInjector, Provide, addProviders, addProvider, New,
      resolveBindings, resolveBindingsLoop, resolveInterfaceValues,
      resolveInterfaceValuesLoop, resolveValues, resolveValuesLoop,
      matchProviderFuncs, matchProviderFuncsLoop, matchFuncShape, registerPF,
      resolveProvideFunctions, resolveProvidersDependencies,
      resolveProvidersDependenciesLoop, resolveIns, buildProviders, cyclesLoop,
      checkCycles, checkCyclesDeps, setDepth, setPF, getPF, lookup, outName,
      depthOf, maxInt, injectorTy, fdsChain, envC]
  refine ⟨?_, by decide⟩
  rw [h1]
  rfl

/-! ## Duplicate-registration scenarios (C4, C5, C6) -/

/-- Two `Value` registrations of the same type, the later one flagged
skip-if-exists. -/
def psC4 : List Provider :=
  [Provider.value { v := some ("T", 1) },
   Provider.value { v := some ("T", 2), ifNotExists := true }]

/-- C4: the `IfNotExists` option documents that the later registration is
kept only when no provider exists, yet `resolveValues` never consults the
flag: the later duplicate still produces the duplicate-provider error and
`Resolve` fails. -/
theorem value_ifNotExists_ignored :
    (Resolve envC (Provide New psC4)).1 =
      some (GoErr.multi [GoErr.mk "provider for type: T already exists"]) ∧
    (Provide New psC4).valueProviders.map ValueP.ifNotExists = [false, true] := by
  exact ⟨rfl, rfl⟩

/-- A `Value` of type `T` together with a factory producing `T`. -/
def psC5 (v w : Nat) : List Provider :=
  [Provider.value { v := some ("T", v) },
   Provider.func
     { isFunc := true, tyName := "func() T", inTypes := [],
       outTys := ["T"], fn := fun _ => ⟨w, none, none⟩ }]

/-- C5 (amended): duplicate providers of different kinds are not detected:
with both a value and a factory registered for `T`, `Resolve` succeeds, and
`InjectAs` returns the value instance while the factory is never invoked
(the call log stays empty) — the value shadows the factory. -/
theorem value_shadows_factory (v w : Nat) :
    (Resolve envC (Provide New (psC5 v w))).1 = none ∧
    (InjectAs (Resolve envC (Provide New (psC5 v w))).2 (Dest.ptr "T")).1 =
      none ∧
    (InjectAs (Resolve envC (Provide New (psC5 v w))).2 (Dest.ptr "T")).2.1 =
      some v ∧
    (InjectAs (Resolve envC (Provide New (psC5 v w))).2
        (Dest.ptr "T")).2.2.callLog = [] := by
  have h1 : Resolve envC (Provide New (psC5 v w)) =
      (none,
       { id := 1, resolved := true, values := [(injectorTy, 0), ("T", v)],
         providersMap := [("T", 1)],
         providerFuncs := [], bindings := [],
         store :=
           [{ id := 1, fn := fun _ => ⟨w, none, none⟩, inTypes := [],
              inArgs := [], dependencies := [], out := "T",
              errOut := -1, cleanupOut := -1, outValue := none,
              cleanup := none, depth := 0 }],
         valueProviders := [{ v := some ("T", v) }], bindingProviders := [],
         funcProviders :=
           [{ isFunc := true, tyName := "func() T", inTypes := [],
              outTys := ["T"], fn := fun _ => ⟨w, none, none⟩ }],
         interfaceValueProviders := [], errors := [], cleaned := false,
         callLog := [], cleanLog := [] }) := by
    simp [Resolve, Provide, addProviders, addProvider, New,
      resolveBindings, resolveBindingsLoop, resolveInterfaceValues,
      resolveInterfaceValuesLoop, resolveValues, resolveValuesLoop,
      matchProviderFuncs, matchProviderFuncsLoop, matchFuncShape, registerPF,
      resolveProvideFunctions, resolveProvidersDependencies,
      resolveProvidersDependenciesLoop, resolveIns, buildProviders, cyclesLoop,
      checkCycles, checkCyclesDeps, setDepth, setPF, getPF, lookup, outName,
      depthOf, maxInt, injectorTy, psC5, envC]
  refine ⟨by rw [h1], ?_, ?_, ?_⟩
  · rw [h1]
    rfl
  · rw [h1]
    rfl
  · rw [h1]
    rfl

/-- Counterexample to C5 as stated: a value and a factory both providing
`T`, neither flagged skip-if-exists, yet `Resolve` reports no error. -/
theorem cross_kind_duplicate_not_detected :
    (Resolve envC (Provide New (psC5 7 9))).1 = none ∧
    (psC5 7 9).length = 2 := by
  refine ⟨?_, rfl⟩
  simp [Resolve, Provide, addProviders, addProvider, New,
    resolveBindings, resolveBindingsLoop, resolveInterfaceValues,
    resolveInterfaceValuesLoop, resolveValues, resolveValuesLoop,
    matchProviderFuncs, matchProviderFuncsLoop, matchFuncShape, registerPF,
    resolveProvideFunctions, resolveProvidersDependencies,
    resolveProvidersDependenciesLoop, resolveIns, buildProviders, cyclesLoop,
    checkCycles, checkCyclesDeps, setDepth, setPF, getPF, lookup, outName,
    depthOf, maxInt, injectorTy, psC5, envC]

/-- An invalid binding (arguments not created with `new`) followed by a
duplicate pair of values. -/
def psC6a : List Provider :=
  [Provider.binding { iface := ⟨false, "I"⟩, toTy := ⟨false, "X"⟩ },
   Provider.value { v := some ("T", 1) },
   Provider.value { v := some ("T", 2) }]

/-- Duplicate values together with a non-function factory descriptor. -/
def psC6b : List Provider :=
  [Provider.value { v := some ("T", 1) },
   Provider.value { v := some ("T", 2) },
   Provider.func
     { isFunc := false, tyName := "notafunc", inTypes := [],
       outTys := [], fn := fun _ => ⟨0, none, none⟩ }]

/-- C6 (amended): mistakes in the value pass and the factory pass do
accumulate into one aggregated multi-error; but an error in the earlier
bindings pass makes `Resolve` skip the interface-value and value passes
entirely (see the counterexample), so not every mistake always surfaces. -/
theorem value_and_func_errors_accumulate :
    (Resolve envC (Provide New psC6b)).1 =
      some (GoErr.multi [GoErr.mk "provider for type: T already exists",
        GoErr.mk "provider notafunc is not a function "]) := by
  rfl

/-- Counterexample to C6 as stated: with an invalid binding and a
duplicate value in the same descriptor set, the aggregated error contains
only the binding mistake — the duplicate value is never scanned. -/
theorem binding_error_masks_value_error :
    (Resolve envC (Provide New psC6a)).1 =
      some (GoErr.multi [GoErr.mk
        ("one of provided bindings are not defining values with " ++
         "`new` statement: I -> X")]) := by
  rfl

/-! ## Factory-error behaviour (C7, C8) -/

/-- C7: in the execution loop run by `executeNecessaryProviders` for every
`InjectAs` / `Inject` request, when the nodes executed so far all succeed
and the next node's factory reports an error, that exact error value is
returned, no node after the failing one is executed (their ghost call
counts are unchanged), and every memoized output — from this request's
prefix or from earlier requests — is kept untouched. -/
theorem factory_error_aborts_verbatim (i : Injector) (L1 L2 : List Nat)
    (pfail : Nat) (e : GoErr) (pp : ProviderFunc)
    (hL1 : ∀ q ∈ L1, 1 ≤ q ∧ ∃ p, getPF i.store q = some p ∧ succeedsAlways p)
    (hnot : pfail ∉ L1) (hp1 : 1 ≤ pfail)
    (hg : getPF i.store pfail = some pp)
    (ho : pp.outValue = none) (herr : pp.errOut > 0)
    (hf : ∀ args, (pp.fn args).err = some e) :
    ∃ i2, execProviders (L1 ++ pfail :: L2) i = (some e, i2) ∧
      i2.store = (execProviders L1 i).2.store ∧
      (∀ q ∈ L1, (outValueAt i2.store q).isSome) ∧
      (∀ q v, outValueAt i.store q = some v → outValueAt i2.store q = some v) ∧
      i2.callLog = (execProviders L1 i).2.callLog ++ [pfail] ∧
      (∀ q, q ∉ L1 → q ≠ pfail → i2.callLog.count q = i.callLog.count q) := by
  obtain ⟨h1, h2, _⟩ := execProviders_success L1 i hL1
  have hpair : execProviders L1 i =
      (none, (execProviders L1 i).2) := by
    rw [show execProviders L1 i =
      ((execProviders L1 i).1, (execProviders L1 i).2) from rfl, h1]
  have hsplit := execProviders_append L1 (pfail :: L2) i
  rw [hpair] at hsplit
  have hg1 : getPF (execProviders L1 i).2.store pfail = some pp := by
    rw [execProviders_getPF_untouched L1 i pfail hp1
      (fun r hr => (hL1 r hr).1) hnot]
    exact hg
  have hfail := execProviders_failStep (execProviders L1 i).2 pfail L2 pp e hg1
    ho herr (hf _)
  refine ⟨{ (execProviders L1 i).2 with
      callLog := (execProviders L1 i).2.callLog ++ [pfail] }, ?_, rfl, h2, ?_,
    rfl, ?_⟩
  · rw [hsplit]
    exact hfail
  · intro q v hq
    exact execProviders_outValue_mono L1 i q v hq
  · intro q hq1 hq2
    show ((execProviders L1 i).2.callLog ++ [pfail]).count q = _
    rw [List.count_append, execProviders_count_untouched L1 i q hq1]
    simp [List.count_singleton, hq2]

/-- A node that always succeeds with token 3, and a node whose factory
always fails with the opaque error 9. -/
def iC7 : Injector :=
  { store :=
      [{ id := 1, fn := fun _ => ⟨3, none, none⟩, inTypes := [],
         inArgs := [], dependencies := [], out := "X", errOut := -1,
         cleanupOut := -1, outValue := none, cleanup := none, depth := 0 },
       { id := 2, fn := fun _ => ⟨0, some (GoErr.custom 9), none⟩,
         inTypes := [], inArgs := [], dependencies := [], out := "Y",
         errOut := 1, cleanupOut := -1, outValue := none, cleanup := none,
         depth := 0 }] }

/-- Witness for C7 at a concrete two-node store. -/
theorem factory_error_aborts_verbatim_witness :
    ∃ i2, execProviders ([1] ++ 2 :: [1]) iC7 = (some (GoErr.custom 9), i2) ∧
      i2.store = (execProviders [1] iC7).2.store ∧
      (∀ q ∈ [1], (outValueAt i2.store q).isSome) ∧
      (∀ q v, outValueAt iC7.store q = some v →
        outValueAt i2.store q = some v) ∧
      i2.callLog = (execProviders [1] iC7).2.callLog ++ [2] ∧
      (∀ q, q ∉ [1] → q ≠ 2 → i2.callLog.count q = iC7.callLog.count q) :=
  factory_error_aborts_verbatim iC7 [1] [1] 2 (GoErr.custom 9)
    { id := 2, fn := fun _ => ⟨0, some (GoErr.custom 9), none⟩,
      inTypes := [], inArgs := [], dependencies := [], out := "Y",
      errOut := 1, cleanupOut := -1, outValue := none, cleanup := none,
      depth := 0 }
    (fun q hq => by
      have hq1 : q = 1 := by simpa using hq
      subst hq1
      exact ⟨Nat.le_refl 1,
        { id := 1, fn := fun _ => ⟨3, none, none⟩, inTypes := [],
          inArgs := [], dependencies := [], out := "X", errOut := -1,
          cleanupOut := -1, outValue := none, cleanup := none, depth := 0 },
        rfl, fun args => rfl⟩)
    (by decide) (by decide) rfl rfl (by decide) (fun args => rfl)

/-- A single factory that always fails with the opaque error 9. -/
def fdsC8 : List FuncP :=
  [{ isFunc := true, tyName := "func() (T, error)", inTypes := [],
     outTys := ["T", "error"], fn := fun _ => ⟨0, some (GoErr.custom 9), none⟩ }]

/-- C8 (amended): a node that has already succeeded is memoized and never
re-invoked — a later `InjectAs` for its type returns the stored instance
with the call log unchanged.  (A node that failed is not memoized and is
re-invoked; see the counterexample.) -/
theorem memoized_not_reinvoked (i : Injector) (T : Ty) (pid : Nat) (v : Nat)
    (hres : i.resolved = true) (hcl : i.cleaned = false) (herr : i.errors = [])
    (hval : lookup i.values T = none)
    (hpm : lookup i.providersMap T = some pid)
    (p : ProviderFunc) (hg : getPF i.store pid = some p)
    (ho : p.outValue = some v) :
    InjectAs i (Dest.ptr T) =
      (none, some v,
       { i with providerFuncs := sortByDepth i.store i.providerFuncs }) ∧
    ({ i with providerFuncs := sortByDepth i.store i.providerFuncs }).callLog
      = i.callLog := by
  refine ⟨?_, rfl⟩
  rw [InjectAs_ptr_run i T hres hcl herr, injectAs_provider i T pid hval hpm,
    injectAsRun_memo i pid p hg (by rw [ho]; rfl), ho]

/-- A resolved container holding one memoized node for `T` (token 4). -/
def iC8 : Injector :=
  { resolved := true, providersMap := [("T", 1)],
    store :=
      [{ id := 1, fn := fun _ => ⟨4, none, none⟩, inTypes := [],
         inArgs := [], dependencies := [], out := "T", errOut := -1,
         cleanupOut := -1, outValue := some 4, cleanup := none, depth := 0 }] }

/-- Witness for C8's amended theorem at a concrete memoized container. -/
theorem memoized_not_reinvoked_witness :
    InjectAs iC8 (Dest.ptr "T") =
      (none, some 4,
       { iC8 with providerFuncs := sortByDepth iC8.store iC8.providerFuncs }) ∧
    ({ iC8 with
        providerFuncs := sortByDepth iC8.store iC8.providerFuncs }).callLog
      = iC8.callLog :=
  memoized_not_reinvoked iC8 "T" 1 4 rfl rfl rfl rfl rfl
    { id := 1, fn := fun _ => ⟨4, none, none⟩, inTypes := [],
      inArgs := [], dependencies := [], out := "T", errOut := -1,
      cleanupOut := -1, outValue := some 4, cleanup := none, depth := 0 }
    rfl rfl

/-- Counterexample to C8 as stated: the failing factory for `T` is invoked
again by the second `InjectAs` — the ghost call log ends as `[1, 1]`, two
invocations of node 1 — so a failed node is not single-attempt. -/
theorem failed_factory_reinvoked :
    (InjectAs (Resolve envC (mkInjector fdsC8)).2 (Dest.ptr "T")).1 =
      some (GoErr.custom 9) ∧
    (InjectAs (InjectAs (Resolve envC (mkInjector fdsC8)).2
        (Dest.ptr "T")).2.2 (Dest.ptr "T")).1 = some (GoErr.custom 9) ∧
    (InjectAs (InjectAs (Resolve envC (mkInjector fdsC8)).2
        (Dest.ptr "T")).2.2 (Dest.ptr "T")).2.2.callLog = [1, 1] := by
  have h1 : Resolve envC (mkInjector fdsC8) =
      (none,
       { id := 1, resolved := true, values := [(injectorTy, 0)],
         providersMap := [("T", 1)],
         providerFuncs := [], bindings := [],
         store :=
           [{ id := 1, fn := fun _ => ⟨0, some (GoErr.custom 9), none⟩,
              inTypes := [], inArgs := [], dependencies := [], out := "T",
              errOut := 1, cleanupOut := -1, outValue := none,
              cleanup := none, depth := 0 }],
         valueProviders := [], bindingProviders := [],
         funcProviders := fdsC8,
         interfaceValueProviders := [], errors := [], cleaned := false,
         callLog := [], cleanLog := [] }) := by
    simp [Resolve, mkInjector, Provide, addProviders, addProvider, New,
      resolveBindings, resolveBindingsLoop, resolveInterfaceValues,
      resolveInterfaceValuesLoop, resolveValues, resolveValuesLoop,
      matchProviderFuncs, matchProviderFuncsLoop, matchFuncShape, registerPF,
      resolveProvideFunctions, resolveProvidersDependencies,
      resolveProvidersDependenciesLoop, resolveIns, buildProviders, cyclesLoop,
      checkCycles, checkCyclesDeps, setDepth, setPF, getPF, lookup, outName,
      depthOf, maxInt, injectorTy, fdsC8, envC]
  refine ⟨?_, ?_, ?_⟩
  · rw [h1]
    rfl
  · rw [h1]
    rfl
  · rw [h1]
    rfl

/-! ## Destination-shape usage errors (C9) -/

theorem ne_of_data_get2 (s1 s2 : String)
    (h : s1.data.get? 2 ≠ s2.data.get? 2) : GoErr.mk s1 ≠ GoErr.mk s2 :=
  fun hc => h (congrArg (fun s : String => s.data.get? 2) (GoErr.mk.inj hc))

theorem notfound_get2 (elem : String) :
    ("injector not found for the type: " ++ elem).data.get? 2 = some 'j' := by
  rw [String.data_append, List.get?_eq_getElem?, List.getElem?_append,
    if_pos (by decide)]
  decide

theorem notstruct_get2 (tn : String) :
    ("input injection type is not a pointer to the struct but: " ++
      tn).data.get? 2 = some 'p' := by
  rw [String.data_append, List.get?_eq_getElem?, List.getElem?_append,
    if_pos (by decide)]
  decide

/-- C9: a nil or wrongly-shaped destination for `InjectAs` / `Inject` on a
resolved container yields a usage error and leaves the container untouched;
each such usage error differs from the `injector not found` error (their
messages already differ at the third character). -/
theorem wrong_destination_usage_error (i : Injector)
    (hres : i.resolved = true) (hcl : i.cleaned = false)
    (herr : i.errors = []) :
    InjectAs i Dest.nil =
      (some (GoErr.mk "input injection type is nil"), none, i) ∧
    (∀ t, InjectAs i (Dest.nonPtr t) =
      (some (GoErr.mk "input injection type is not a pointer"), none, i)) ∧
    Inject i StructDest.nil =
      (some (GoErr.mk "input injection type is nil"), i) ∧
    (∀ tn, Inject i (StructDest.notStruct tn) =
      (some (GoErr.mk ("input injection type is not a pointer to the struct but: "
        ++ tn)), i)) ∧
    (∀ elem, GoErr.mk "input injection type is nil" ≠
      GoErr.mk ("injector not found for the type: " ++ elem)) ∧
    (∀ elem, GoErr.mk "input injection type is not a pointer" ≠
      GoErr.mk ("injector not found for the type: " ++ elem)) ∧
    (∀ tn elem,
      GoErr.mk ("input injection type is not a pointer to the struct but: " ++ tn) ≠
      GoErr.mk ("injector not found for the type: " ++ elem)) := by
  refine ⟨?_, ?_, ?_, ?_, ?_, ?_, ?_⟩
  · rw [InjectAs, hres, hcl, herr]
    rfl
  · intro t
    rw [InjectAs, hres, hcl, herr]
    rfl
  · rw [Inject, hres, hcl, herr]
    rfl
  · intro tn
    rw [Inject, hres, hcl, herr]
    rfl
  · intro elem
    apply ne_of_data_get2
    rw [notfound_get2]
    decide
  · intro elem
    apply ne_of_data_get2
    rw [notfound_get2]
    decide
  · intro tn elem
    apply ne_of_data_get2
    rw [notstruct_get2, notfound_get2]
    decide

/-- A minimal resolved container. -/
def iC9 : Injector := { resolved := true }

/-- Witness for C9 at a minimal resolved container. -/
theorem wrong_destination_usage_error_witness :
    InjectAs iC9 Dest.nil =
      (some (GoErr.mk "input injection type is nil"), none, iC9) ∧
    (∀ t, InjectAs iC9 (Dest.nonPtr t) =
      (some (GoErr.mk "input injection type is not a pointer"), none, iC9)) ∧
    Inject iC9 StructDest.nil =
      (some (GoErr.mk "input injection type is nil"), iC9) ∧
    (∀ tn, Inject iC9 (StructDest.notStruct tn) =
      (some (GoErr.mk ("input injection type is not a pointer to the struct but: "
        ++ tn)), iC9)) ∧
    (∀ elem, GoErr.mk "input injection type is nil" ≠
      GoErr.mk ("injector not found for the type: " ++ elem)) ∧
    (∀ elem, GoErr.mk "input injection type is not a pointer" ≠
      GoErr.mk ("injector not found for the type: " ++ elem)) ∧
    (∀ tn elem,
      GoErr.mk ("input injection type is not a pointer to the struct but: " ++ tn) ≠
      GoErr.mk ("injector not found for the type: " ++ elem)) :=
  wrong_destination_usage_error iC9 rfl rfl rfl

/-! ## `Provide` frame behaviour (C10) -/

theorem injectAs_notfound (i : Injector) (T : Ty)
    (hv : lookup i.values T = none) (hpm : lookup i.providersMap T = none)
    (hb : lookup i.bindings T = none) :
    injectAs i T =
      (some (GoErr.mk ("injector not found for the type: " ++ T)), none, i) := by
  simp only [injectAs, hv, hpm, hb]

/-- C10: `Provide` only appends to the per-kind descriptor lists
(`AppendsDescriptors`) and leaves every other field — value table, provider
map, binding table, store, execution log, errors, flags — untouched
(`KeepsCore`).  Hence a provider first registered after a successful
`Resolve` is invisible: `InjectAs` for its type still reports `injector
not found`, and a second `Resolve` refuses to run with
`ErrAlreadyResolved`. -/
theorem provide_only_appends (env : TypeEnv) (i : Injector)
    (ps : List Provider) (T : Ty)
    (hres : i.resolved = true) (hcl : i.cleaned = false)
    (herr : i.errors = [])
    (hv : lookup i.values T = none) (hpm : lookup i.providersMap T = none)
    (hb : lookup i.bindings T = none) :
    KeepsCore i (Provide i ps) ∧ AppendsDescriptors i (Provide i ps) ∧
    (InjectAs (Provide i ps) (Dest.ptr T)).1 =
      some (GoErr.mk ("injector not found for the type: " ++ T)) ∧
    (Resolve env (Provide i ps)).1 = some GoErr.alreadyResolved := by
  obtain ⟨hk, ha⟩ := addProviders_keeps i ps
  obtain ⟨hkv, hkp, hkb, hkst, hkpf, hke, hkr, hkc, hki, hkcl, hkcg⟩ := hk
  have hresj : (Provide i ps).resolved = true := by
    show (addProviders i ps).resolved = true
    rw [hkr, hres]
  have hclj : (Provide i ps).cleaned = false := by
    show (addProviders i ps).cleaned = false
    rw [hkc, hcl]
  have herrj : (Provide i ps).errors = [] := by
    show (addProviders i ps).errors = []
    rw [hke, herr]
  have hvj : lookup (Provide i ps).values T = none := by
    show lookup (addProviders i ps).values T = none
    rw [hkv]
    exact hv
  have hpmj : lookup (Provide i ps).providersMap T = none := by
    show lookup (addProviders i ps).providersMap T = none
    rw [hkp]
    exact hpm
  have hbj : lookup (Provide i ps).bindings T = none := by
    show lookup (addProviders i ps).bindings T = none
    rw [hkb]
    exact hb
  refine ⟨⟨hkv, hkp, hkb, hkst, hkpf, hke, hkr, hkc, hki, hkcl, hkcg⟩, ha,
    ?_, ?_⟩
  · rw [InjectAs_ptr_run (Provide i ps) T hresj hclj herrj,
      injectAs_notfound (Provide i ps) T hvj hpmj hbj]
  · rw [Resolve, hclj, hresj]
    rfl

/-- Witness for C10: providing a value for `U` after a resolved container. -/
theorem provide_only_appends_witness :
    KeepsCore iC8 (Provide iC8 [Provider.value { v := some ("U", 5) }]) ∧
    AppendsDescriptors iC8
      (Provide iC8 [Provider.value { v := some ("U", 5) }]) ∧
    (InjectAs (Provide iC8 [Provider.value { v := some ("U", 5) }])
        (Dest.ptr "U")).1 =
      some (GoErr.mk ("injector not found for the type: " ++ "U")) ∧
    (Resolve envC (Provide iC8 [Provider.value { v := some ("U", 5) }])).1 =
      some GoErr.alreadyResolved :=
  provide_only_appends envC iC8 [Provider.value { v := some ("U", 5) }] "U"
    rfl rfl rfl rfl rfl rfl

end Wireless
